import Mathlib

/-!
# IEEE paper parser and citation formatter

A shallow embedding of the two pure functions of the repository and of the handlers
that keep the citation numbers:

* `toIEEEFormat` of `server/models/Reference.js` (the IEEE citation formatter);
* `parseContent` of `client/src/components/IEEEPreview.js` (the document-structure parser)
  with its helper `extractText`;
* `addReference`, `updateReference` and `deleteReference` of
  `server/controllers/reference.controller.js`, as functions on the stored collections.

JavaScript strings are modelled as lists of characters (`Str`), arrays as lists, the
regular expressions of the source as matchers built from combinators that follow the
constructors of the regular expression one by one (greedy, backtracking, anchored at
the start of the line as every pattern of the source is).
-/

namespace Paper

set_option maxRecDepth 100000

/-- A JavaScript string, as the list of its characters. -/
abbrev Str := List Char

/-! ## String primitives -/

/-- The double quote character. -/
def dquote : Char := Char.ofNat 34

/-- The em dash U+2014 of the marker patterns. -/
def emDash : Char := Char.ofNat 8212

/-- White space in the sense of `String.prototype.trim` and of the regular-expression
class `\s`: the WhiteSpace and LineTerminator code points of ECMAScript. -/
def isSpace (c : Char) : Bool :=
  let n := c.toNat
  n == 9 || n == 10 || n == 11 || n == 12 || n == 13 || n == 32 || n == 160 ||
  n == 5760 || (8192 ≤ n && n ≤ 8202) || n == 8232 || n == 8233 || n == 8239 ||
  n == 8287 || n == 12288 || n == 65279

/-- The class `\d`. -/
def isDigit (c : Char) : Bool :=
  let n := c.toNat
  48 ≤ n && n ≤ 57

/-- The method `trimEnd`: trailing white space is dropped. -/
def trimEnd : Str → Str
  | [] => []
  | c :: cs =>
    let r := trimEnd cs
    if r.isEmpty && isSpace c then [] else c :: r

/-- The method `trim`: white space is dropped at both ends. -/
def trim (s : Str) : Str :=
  trimEnd (s.dropWhile isSpace)

/-- The method `Array.prototype.join` on an array of strings. -/
def join (sep : Str) : List Str → Str
  | [] => []
  | [x] => x
  | x :: y :: rest => x ++ sep ++ join sep (y :: rest)

/-- The method `split` with a one-character separator: the result always has at
least one piece. -/
def splitOnChar (p : Char → Bool) : Str → List Str
  | [] => [[]]
  | c :: cs =>
    if p c then [] :: splitOnChar p cs
    else
      match splitOnChar p cs with
      | [] => [[c]]
      | piece :: more => (c :: piece) :: more

/-- The method `startsWith`. -/
def startsWith (s pre : Str) : Bool :=
  pre.isPrefixOf s

/-- The method `includes`: `needle` occurs in `s` as a contiguous substring. -/
def includes : Str → Str → Bool
  | [], needle => needle.isEmpty
  | c :: cs, needle => needle.isPrefixOf (c :: cs) || includes cs needle

/-- The lower-case mapping of one character under `toLowerCase`, exact on the ASCII
range and on the two characters outside it whose image holds an ASCII letter: the
Kelvin sign U+212A becomes `k` and the dotted capital I U+0130 becomes `i` followed by
U+0307.  Every other character is kept: its image under `toLowerCase` holds no ASCII
character, which is all that the search for the (ASCII) known section names can see. -/
def lowerChar (c : Char) : Str :=
  let n := c.toNat
  if 65 ≤ n ∧ n ≤ 90 then [Char.ofNat (n + 32)]
  else if n = 8490 then ['k']
  else if n = 304 then ['i', Char.ofNat 775]
  else [c]

/-- The method `toLowerCase`. -/
def toLowerCase (s : Str) : Str :=
  s.flatMap lowerChar

/-- Decimal rendering of a non-negative integer Number (template literal). -/
def natToString (n : Nat) : Str :=
  (Nat.repr n).toList

/-- Decimal rendering of an integer Number (template literal, `toString`): the digits
that the source writes for every integer below 10^21 in absolute value; from 10^21 on
the source writes an exponent, and such numbers are outside this embedding. -/
def intToString : Int → Str
  | Int.ofNat n => natToString n
  | Int.negSucc n => '-' :: natToString (n + 1)

/-- Truthiness of an optional string field: present and not the empty string. -/
def truthyStr : Option Str → Bool
  | none => false
  | some s => !s.isEmpty

/-- Truthiness of an optional Number field: present and not zero. -/
def truthyNum : Option Int → Bool
  | none => false
  | some n => n != 0

/-! ## The citation formatter (`server/models/Reference.js`) -/

/-- A reference document of the `Reference` model; the numeric fields hold integers. -/
structure Reference where
  citationNumber : Nat
  doi : Option Str := none
  title : Str
  authors : List Str := []
  year : Option Int := none
  journal : Option Str := none
  volume : Option Str := none
  issue : Option Str := none
  pages : Option Str := none
  publisher : Option Str := none
  url : Option Str := none
  rawText : Option Str := none
  formattedIEEE : Option Str := none
  deriving DecidableEq

/-- The callback of `this.authors.map` in `toIEEEFormat`: the last author of a list
of at least two gets `and ` in front. -/
def markLast (len : Nat) (i : Nat) (a : Str) : Str :=
  if i = len - 1 ∧ len > 1 then "and ".toList ++ a else a

/-- The `authors` constant of `toIEEEFormat`. -/
def authorsText (authors : List Str) : Str :=
  if authors.length > 0 then
    join ", ".toList (authors.enum.map fun ia => markLast authors.length ia.1 ia.2)
  else "Unknown Author".toList

/-- Value of a string field inside a template literal (only used when truthy). -/
def strVal (o : Option Str) : Str := o.getD []

/-- Value of a Number field inside a template literal (only used when truthy). -/
def numVal (o : Option Int) : Str :=
  match o with
  | none => []
  | some n => intToString n

/-- The method `toIEEEFormat` of the reference schema. -/
def toIEEEFormat (r : Reference) : Str :=
  let citation := "[".toList ++ natToString r.citationNumber ++ "] ".toList ++
    authorsText r.authors ++ ", ".toList ++ [dquote] ++ r.title ++ [dquote]
  let citation := if truthyStr r.journal then citation ++ ", ".toList ++ strVal r.journal
    else citation
  let citation := if truthyStr r.volume then citation ++ ", vol. ".toList ++ strVal r.volume
    else citation
  let citation := if truthyStr r.issue then citation ++ ", no. ".toList ++ strVal r.issue
    else citation
  let citation := if truthyStr r.pages then citation ++ ", pp. ".toList ++ strVal r.pages
    else citation
  let citation := if truthyNum r.year then citation ++ ", ".toList ++ numVal r.year
    else citation
  let citation := citation ++ ".".toList
  let citation := if truthyStr r.doi then citation ++ " doi: ".toList ++ strVal r.doi
    else citation
  citation

/-- The contribution of an optional string field as the specification words it:
the label followed by the value when the field is present, nothing otherwise. -/
def specPart (label : Str) (o : Option Str) : Str :=
  match o with
  | none => []
  | some s => if s = [] then [] else label ++ s

/-- The contribution of the year as the specification words it. -/
def specYearPart (o : Option Int) : Str :=
  match o with
  | none => []
  | some n => if n = 0 then [] else ", ".toList ++ intToString n

/-- The full record of the specification. -/
def fullRecord : Reference :=
  { citationNumber := 1
    authors := ["J. Doe".toList, "A. Smith".toList]
    title := "Deep Learning".toList
    journal := some "IEEE Trans. AI".toList
    volume := some "5".toList
    issue := some "2".toList
    pages := some "10-20".toList
    year := some 2024
    doi := some "10.1/xyz".toList }

/-- A record with citation number `n`, the given authors and title and no other field. -/
def bareRecord (n : Nat) (authors : List Str) (title : Str) : Reference :=
  { citationNumber := n, authors := authors, title := title }

/-- A record whose optional fields are present but empty (or zero), with no author and
an empty title. -/
def emptyRecord (n : Nat) : Reference :=
  { citationNumber := n
    title := []
    journal := some []
    volume := some []
    issue := some []
    pages := some []
    year := some 0
    doi := some [] }

/-! ## Regular expressions of the parser

Every pattern of `parseContent` starts with `^` and has no `g` or `m` flag, so a match
can only start at the first character of the line.  A pattern is embedded as a matcher
`Str → Option Str` that answers the rest of the line after the matched text (`none`
when the pattern does not match); it is built from the combinators below, one per
constructor of the regular expression, each taking the matcher of what follows it
(the continuation) so that a greedy quantifier gives characters back when what follows
fails, as the backtracking of the source engine does. -/

/-- What follows a regular-expression item: a matcher on the rest of the line. -/
abbrev Cont := Str → Option Str

/-- The first of two alternatives that matches: the second one is what the engine
backtracks to when the first one fails. -/
def orTry (a b : Option Str) : Option Str :=
  match a with
  | some r => some r
  | none => b

/-- The greedy quantifier `c{lo,hi}` on a character class `p` (`hi = none` for no upper
bound): the longest run is tried first, then shorter ones down to `lo`. -/
def rep (p : Char → Bool) (k : Cont) : Nat → Option Nat → Str → Option Str
  | lo, _, [] => if lo = 0 then k [] else none
  | lo, hi, c :: cs =>
    if p c && hi != some 0 then
      orTry (rep p k (lo - 1) (hi.map fun h => h - 1) cs) (if lo = 0 then k (c :: cs) else none)
    else if lo = 0 then k (c :: cs) else none

/-- The quantifier `?` on a character class. -/
def opt (p : Char → Bool) (k : Cont) : Cont := rep p k 0 (some 1)

/-- The quantifier `*` on a character class. -/
def many (p : Char → Bool) (k : Cont) : Cont := rep p k 0 none

/-- The quantifier `+` on a character class. -/
def many1 (p : Char → Bool) (k : Cont) : Cont := rep p k 1 none

/-- One character of a class. -/
def chr (p : Char → Bool) (k : Cont) : Cont
  | [] => none
  | c :: cs => if p c then k cs else none

/-- An optional non-capturing group `(?:g)?`: the group is tried first. -/
def optGroup (g : Cont → Cont) (k : Cont) : Cont :=
  fun s => orTry (g k s) (k s)

/-- The anchor `$` at the end of a pattern. -/
def eos : Cont
  | [] => some []
  | _ :: _ => none

/-- End of a pattern that is not anchored at the end: the rest of the line is left. -/
def done : Cont := some

/-- Case folding of the `i` flag (without the `u` flag), on what the patterns of the
source can tell apart: an ASCII letter is matched by its two ASCII cases only, since
no character from U+0080 on is folded onto an ASCII one. -/
def foldCase (c : Char) : Char :=
  let n := c.toNat
  if 97 ≤ n ∧ n ≤ 122 then Char.ofNat (n - 32) else c

/-- A literal character under the `i` flag. -/
def ci (a : Char) (c : Char) : Bool := foldCase c == foldCase a

/-- A literal word under the `i` flag. -/
def word : Str → Cont → Cont
  | [], k => k
  | a :: w, k => chr (ci a) (word w k)

/-- The literal `\*`. -/
def isStar (c : Char) : Bool := c == '*'

/-- The literal `#`. -/
def isHash (c : Char) : Bool := c == '#'

/-- The class `[IVXLC]` under the `i` flag. -/
def isRoman (c : Char) : Bool :=
  let u := foldCase c
  u == 'I' || u == 'V' || u == 'X' || u == 'L' || u == 'C'

/-- The class of the em dash, the colon and the hyphen, in the marker patterns. -/
def isMarkPunct (c : Char) : Bool := c == emDash || c == ':' || c == '-'

/-- The constant `abstractPattern`. -/
def abstractPattern : Str → Option Str :=
  opt isStar <| opt isStar <| word "Abstract".toList <| opt isStar <| opt isStar <|
    opt isMarkPunct <| many isSpace <| done

/-- The constant `keywordsPattern`. -/
def keywordsPattern : Str → Option Str :=
  opt isStar <| opt isStar <| word "Keywords".toList <| opt isStar <| opt isStar <|
    opt isMarkPunct <| many isSpace <| done

/-- The constant `referencesPattern`. -/
def referencesPattern : Str → Option Str :=
  opt isStar <| opt isStar <|
    optGroup (fun k => rep isHash (many isSpace k) 1 (some 3)) <|
    optGroup (fun k => many1 isRoman (chr (fun c => c == '.') (many isSpace k))) <|
    word "References".toList <| opt isStar <| opt isStar <| eos

/-- The header test pattern: Roman numeral, dot, at least one white space. -/
def romanHeaderPattern : Str → Option Str :=
  many1 isRoman <| chr (fun c => c == '.') <| many1 isSpace <| done

/-- The pattern that strips heading markup: one to three `#`, then white space. -/
def hashPattern : Str → Option Str :=
  rep isHash (many isSpace done) 1 (some 3)

/-- The pattern that strips a Roman-numeral-dot numbering. -/
def romanPattern : Str → Option Str :=
  many1 isRoman <| chr (fun c => c == '.') <| many isSpace <| done

/-- The reference numbering pattern: optional `[`, digits, optional `]`, white space. -/
def refNumberPattern : Str → Option Str :=
  opt (fun c => c == '[') <| many1 isDigit <| opt (fun c => c == ']') <| many isSpace <| done

/-- The bullet pattern: a hyphen, then white space. -/
def bulletPattern : Str → Option Str :=
  chr (fun c => c == '-') <| many isSpace <| done

/-- The method `test` of a pattern. -/
def test (pat : Str → Option Str) (s : Str) : Bool := (pat s).isSome

/-- The call `s.replace(pat, '')` for a pattern anchored at the start: the matched
text is removed, and `s` is unchanged when the pattern does not match. -/
def remove (pat : Str → Option Str) (s : Str) : Str :=
  match pat s with
  | some rest => rest
  | none => s

/-! ## The parser (`client/src/components/IEEEPreview.js`) -/

/-- A node of the rich-text tree: `absent` is a missing (null or undefined) node, the
fields `text` and `content` of a node are optional. -/
inductive Node where
  | absent : Node
  | node (text : Option Str) (content : Option (List Node)) : Node

/-- The `content` argument of `parseContent`: missing, a string, or a tree. -/
inductive Content where
  | absent : Content
  | str (s : Str) : Content
  | tree (n : Node) : Content

/-- One entry of `sections`. -/
structure Section where
  title : Str
  content : Str
  deriving DecidableEq

/-- The object returned by `parseContent`. -/
structure ParsedPaper where
  title : Str
  abstract : Str
  keywords : List Str
  sections : List Section
  references : List Str
  deriving DecidableEq

/-- The variables of the main loop: `result`, `currentSection` (`none` for null) and
`currentContent`. -/
structure LoopState where
  result : ParsedPaper
  currentSection : Option Str
  currentContent : List Str
  deriving DecidableEq

mutual
/-- The local function `extractText`. -/
def extractText : Node → Str
  | Node.absent => []
  | Node.node text content =>
    if truthyStr text then strVal text
    else
      match content with
      | some children => join "\n".toList (extractChildren children)
      | none => []
/-- The call `node.content.map(extractText)`. -/
def extractChildren : List Node → List Str
  | [] => []
  | n :: ns => extractText n :: extractChildren ns
end

/-- The constant `knownSections`. -/
def knownSections : List Str :=
  ["introduction".toList, "literature review".toList, "related work".toList,
   "methodology".toList, "methods".toList, "results".toList, "discussion".toList,
   "results and discussion".toList, "conclusion".toList, "conclusions".toList,
   "future work".toList, "acknowledgments".toList, "acknowledgements".toList]

/-- The condition that ends the collection of the abstract, on a trimmed line. -/
def isAbstractStop (nextLine : Str) : Bool :=
  startsWith nextLine "#".toList || test keywordsPattern nextLine ||
    knownSections.any fun s => includes (toLowerCase nextLine) s

/-- The inner `while` loop of the Abstract branch, from index `j` on: answers the
collected `abstractLines` and the lines from the final `j` on. -/
def collectAbstract : List Str → List Str → List Str × List Str
  | [], abstractLines => (abstractLines, [])
  | raw :: rest, abstractLines =>
    let nextLine := trim raw
    if isAbstractStop nextLine then (abstractLines, raw :: rest)
    else collectAbstract rest (if nextLine.isEmpty then abstractLines
      else abstractLines ++ [nextLine])

/-- The inner `while` loop of the References branch: every remaining line is consumed. -/
def collectReferences : List Str → List Str → List Str
  | [], references => references
  | raw :: rest, references =>
    let refLine := trim raw
    if test refNumberPattern refLine || test bulletPattern refLine then
      collectReferences rest
        (references ++ [remove bulletPattern (remove refNumberPattern refLine)])
    else if !refLine.isEmpty then collectReferences rest (references ++ [refLine])
    else collectReferences rest references

/-- The statement that saves the current section, when one is open:
`if (currentSection) result.sections.push(...)`. -/
def saveSection (st : LoopState) : ParsedPaper :=
  if truthyStr st.currentSection then
    { st.result with sections := st.result.sections ++
        [{ title := strVal st.currentSection,
           content := trim (join "\n".toList st.currentContent) }] }
  else st.result

/-- The keyword list of a Keywords marker line. -/
def keywordsOf (line : Str) : List Str :=
  ((splitOnChar (fun c => c == ',' || c == ';') (remove keywordsPattern line)).map trim).filter
    fun k => !k.isEmpty

/-- The title of a section header line. -/
def sectionTitleOf (line : Str) : Str :=
  trim (remove romanPattern (remove hashPattern line))

/-- The test for a section header line. -/
def isHeader (line : Str) : Bool :=
  startsWith line "#".toList || test romanHeaderPattern line

/-- The main `for` loop over the lines from the cursor on, with the state of the loop;
the answer is the state when the loop is left (by its end or by the `break` of the
References branch).  Each iteration consumes one unit of fuel; `none` is answered when
the fuel runs out before the loop is left. -/
def parseLoop : Nat → List Str → LoopState → Option LoopState
  | _, [], st => some st
  | 0, _ :: _, _ => none
  | fuel + 1, raw :: rest, st =>
    let line := trim raw
    if line.isEmpty then
      if truthyStr st.currentSection then
        parseLoop fuel rest { st with currentContent := st.currentContent ++ [[]] }
      else parseLoop fuel rest st
    else if test abstractPattern line then
      let abstractText := remove abstractPattern line
      let collected := collectAbstract rest (if abstractText.isEmpty then [] else [abstractText])
      parseLoop fuel collected.2
        { st with result := { st.result with abstract := trim (join " ".toList collected.1) } }
    else if test keywordsPattern line then
      parseLoop fuel rest { st with result := { st.result with keywords := keywordsOf line } }
    else if test referencesPattern line then
      let result := saveSection st
      some { result := { result with references := collectReferences rest result.references },
             currentSection := none,
             currentContent := st.currentContent }
    else if isHeader line then
      let result := saveSection st
      let sectionTitle := sectionTitleOf line
      if result.sections.length == 0 && result.title.isEmpty && startsWith line "# ".toList then
        parseLoop fuel rest
          { result := { result with title := sectionTitle },
            currentSection := none, currentContent := [] }
      else
        parseLoop fuel rest
          { result := result, currentSection := some sectionTitle, currentContent := [] }
    else if truthyStr st.currentSection then
      parseLoop fuel rest { st with currentContent := st.currentContent ++ [line] }
    else if st.result.abstract.isEmpty && st.result.sections.length == 0 then
      if st.result.abstract.isEmpty then
        parseLoop fuel rest
          { st with result := { st.result with abstract := st.result.abstract ++
              (if st.result.abstract.isEmpty then [] else " ".toList) ++ line } }
      else parseLoop fuel rest st
    else parseLoop fuel rest st

/-- The initial `result` object for a `title` argument (`none` for a missing one). -/
def initialResult (title : Option Str) : ParsedPaper :=
  { title := if truthyStr title then strVal title else "Untitled Paper".toList,
    abstract := [], keywords := [], sections := [], references := [] }

/-- The parser on the text of the document: the lines are split, the loop is run with
one unit of fuel per line, and the last section is saved. -/
def parseText (text : Str) (title : Option Str) : Option ParsedPaper :=
  let lines := splitOnChar (fun c => c == '\n') text
  (parseLoop lines.length lines
    { result := initialResult title, currentSection := none, currentContent := [] }).map
    saveSection

/-- The function `parseContent`. -/
def parseContent (content : Content) (title : Option Str) : Option ParsedPaper :=
  match content with
  | Content.absent => some (initialResult title)
  | Content.str s => if s.isEmpty then some (initialResult title) else parseText s title
  | Content.tree n => parseText (extractText n) title

/-! ## Descriptions used by the statements -/

/-- The tail of a numbered or bulleted line after trimming: nothing when the text is
empty, else one blank and the text without its trailing white space. -/
def trimmedTail (t : Str) : Str :=
  if t = [] then [] else ' ' :: trimEnd t

/-- The text does not start with white space or with a hyphen. -/
def startsPlain : Str → Bool
  | [] => true
  | c :: _ => !isSpace c && c != '-'

/-- The test of the inner loop of the Abstract branch on a raw line: the line does not
end the abstract. -/
def continuesAbstract (raw : Str) : Bool := !isAbstractStop (trim raw)

/-- The abstract as the specification words it: the remainder of the marker line
followed by every later non-blank line (trimmed) before the first stop line, joined by
single blanks and trimmed. -/
def specAbstract (remainder : Str) (rest : List Str) : Str :=
  trim (join " ".toList
    (remainder :: ((rest.takeWhile continuesAbstract).map trim).filter fun l => !l.isEmpty))

/-! ## Inputs of the examples -/

/-- The content `# My Title`, a blank line, `Body text`. -/
def titleExample : Str := "# My Title\n\nBody text".toList

/-- The content of the abstract example of the specification. -/
def abstractExample : Str :=
  "Abstract— This paper studies X.\n\nIntroduction\nSome intro text.".toList

/-- The abstract example with its section name written as a heading. -/
def abstractHeadingExample : Str :=
  "Abstract— This paper studies X.\n\n## Introduction\nSome intro text.".toList

/-- The abstract example with its section name written with a Roman numeral. -/
def abstractNumeralExample : Str :=
  "Abstract— This paper studies X.\n\nI. Introduction\nSome intro text.".toList

/-- The Keywords line of the specification. -/
def keywordsExample : Str := "Keywords— deep learning, CNN; healthcare".toList

/-- A References heading in bold under heading markup, then one reference. -/
def boldReferencesExample : Str := "## **References**\n[1] A".toList

/-- A References marker, then a reference numbered with a plain number and a dot. -/
def dottedReferenceExample : Str := "References\n1. J. Doe, Title".toList

/-- A References marker, then a bracket-numbered reference that ends with a blank. -/
def trailingBlankExample : Str := "References\n[1] a ".toList

/-- The state of the loop before the first line, for a missing `title` argument. -/
def startState : LoopState :=
  { result := initialResult none, currentSection := none, currentContent := [] }

/-- A keyword as the specification wants it: non-empty, no white space at either end,
no comma and no semicolon. -/
def GoodKeyword (k : Str) : Prop :=
  k ≠ [] ∧ (∀ c, k.head? = some c → isSpace c = false) ∧
    (∀ c, k.getLast? = some c → isSpace c = false) ∧ ∀ c ∈ k, c ≠ ',' ∧ c ≠ ';'

/-- The state of the loop with `result.abstract` replaced. -/
def setAbstract (st : LoopState) (a : Str) : LoopState :=
  { st with result := { st.result with abstract := a } }

/-- The state of the loop with `result.title` replaced. -/
def setTitle (st : LoopState) (t : Str) : LoopState :=
  { st with result := { st.result with title := t } }

/-- A result with another title. -/
def withTitle (r : ParsedPaper) (t : Str) : ParsedPaper :=
  { r with title := t }

/-- The state of the loop with `result.keywords` replaced. -/
def setKeywords (st : LoopState) (ks : List Str) : LoopState :=
  { st with result := { st.result with keywords := ks } }

/-! ## Documents made of headed blocks -/

/-- The markup of a section header line: heading markup alone, a Roman numeral alone,
or both (the numeral is kept with the form). -/
inductive HeaderForm where
  | hash : HeaderForm
  | numeral (r : Str) : HeaderForm
  | both (r : Str) : HeaderForm

/-- The header line of a given form for a title `t`: `## t`, `R. t` or `## R. t`. -/
def headerLine (f : HeaderForm) (t : Str) : Str :=
  match f with
  | HeaderForm.hash => "## ".toList ++ t
  | HeaderForm.numeral r => r ++ ". ".toList ++ t
  | HeaderForm.both r => "## ".toList ++ r ++ ". ".toList ++ t

/-- A block of a document: a header line and the body lines under it. -/
structure Block where
  form : HeaderForm
  title : Str
  body : List Str

/-- The lines of a block. -/
def blockLines (b : Block) : List Str :=
  headerLine b.form b.title :: b.body

/-- The lines of a document made of blocks. -/
def docLines (bs : List Block) : List Str :=
  bs.flatMap blockLines

/-- A Roman numeral as the class `[IVXLC]` of the patterns reads it: non-empty, made of
the letters I, V, X, L, C in either case. -/
def isNumeral (r : Str) : Bool :=
  !r.isEmpty && r.all isRoman

/-- The numeral of a header form is a Roman numeral (nothing to check without one). -/
def formOk : HeaderForm → Bool
  | HeaderForm.hash => true
  | HeaderForm.numeral r => isNumeral r
  | HeaderForm.both r => isNumeral r

/-- The word `References` in any letter case, bare or followed by one or two stars:
the end of the References marker pattern. -/
def referencesWord : Str → Option Str :=
  word "References".toList <| opt isStar <| opt isStar <| eos

/-- A section title that a header line hands over unchanged: non-empty, without white
space at either end, on one line, not starting with a Roman numeral and a dot, and not
the word `References` (any case, up to two trailing stars). -/
def titleOk (t : Str) : Bool :=
  !t.isEmpty && trim t == t && !t.contains '\n' && !test romanPattern t &&
    !test referencesWord t

/-- A plain body line: blank, or a line that is no marker and no header; on one line. -/
def bodyLineOk (raw : Str) : Bool :=
  !raw.contains '\n' &&
    ((trim raw).isEmpty ||
      (!test abstractPattern (trim raw) && !test keywordsPattern (trim raw) &&
        !test referencesPattern (trim raw) && !isHeader (trim raw)))

/-- A well-formed block. -/
def blockOk (b : Block) : Bool :=
  formOk b.form && titleOk b.title && b.body.all bodyLineOk

/-- What follows the heading markup in the References marker pattern: the optional
Roman numbering, then the word. -/
def afterMarkup : Cont :=
  optGroup (fun k => many1 isRoman (chr (fun c => c == '.') (many isSpace k))) referencesWord

/-- The facts the loop needs about a line to treat it as the header of the section
`t`. -/
def HeaderFacts (line t : Str) : Prop :=
  trim line = line ∧ line.isEmpty = false ∧ abstractPattern line = none ∧
    keywordsPattern line = none ∧ referencesPattern line = none ∧ isHeader line = true ∧
    sectionTitleOf line = t ∧ startsWith line "# ".toList = false

/-- The state of the loop with more lines pushed on `currentContent`. -/
def pushContent (st : LoopState) (ls : List Str) : LoopState :=
  { st with currentContent := st.currentContent ++ ls }

/-- The state of the loop after a header line for the title `t`. -/
def openSection (st : LoopState) (t : Str) : LoopState :=
  { result := saveSection st, currentSection := some t, currentContent := [] }

/-- A document of three blocks, one per header form. -/
def exampleBlocks : List Block :=
  [⟨HeaderForm.both "I".toList, "INTRODUCTION".toList, ["Some text.".toList]⟩,
   ⟨HeaderForm.numeral "II".toList, "METHODS".toList, [[], "More text.".toList]⟩,
   ⟨HeaderForm.hash, "RESULTS".toList, []⟩]

/-! ## Descriptions of the loop used by the statements -/

/-- The parser on a sequence of lines: the loop with one unit of fuel per line, then the
last section is saved (`parseText` is this on the lines of the text). -/
def parseLines (lines : List Str) (title : Option Str) : Option ParsedPaper :=
  (parseLoop lines.length lines
    { result := initialResult title, currentSection := none, currentContent := [] }).map
    saveSection

/-- The entry stored for a trimmed non-blank line of the References block: the line
without its numbering and bullet when it has one, the line itself otherwise. -/
def refEntryOf (refLine : Str) : Str :=
  if test refNumberPattern refLine || test bulletPattern refLine then
    remove bulletPattern (remove refNumberPattern refLine)
  else refLine

/-- The entries of the lines after a References marker as the specification words
them: one per non-blank line, in order. -/
def referenceEntries (rest : List Str) : List Str :=
  ((rest.map trim).filter fun l => !l.isEmpty).map refEntryOf

/-- The state in which the References branch leaves the loop: the open section is
saved and every line after the marker is read as a reference. -/
def closeReferences (st : LoopState) (rest : List Str) : LoopState :=
  { result := { saveSection st with
                references := collectReferences rest (saveSection st).references },
    currentSection := none,
    currentContent := st.currentContent }

/-- The effect on the state of one line that is neither an Abstract marker nor a
References marker: the other branches of the body of the loop. -/
def stepLine (raw : Str) (st : LoopState) : LoopState :=
  if (trim raw).isEmpty then
    if truthyStr st.currentSection then pushContent st [[]] else st
  else if test keywordsPattern (trim raw) then setKeywords st (keywordsOf (trim raw))
  else if isHeader (trim raw) then
    if (saveSection st).sections.length == 0 && (saveSection st).title.isEmpty &&
        startsWith (trim raw) "# ".toList then
      { result := { saveSection st with title := sectionTitleOf (trim raw) },
        currentSection := none, currentContent := [] }
    else openSection st (sectionTitleOf (trim raw))
  else if truthyStr st.currentSection then pushContent st [trim raw]
  else if st.result.abstract.isEmpty && st.result.sections.length == 0 then
    if st.result.abstract.isEmpty then
      setAbstract st (st.result.abstract ++
        (if st.result.abstract.isEmpty then [] else " ".toList) ++ trim raw)
    else st
  else st

/-- Two results agree on everything but the references. -/
def SameButReferences (r r' : ParsedPaper) : Prop :=
  r.title = r'.title ∧ r.abstract = r'.abstract ∧ r.keywords = r'.keywords ∧
    r.sections = r'.sections

/-- The section that a block gives: its title, and its body lines trimmed, joined by
newlines and trimmed as a whole. -/
def sectionOfBlock (b : Block) : Section :=
  ⟨b.title, trim (join "\n".toList (b.body.map trim))⟩

/-- The first character of a line matched by the References marker pattern, after the
leading stars: `#`, a letter of a Roman numeral, or the letter R. -/
def refLead (c : Char) : Prop :=
  isHash c = true ∨ isRoman c = true ∨ ci 'R' c = true

/-! ## Leaves of a rich-text tree -/

mutual
/-- The texts of the leaves of a tree, in depth-first document order: a node with a
non-empty text is a leaf, the children of a node are read only when it has no text. -/
def leafTexts : Node → List Str
  | Node.absent => []
  | Node.node text none => if truthyStr text then [strVal text] else []
  | Node.node text (some children) =>
    if truthyStr text then [strVal text] else leafTextsAll children
/-- The leaf texts of a list of trees, in order. -/
def leafTextsAll : List Node → List Str
  | [] => []
  | n :: ns => leafTexts n ++ leafTextsAll ns
end

mutual
/-- Every node of the tree has a non-empty text or a non-empty list of children (whose
nodes are of the same kind); no node is absent. -/
def fullNode : Node → Bool
  | Node.absent => false
  | Node.node text none => truthyStr text
  | Node.node text (some children) =>
    truthyStr text || (!children.isEmpty && fullNodes children)
/-- Every tree of the list is full. -/
def fullNodes : List Node → Bool
  | [] => true
  | n :: ns => fullNode n && fullNodes ns
end

/-! ## Inputs of the examples on the blocks of a document -/

/-- A References heading followed by a heading line. -/
def appendixExample : Str := "## References\n## Appendix".toList

/-- Two Abstract marker lines, the second one under a section header. -/
def twoAbstractsExample : Str := "Abstract— first\n## Intro\nAbstract— second".toList

/-- Two Keywords marker lines, the second one under a section header. -/
def twoKeywordsExample : Str := "Keywords— a\n## Intro\nKeywords— b".toList

/-- A section with two paragraphs and blank lines around them. -/
def paragraphsExample : Str := "## S\n\na\n\nb\n".toList

/-- A section with a Keywords marker line between its header and its text. -/
def keywordsInSectionExample : Str := "## S\nKeywords— x\na".toList

/-- The tree of the specification: a text leaf `A`, then a node holding the leaf `B`. -/
def exampleTree : Node :=
  Node.node none (some [Node.node (some "A".toList) none,
    Node.node none (some [Node.node (some "B".toList) none])])

/-! ## The reference controller (`server/controllers/reference.controller.js`)

The two collections that the handlers read and write are the state; a handler is a
function from the state and the request to the status of the answer and the new state.
Each handler is taken as one step: requests are served one after the other. -/

/-- A stored reference: its `_id`, the `document` it belongs to, and its other fields. -/
structure StoredReference where
  id : Nat
  document : Nat
  fields : Reference
  deriving DecidableEq

/-- A stored document, as far as the reference controller uses it: its `_id` and its
list `references` of reference ids. -/
structure StoredDocument where
  id : Nat
  references : List Nat
  deriving DecidableEq

/-- The collections of documents and of references. -/
structure Store where
  documents : List StoredDocument
  references : List StoredReference
  deriving DecidableEq

/-- The body of an `addReference` request; `none` is a field that the body does not
give (or gives as null). -/
structure AddBody where
  documentId : Nat
  doi : Option Str := none
  title : Option Str := none
  authors : Option (List Str) := none
  year : Option Int := none
  journal : Option Str := none
  volume : Option Str := none
  issue : Option Str := none
  pages : Option Str := none
  rawText : Option Str := none
  deriving DecidableEq

/-- The body of an `updateReference` request, for the fields of the `updates` list:
`none` is a field that the body does not give (`undefined`), `some v` a field given
with the value `v`, where `v` is `none` for null. -/
structure UpdateBody where
  title : Option (Option Str) := none
  authors : Option (List Str) := none
  year : Option (Option Int) := none
  journal : Option (Option Str) := none
  volume : Option (Option Str) := none
  issue : Option (Option Str) := none
  pages : Option (Option Str) := none
  doi : Option (Option Str) := none
  url : Option (Option Str) := none
  deriving DecidableEq

/-- The query `Reference.countDocuments({ document: documentId })`. -/
def countReferences (db : Store) (documentId : Nat) : Nat :=
  (db.references.filter fun r => r.document == documentId).length

/-- The reference that `addReference` builds, with its formatted string. -/
def newReference (citationNumber : Nat) (body : AddBody) : Reference :=
  let reference : Reference :=
    { citationNumber := citationNumber
      doi := body.doi
      title := strVal body.title
      authors := body.authors.getD []
      year := body.year
      journal := body.journal
      volume := body.volume
      issue := body.issue
      pages := body.pages
      rawText := body.rawText }
  { reference with formattedIEEE := some (toIEEEFormat reference) }

/-- The statement `document.references.push(reference._id)` with its `save`. -/
def pushReferenceId (documentId newId : Nat) (d : StoredDocument) : StoredDocument :=
  if d.id == documentId then { d with references := d.references ++ [newId] } else d

/-- The handler `addReference`; `newId` is the `_id` that the new reference gets.  The
schema requires a title, so `save` rejects a reference whose title is missing or empty:
the handler answers 500 and nothing is stored. -/
def addReference (db : Store) (newId : Nat) (body : AddBody) : Nat × Store :=
  match db.documents.find? fun d => d.id == body.documentId with
  | none => (404, db)
  | some _ =>
    let citationNumber := countReferences db body.documentId + 1
    let reference := newReference citationNumber body
    if !truthyStr body.title then (500, db)
    else
      (201, { documents := db.documents.map (pushReferenceId body.documentId newId),
              references := db.references ++ [⟨newId, body.documentId, reference⟩] })

/-- One turn of the loop `updates.forEach` of `updateReference`: the field is assigned
when the body gives it. -/
def assignField {α : Type} (given : Option α) (set : Reference → α → Reference)
    (r : Reference) : Reference :=
  match given with
  | some v => set r v
  | none => r

/-- The loop `updates.forEach` of `updateReference`, over the fields title, authors,
year, journal, volume, issue, pages, doi and url in this order. -/
def applyUpdates (r : Reference) (body : UpdateBody) : Reference :=
  let r := assignField body.title (fun r v => { r with title := strVal v }) r
  let r := assignField body.authors (fun r v => { r with authors := v }) r
  let r := assignField body.year (fun r v => { r with year := v }) r
  let r := assignField body.journal (fun r v => { r with journal := v }) r
  let r := assignField body.volume (fun r v => { r with volume := v }) r
  let r := assignField body.issue (fun r v => { r with issue := v }) r
  let r := assignField body.pages (fun r v => { r with pages := v }) r
  let r := assignField body.doi (fun r v => { r with doi := v }) r
  assignField body.url (fun r v => { r with url := v }) r

/-- The statement `reference.formattedIEEE = reference.toIEEEFormat()`. -/
def regenerate (r : Reference) : Reference :=
  { r with formattedIEEE := some (toIEEEFormat r) }

/-- The title that the body gives is rejected by `save`: null or empty. -/
def titleRejected (body : UpdateBody) : Bool :=
  match body.title with
  | some v => !truthyStr v
  | none => false

/-- The write of `save` on a stored reference: the first reference with the `_id` of
`r` is replaced by `r`. -/
def saveReference (r : StoredReference) : List StoredReference → List StoredReference
  | [] => []
  | x :: xs => if x.id == r.id then r :: xs else x :: saveReference r xs

/-- The handler `updateReference`. -/
def updateReference (db : Store) (id : Nat) (body : UpdateBody) : Nat × Store :=
  match db.references.find? fun r => r.id == id with
  | none => (404, db)
  | some reference =>
    let updated := regenerate (applyUpdates reference.fields body)
    if titleRejected body then (500, db)
    else (200, { db with references := saveReference { reference with fields := updated }
                                         db.references })

/-- The update `$pull: { references: reference._id }` on the document of the
reference. -/
def pullReferenceId (documentId id : Nat) (d : StoredDocument) : StoredDocument :=
  if d.id == documentId then { d with references := d.references.filter fun x => x != id }
  else d

/-- The update `$inc: { citationNumber: -1 }` on the references that the filter of
`updateMany` matches: those of the document `documentId` with a citation number
greater than `k`. -/
def renumber (documentId k : Nat) (r : StoredReference) : StoredReference :=
  if r.document == documentId && decide (r.fields.citationNumber > k) then
    { r with fields := { r.fields with citationNumber := r.fields.citationNumber - 1 } }
  else r

/-- The handler `deleteReference`. -/
def deleteReference (db : Store) (id : Nat) : Nat × Store :=
  match db.references.find? fun r => r.id == id with
  | none => (404, db)
  | some reference =>
    let documents := db.documents.map (pullReferenceId reference.document reference.id)
    let references :=
      db.references.map (renumber reference.document reference.fields.citationNumber)
    (200, { documents := documents,
            references := references.eraseP fun r => r.id == reference.id })

/-- The citation number `m` after the reference numbered `k` is deleted, as the
specification words it: one less when it is greater than `k`, the same otherwise. -/
def shiftNumber (k m : Nat) : Nat := if m > k then m - 1 else m

/-- The citation numbers of the references of a document, in the order of the
collection. -/
def numbersOf (db : Store) (documentId : Nat) : List Nat :=
  (db.references.filter fun r => r.document == documentId).map fun r =>
    r.fields.citationNumber

/-- A stored reference of document 1 with the given `_id`, number and title, its
formatted string in step with its fields. -/
def storedExample (id n : Nat) (title : Str) : StoredReference :=
  ⟨id, 1, regenerate { citationNumber := n, title := title }⟩

/-- A store with one document holding the references `[1] A`, `[2] B`, `[3] C`. -/
def exampleStore : Store :=
  { documents := [⟨1, [10, 11, 12]⟩],
    references := [storedExample 10 1 "A".toList, storedExample 11 2 "B".toList,
      storedExample 12 3 "C".toList] }

/-- A reference with its citation number replaced. -/
def setNumber (r : Reference) (n : Nat) : Reference :=
  { r with citationNumber := n }

/-- A reference with its stored formatted string replaced. -/
def setFormatted (r : Reference) (s : Option Str) : Reference :=
  { r with formattedIEEE := s }

/-- A request body for a fourth reference `D` of document 1. -/
def exampleBody : AddBody :=
  { documentId := 1, title := some "D".toList }

/-- A request body that changes the title and the year of a reference. -/
def exampleUpdate : UpdateBody :=
  { title := some (some "B2".toList), year := some (some 2020) }

/-! ## The section numerals (`client/src/components/IEEEPreview.js`) -/

/-- The constant `romanNumerals` of `toRoman`. -/
def romanNumerals : List Str :=
  ["I".toList, "II".toList, "III".toList, "IV".toList, "V".toList, "VI".toList,
   "VII".toList, "VIII".toList, "IX".toList, "X".toList, "XI".toList, "XII".toList,
   "XIII".toList, "XIV".toList, "XV".toList, "XVI".toList, "XVII".toList, "XVIII".toList,
   "XIX".toList, "XX".toList]

/-- The function `toRoman` on an integer: the entry of the table at index `num - 1`
when there is one (an index below zero or past the end selects nothing), else the
decimal rendering of `num`. -/
def toRoman (num : Int) : Str :=
  let entry := if 0 ≤ num - 1 then romanNumerals[(num - 1).toNat]? else none
  if truthyStr entry then strVal entry else intToString num

/-- The numeral that the preview writes before the title of the section at array index
`index`: the call `toRoman(index + 1)`. -/
def sectionNumeral (index : Nat) : Str := toRoman ((index : Int) + 1)

/-- The values of the subtractive Roman notation with their letters, greatest first. -/
def romanValues : List (Nat × Str) :=
  [(1000, "M".toList), (900, "CM".toList), (500, "D".toList), (400, "CD".toList),
   (100, "C".toList), (90, "XC".toList), (50, "L".toList), (40, "XL".toList),
   (10, "X".toList), (9, "IX".toList), (5, "V".toList), (4, "IV".toList), (1, "I".toList)]

/-- The standard Roman numeral of a number over a table of values: the letters of each
value are written as often as the value fits in what is left. -/
def specRomanFrom : List (Nat × Str) → Nat → Str
  | [], _ => []
  | (v, s) :: vs, n => join [] (List.replicate (n / v) s) ++ specRomanFrom vs (n % v)

/-- The standard Roman numeral of a number as the specification means it (I, II, III,
IV, ...): the subtractive notation. -/
def specRoman (n : Nat) : Str := specRomanFrom romanValues n

/-! ## More inputs of the examples -/

/-- Two plain lines before any heading. -/
def plainLinesExample : Str := "foo\nbar".toList

/-- A line of the word Abstract and a text, without punctuation between them. -/
def unpunctuatedExample : Str := "Abstract This paper studies X.".toList

/-- The text without its first character when that is of the class. -/
def dropOne (p : Char → Bool) : Str → Str
  | [] => []
  | c :: t => if p c then t else c :: t

/-- What follows the marker word in a line, without what the end of a marker pattern
takes of it: at most two stars, then at most one of the em dash, the colon and the
hyphen, then the white space. -/
def markerRest (rest : Str) : Str :=
  (dropOne isMarkPunct (dropOne isStar (dropOne isStar rest))).dropWhile isSpace

/-- The marker word ends where the text after it starts: that text is empty or starts
with a star, with the em dash, the colon or the hyphen, or with white space. -/
def delimited : Str → Bool
  | [] => true
  | c :: _ => isStar c || isMarkPunct c || isSpace c

/-- An abstract followed by a numbered heading that names no known section. -/
def customSectionExample : List Str :=
  ["Abstract— We study X.".toList, "continued.".toList, "II. BACKGROUND".toList,
   "Some background.".toList, "## I. INTRODUCTION".toList, "Intro.".toList]

/-- Headings whose title is empty after the markup is stripped, among two sections. -/
def emptyHeadingExample : Str := "## A\nx\n#\ny\n##\nw\n# I.\nv\n## B\nz".toList

/-- The `rawContent` of the demo paper that the generate page shows when the request
to the AI service fails (`client/src/app/generate/page.js`), for a topic and a domain. -/
def demoContent (topic domain : Str) : Str :=
  "# ".toList ++ topic ++ "\n\n## Abstract\nThis research paper explores ".toList ++ topic ++
  " in the context of ".toList ++ domain ++
  "...\n\n## I. INTRODUCTION\nThe field of ".toList ++ domain ++
  " has seen significant advancements...\n\n## II. LITERATURE REVIEW\nPrevious studies have shown [1][2]...\n\n## III. METHODOLOGY\nOur approach involves...\n\n## IV. RESULTS\nExperiments demonstrate...\n\n## V. CONCLUSION\nIn conclusion, this research contributes to ".toList ++
  domain ++ " by...\n\n## REFERENCES\n[1] Author, ".toList ++ [dquote] ++ "Title,".toList ++
  [dquote] ++ " Journal, 2024.\n[2] Author, ".toList ++ [dquote] ++ "Title,".toList ++
  [dquote] ++ " Conference, 2023.".toList

/-- The `title` of the demo paper. -/
def demoTitle (topic : Str) : Str := "Research on ".toList ++ topic

/-- Two strings are equal up to the case of their ASCII letters. -/
def sameIgnoringCase (a b : Str) : Bool := a.map foldCase == b.map foldCase

/-- The lines of a list that are not blank, trimmed. -/
def nonBlank (lines : List Str) : List Str :=
  (lines.map trim).filter fun l => !l.isEmpty

/-! ## The document controller (`server/controllers/document.controller.js`)

A handler is embedded as a function from the collection of documents and the request
(the authenticated user `req.user._id`, the parameter `id` and the fields of the body)
to the status of the answer and the collection after the request; each handler is taken
as one step on the collection.  The `content` of a document, an object of the editor,
is represented by its JSON text as `JSON.stringify` writes it, so that
`JSON.stringify(content)` is the representation itself. -/

/-- One entry of `collaborators`. -/
structure Collaborator where
  user : Nat
  role : Str
  deriving DecidableEq

/-- One entry of `sections` (`sectionSchema`). -/
structure DocSection where
  type : Str
  title : Str
  content : Str
  order : Int
  deriving DecidableEq

/-- One entry of `versions` (`versionSchema`). -/
structure Version where
  version : Nat
  label : Str
  content : Str
  sections : List DocSection
  createdBy : Nat
  deriving DecidableEq

/-- A stored document (`documentSchema`), with the fields that the handlers read or
write. -/
structure DocumentRecord where
  id : Nat
  title : Str
  owner : Nat
  collaborators : List Collaborator
  domain : Str
  keywords : List Str
  content : Str
  sections : List DocSection
  versions : List Version
  currentVersion : Nat
  wordCount : Nat
  characterCount : Nat
  status : Str
  deriving DecidableEq

/-- The fields that `updateDocument` reads from the body; `none` is a field that is
missing. -/
structure UpdateDocumentBody where
  title : Option Str
  content : Option Str
  sections : Option (List DocSection)
  domain : Option Str
  keywords : Option (List Str)
  status : Option Str

/-- The values that the schema allows for `domain`. -/
def domains : List Str :=
  ["AI".toList, "IoT".toList, "Cybersecurity".toList, "Healthcare".toList,
   "DataScience".toList, "MachineLearning".toList, "CloudComputing".toList,
   "Blockchain".toList, "Other".toList]

/-- The values that the schema allows for `status`. -/
def statuses : List Str :=
  ["draft".toList, "in_progress".toList, "review".toList, "completed".toList]

/-- The values that the schema allows for the `type` of a section. -/
def sectionTypes : List Str :=
  ["title".toList, "abstract".toList, "keywords".toList, "introduction".toList,
   "literature_review".toList, "problem_statement".toList, "methodology".toList,
   "experimental_setup".toList, "results".toList, "discussion".toList,
   "conclusion".toList, "future_scope".toList, "references".toList, "custom".toList]

/-- The validation of `document.save()` on the fields that a handler can change: the
call throws, and the handler answers 500, when a value is outside its `enum`. -/
def saveRejected (d : DocumentRecord) : Bool :=
  !(domains.contains d.domain && statuses.contains d.status &&
    d.sections.all fun s => sectionTypes.contains s.type)

/-- The call `document.save()` followed by the answer of the handler: the stored
document with the same `id` is replaced. -/
def saveDocument (d : DocumentRecord) (db : List DocumentRecord) : Nat × List DocumentRecord :=
  if saveRejected d then (500, db)
  else (200, db.map fun x => if x.id == d.id then d else x)

/-- The constant `hasEditAccess` of `updateDocument`. -/
def hasEditAccess (document : DocumentRecord) (user : Nat) : Bool :=
  document.owner == user ||
    document.collaborators.any fun c =>
      c.user == user && ["editor".toList, "admin".toList].contains c.role

/-- The property `length` of a string: the number of UTF-16 code units. -/
def utf16Length (s : Str) : Nat :=
  (s.map fun c => if c.toNat < 65536 then 1 else 2).sum

/-- The expression `textContent.split(/\s+/).filter(w => w).length`: the number of
maximal runs of characters that are not white space. -/
def wordCount (s : Str) : Nat :=
  ((splitOnChar isSpace s).filter fun w => !w.isEmpty).length

/-- Truthiness of a value of the body given by its JSON text: every value is truthy but
`null`, `false`, the number zero and the empty string. -/
def truthyJson (text : Str) : Bool :=
  !(["null".toList, "false".toList, "0".toList, [dquote, dquote]].contains text)

/-- The handler `updateDocument`. -/
def updateDocument (db : List DocumentRecord) (user id : Nat) (body : UpdateDocumentBody) :
    Nat × List DocumentRecord :=
  match db.find? fun d => d.id == id with
  | none => (404, db)
  | some document =>
    if !hasEditAccess document user then (403, db)
    else
      let d1 := if truthyStr body.title then { document with title := strVal body.title }
        else document
      let d2 := match body.content with
        | some content => if truthyJson content then { d1 with content := content } else d1
        | none => d1
      let d3 := match body.sections with
        | some sections => { d2 with sections := sections }
        | none => d2
      let d4 := if truthyStr body.domain then { d3 with domain := strVal body.domain } else d3
      let d5 := match body.keywords with
        | some keywords => { d4 with keywords := keywords }
        | none => d4
      let d6 := if truthyStr body.status then { d5 with status := strVal body.status } else d5
      let d7 := match body.content with
        | some content =>
          if truthyJson content then
            { d6 with characterCount := utf16Length content, wordCount := wordCount content }
          else d6
        | none => d6
      saveDocument d7 db

/-- The handler `saveVersion`; `label` is the field of the body. -/
def saveVersion (db : List DocumentRecord) (user id : Nat) (label : Option Str) :
    Nat × List DocumentRecord :=
  match db.find? fun d => d.id == id with
  | none => (404, db)
  | some document =>
    let version : Version :=
      { version := document.currentVersion,
        label := if truthyStr label then strVal label
          else "Version ".toList ++ natToString document.currentVersion,
        content := document.content,
        sections := document.sections,
        createdBy := user }
    saveDocument
      { document with versions := document.versions ++ [version],
                      currentVersion := document.currentVersion + 1 } db

/-- The handler `restoreVersion`; `versionNumber` is the field of the body. -/
def restoreVersion (db : List DocumentRecord) (user id versionNumber : Nat) :
    Nat × List DocumentRecord :=
  match db.find? fun d => d.id == id with
  | none => (404, db)
  | some document =>
    match document.versions.find? fun v => v.version == versionNumber with
    | none => (404, db)
    | some version =>
      saveDocument
        { document with
            versions := document.versions ++
              [{ version := document.currentVersion,
                 label := "Before restore to V".toList ++ natToString versionNumber,
                 content := document.content,
                 sections := document.sections,
                 createdBy := user }],
            content := version.content,
            sections := version.sections,
            currentVersion := document.currentVersion + 1 } db

/-- A document of user 1 with user 2 as a collaborator of role viewer, and one saved
version. -/
def exampleDocument : DocumentRecord :=
  { id := 10, title := "Paper".toList, owner := 1,
    collaborators := [⟨2, "viewer".toList⟩],
    domain := "AI".toList, keywords := [], content := "[2]".toList, sections := [],
    versions := [⟨1, "Version 1".toList, "[1]".toList, [], 1⟩],
    currentVersion := 2, wordCount := 1, characterCount := 3, status := "draft".toList }

/-- A body of `updateDocument` that sets the content. -/
def exampleEdit : UpdateDocumentBody :=
  { title := none, content := some "[3]".toList, sections := none, domain := none,
    keywords := none, status := none }

/-! ## Lemmas on the formatter -/

theorem join_append_singleton (sep : Str) (l : List Str) (x : Str) (h : l ≠ []) :
    join sep (l ++ [x]) = join sep l ++ sep ++ x := by
  induction l with
  | nil => exact absurd rfl h
  | cons a t ih =>
    cases t with
    | nil => simp [join]
    | cons b t => 
      have := ih (by simp)
      show a ++ sep ++ join sep (b :: t ++ [x]) = a ++ sep ++ join sep (b :: t) ++ sep ++ x
      rw [this]; simp [List.append_assoc]

theorem markLast_enumFrom (len : Nat) (l : List Str) (b : Str) (k : Nat)
    (hlen : len = k + l.length + 1) (h1 : 1 < len) :
    ((l ++ [b]).enumFrom k).map (fun ia => markLast len ia.1 ia.2) = l ++ ["and ".toList ++ b] := by
  induction l generalizing k with
  | nil =>
    simp [List.enumFrom, markLast] at hlen ⊢
    intro h; omega
  | cons a t ih =>
    have hk : ¬ (k = len - 1 ∧ len > 1) := by simp at hlen; omega
    show markLast len k a :: ((t ++ [b]).enumFrom (k + 1)).map (fun ia => markLast len ia.1 ia.2)
      = a :: (t ++ ["and ".toList ++ b])
    rw [ih (k + 1) (by simp at hlen; omega)]
    simp [markLast, hk]

theorem authorsText_many (a : Str) (l : List Str) (b : Str) :
    authorsText (a :: l ++ [b]) = join ", ".toList (a :: l) ++ ", and ".toList ++ b := by
  unfold authorsText
  rw [if_pos (by simp)]
  unfold List.enum
  rw [markLast_enumFrom _ (a :: l) b 0 (by simp) (by simp)]
  rw [join_append_singleton _ _ _ (by simp)]
  simp [List.append_assoc]

theorem specPart_eq (label : Str) (o : Option Str) (c : Str) :
    (if truthyStr o then c ++ label ++ strVal o else c) = c ++ specPart label o := by
  cases o with
  | none => simp [truthyStr, specPart]
  | some s =>
    cases s with
    | nil => simp [truthyStr, specPart]
    | cons x t => simp [truthyStr, specPart, strVal]

theorem specYearPart_eq (o : Option Int) (c : Str) :
    (if truthyNum o then c ++ ", ".toList ++ numVal o else c) = c ++ specYearPart o := by
  cases o with
  | none => simp [truthyNum, specYearPart]
  | some n =>
    by_cases h : n = 0
    · simp [truthyNum, specYearPart, h]
    · simp [truthyNum, specYearPart, h, numVal]

/-! ## The citation formatter: claims -/

theorem toIEEEFormat_spec (r : Reference) :
    toIEEEFormat r =
      "[".toList ++ natToString r.citationNumber ++ "] ".toList ++ authorsText r.authors ++
        ", ".toList ++ [dquote] ++ r.title ++ [dquote] ++
        specPart ", ".toList r.journal ++ specPart ", vol. ".toList r.volume ++
        specPart ", no. ".toList r.issue ++ specPart ", pp. ".toList r.pages ++
        specYearPart r.year ++ ".".toList ++ specPart " doi: ".toList r.doi := by
  unfold toIEEEFormat
  simp only [specPart_eq, specYearPart_eq]

/-- C1: `toIEEEFormat` answers `[number] authors, "title"`, then for exactly the fields
that are present (non-empty, non-zero) and in this order the journal, `vol.`, `no.`,
`pp.` and year parts, then a period, then the ` doi: ` part when the doi is present;
absent or empty optional fields contribute nothing and an empty title still gets its
string; the full record of the specification gets the string of the specification. -/
theorem toIEEEFormat_assembles (r : Reference) (n : Nat) (authors : List Str) (title : Str) :
    toIEEEFormat r =
      "[".toList ++ natToString r.citationNumber ++ "] ".toList ++ authorsText r.authors ++
        ", ".toList ++ [dquote] ++ r.title ++ [dquote] ++
        specPart ", ".toList r.journal ++ specPart ", vol. ".toList r.volume ++
        specPart ", no. ".toList r.issue ++ specPart ", pp. ".toList r.pages ++
        specYearPart r.year ++ ".".toList ++ specPart " doi: ".toList r.doi
    ∧ toIEEEFormat (bareRecord n authors title) =
      "[".toList ++ natToString n ++ "] ".toList ++ authorsText authors ++
        ", ".toList ++ [dquote] ++ title ++ [dquote] ++ ".".toList
    ∧ toIEEEFormat (emptyRecord n) =
      "[".toList ++ natToString n ++ "] Unknown Author, ".toList ++ [dquote, dquote] ++
        ".".toList
    ∧ toIEEEFormat fullRecord =
      "[1] J. Doe, and A. Smith, ".toList ++ [dquote] ++ "Deep Learning".toList ++ [dquote] ++
        ", IEEE Trans. AI, vol. 5, no. 2, pp. 10-20, 2024. doi: 10.1/xyz".toList := by
  refine ⟨toIEEEFormat_spec r, ?_, ?_, by decide⟩
  · simp [toIEEEFormat, bareRecord, truthyStr, truthyNum]
  · simp [toIEEEFormat, emptyRecord, truthyStr, truthyNum, authorsText]

/-- C2: the author part is `Unknown Author` for no author, the author itself for one
author, and for two or more authors all but the last joined by `, ` followed by
`, and ` and the last one (`A, and B` for two); the string of a record without authors
and with citation number `n` begins with `[n] Unknown Author, `. -/
theorem authorsText_cases (a b : Str) (l : List Str) (r : Reference) :
    authorsText [] = "Unknown Author".toList
    ∧ authorsText [a] = a
    ∧ authorsText (a :: l ++ [b]) = join ", ".toList (a :: l) ++ ", and ".toList ++ b
    ∧ authorsText ["A".toList, "B".toList] = "A, and B".toList
    ∧ ("[".toList ++ natToString r.citationNumber ++ "] Unknown Author, ".toList) <+:
        toIEEEFormat { r with authors := [] } := by
  refine ⟨by decide, ?_, authorsText_many a l b, by decide, ?_⟩
  · simp [authorsText, List.enum, List.enumFrom, markLast, join]
  · rw [toIEEEFormat_spec { r with authors := [] }]
    simp [authorsText, List.append_assoc]

/-! ## Lemmas on `trim` -/
theorem trimEnd_length_le (s : Str) : (trimEnd s).length ≤ s.length := by
  induction s with
  | nil => simp [trimEnd]
  | cons c cs ih =>
    simp only [trimEnd]
    split <;> simp <;> omega

theorem dropWhile_length_le (p : Char → Bool) (s : Str) : (s.dropWhile p).length ≤ s.length := by
  induction s with
  | nil => simp
  | cons c cs ih =>
    simp only [List.dropWhile]
    split <;> simp <;> omega

theorem trimEnd_eq_nil_iff (s : Str) : trimEnd s = [] ↔ ∀ c ∈ s, isSpace c = true := by
  induction s with
  | nil => simp [trimEnd]
  | cons c cs ih =>
    simp only [trimEnd]
    by_cases h : trimEnd cs = []
    · have h' := ih.1 h
      by_cases hc : isSpace c = true
      · simpa [h, hc] using h'
      · simp [h, hc]
    · have : ¬ ∀ c ∈ cs, isSpace c = true := fun hh => h (ih.2 hh)
      simp [h]
      intro _; simpa using this

theorem trimEnd_append (p t : Str) (h : trimEnd t ≠ []) : trimEnd (p ++ t) = p ++ trimEnd t := by
  induction p with
  | nil => rfl
  | cons c cs ih =>
    have : trimEnd (cs ++ t) ≠ [] := by rw [ih]; simp [h]
    show trimEnd (c :: (cs ++ t)) = c :: (cs ++ trimEnd t)
    simp only [trimEnd]
    rw [if_neg (by simp [this]), ih]

theorem trimEnd_append_spaces (s w : Str) (hw : ∀ c ∈ w, isSpace c = true) :
    trimEnd (s ++ w) = trimEnd s := by
  induction s with
  | nil => simpa using (trimEnd_eq_nil_iff w).2 hw
  | cons c cs ih => simp [trimEnd, ih]

theorem trim_cons_space (c : Char) (s : Str) (h : isSpace c = true) : trim (c :: s) = trim s := by
  simp [trim, List.dropWhile, h]

theorem trim_cons_nonspace (c : Char) (s : Str) (h : isSpace c = false) :
    trim (c :: s) = trimEnd (c :: s) := by
  simp [trim, List.dropWhile, h]

theorem trimEnd_cons_nonspace (c : Char) (s : Str) (h : isSpace c = false) :
    trimEnd (c :: s) = c :: trimEnd s := by
  simp [trimEnd, h]

/-- A trimmed non-empty string starts with a character that is not white space and is
fixed by `trimEnd`. -/
theorem trimmed_cons {c : Char} {s : Str} (h : trim (c :: s) = c :: s) :
    isSpace c = false ∧ trimEnd (c :: s) = c :: s := by
  by_cases hc : isSpace c = true
  · exfalso
    rw [trim_cons_space c s hc] at h
    have h1 : (trim s).length ≤ s.length := by
      unfold trim
      exact le_trans (trimEnd_length_le _) (dropWhile_length_le _ _)
    rw [h] at h1; simp at h1
  · simp only [Bool.not_eq_true] at hc
    rw [trim_cons_nonspace c s hc] at h
    exact ⟨hc, h⟩

theorem mem_trimEnd {c : Char} {s : Str} (h : c ∈ trimEnd s) : c ∈ s := by
  induction s with
  | nil => simp [trimEnd] at h
  | cons d ds ih =>
    simp only [trimEnd] at h
    split at h
    · simp at h
    · simp at h
      rcases h with h | h
      · simp [h]
      · simp [ih h]

theorem mem_dropWhile {p : Char → Bool} {c : Char} {s : Str} (h : c ∈ s.dropWhile p) : c ∈ s :=
  (List.dropWhile_suffix p).subset h

theorem mem_trim {c : Char} {s : Str} (h : c ∈ trim s) : c ∈ s :=
  mem_dropWhile (mem_trimEnd h)

theorem dropWhile_head_not (p : Char → Bool) (s : Str) (c : Char) (t : Str)
    (h : s.dropWhile p = c :: t) : p c = false := by
  induction s with
  | nil => simp at h
  | cons d ds ih =>
    simp only [List.dropWhile] at h
    split at h
    · exact ih h
    · next hd => simp at h; rw [← h.1]; simpa using hd

theorem trim_head_not_space (s : Str) (c : Char) (t : Str) (h : trim s = c :: t) :
    isSpace c = false := by
  unfold trim at h
  cases hd : s.dropWhile isSpace with
  | nil => rw [hd] at h; simp [trimEnd] at h
  | cons d ds =>
    have hdn := dropWhile_head_not isSpace s d ds hd
    rw [hd, trimEnd_cons_nonspace d ds hdn] at h
    simp at h; rw [← h.1]; exact hdn

theorem trimEnd_getLast_not_space (s : Str) (c : Char) (h : (trimEnd s).getLast? = some c) :
    isSpace c = false := by
  induction s with
  | nil => simp [trimEnd] at h
  | cons d ds ih =>
    simp only [trimEnd] at h
    by_cases hr : trimEnd ds = []
    · by_cases hd : isSpace d = true
      · simp [hr, hd] at h
      · simp [hr, hd] at h; rw [← h]; simpa using hd
    · simp [hr] at h
      cases hr' : trimEnd ds with
      | nil => exact absurd hr' hr
      | cons e es =>
        rw [hr'] at h ih
        rw [List.getLast?_cons_cons] at h
        exact ih h

/-! ## Lemmas on the pattern combinators -/

@[simp] theorem orTry_some (r : Str) (b : Option Str) : orTry (some r) b = some r := rfl

@[simp] theorem orTry_none (b : Option Str) : orTry none b = b := rfl

theorem rep_zero_max (p : Char → Bool) (k : Cont) (s : Str) : rep p k 0 (some 0) s = k s := by
  cases s <;> simp [rep]

theorem opt_nil (p : Char → Bool) (k : Cont) : opt p k [] = k [] := by
  simp [opt, rep]

theorem opt_cons_neg (p : Char → Bool) (k : Cont) (c : Char) (cs : Str) (h : p c = false) :
    opt p k (c :: cs) = k (c :: cs) := by
  simp [opt, rep, h]

theorem opt_cons_pos (p : Char → Bool) (k : Cont) (c : Char) (cs : Str) (h : p c = true) :
    opt p k (c :: cs) = orTry (k cs) (k (c :: cs)) := by
  simp [opt, rep, h, rep_zero_max]

theorem many_done (p : Char → Bool) (s : Str) : many p done s = some (s.dropWhile p) := by
  induction s with
  | nil => simp [many, rep, done]
  | cons c cs ih =>
    unfold many at ih ⊢
    by_cases h : p c = true
    · simp [rep, h, ih, List.dropWhile]
    · simp [rep, h, List.dropWhile, done]

theorem many1_nil (p : Char → Bool) (k : Cont) : many1 p k [] = none := by
  simp [many1, rep]

theorem many1_cons_neg (p : Char → Bool) (k : Cont) (c : Char) (cs : Str) (h : p c = false) :
    many1 p k (c :: cs) = none := by
  simp [many1, rep, h]

theorem many_cons_neg (p : Char → Bool) (k : Cont) (c : Char) (cs : Str) (h : p c = false) :
    many p k (c :: cs) = k (c :: cs) := by
  simp [many, rep, h]

theorem many_nil (p : Char → Bool) (k : Cont) : many p k [] = k [] := by
  simp [many, rep]

/-- The greedy attempt of an unbounded quantifier: when what follows accepts the rest
after the whole run, that is the match. -/
theorem rep_run (p : Char → Bool) (k : Cont) (run s : Str) (r : Str) (lo : Nat)
    (hrun : ∀ c ∈ run, p c = true) (hs : ∀ c t, s = c :: t → p c = false)
    (hlo : lo ≤ run.length) (hk : k s = some r) :
    rep p k lo none (run ++ s) = some r := by
  induction run generalizing lo with
  | nil =>
    simp at hlo; subst hlo
    cases s with
    | nil => simpa [rep] using hk
    | cons c t => simpa [rep, hs c t rfl] using hk
  | cons c cs ih =>
    have hc : p c = true := hrun c (by simp)
    have := ih (lo - 1) (fun d hd => hrun d (by simp [hd])) (by simp at hlo; omega)
    simp [rep, hc, this]

/-- An unbounded quantifier fails on a run when what follows rejects every rest that
starts inside the run and the rest after it. -/
theorem rep_run_none (p : Char → Bool) (k : Cont) (run s : Str) (lo : Nat) (hi : Option Nat)
    (hrun : ∀ c ∈ run, p c = true) (hs : ∀ c t, s = c :: t → p c = false)
    (hin : ∀ c t, p c = true → k (c :: t) = none) (hk : k s = none) :
    rep p k lo hi (run ++ s) = none := by
  induction run generalizing lo hi with
  | nil =>
    cases s with
    | nil => simp [rep, hk]
    | cons c t =>
      simp [rep, hs c t rfl, hk]
  | cons c cs ih =>
    have hc : p c = true := hrun c (by simp)
    have := ih (lo - 1) (hi.map fun h => h - 1) (fun d hd => hrun d (by simp [hd]))
    simp [rep, hc, this, hin c (cs ++ s) hc]

/-- Failure of a quantified class does not depend on what follows it, as long as what
follows fails at least where the other continuation fails. -/
theorem rep_none_imp (p : Char → Bool) (k k' : Cont) (s : Str) (lo : Nat) (hi : Option Nat)
    (himp : ∀ t, k' t = none → k t = none) (h : rep p k' lo hi s = none) :
    rep p k lo hi s = none := by
  induction s generalizing lo hi with
  | nil =>
    simp only [rep] at h ⊢
    split at h
    · next hl => simp [himp _ h]
    · next hl => simp [hl]
  | cons c cs ih =>
    simp only [rep] at h ⊢
    by_cases hc : (p c && hi != some 0) = true
    · rw [if_pos hc] at h ⊢
      cases hr : rep p k' (lo - 1) (hi.map fun h => h - 1) cs with
      | some r => rw [hr] at h; simp at h
      | none =>
        rw [hr] at h
        rw [ih _ _ hr]
        simp only [orTry_none] at h ⊢
        split at h
        · next hl => simp [hl, himp _ h]
        · next hl => simp [hl]
    · rw [if_neg hc] at h ⊢
      split at h
      · next hl => simp [himp _ h]
      · next hl => simp [hl]

/-! ## Lemmas on the decimal rendering -/

theorem digitChar_isDigit (d : Nat) (h : d < 10) : isDigit (Nat.digitChar d) = true := by
  interval_cases d <;> decide

theorem toDigitsCore_digits (fuel n : Nat) (acc : List Char)
    (hacc : ∀ c ∈ acc, isDigit c = true) :
    ∀ c ∈ Nat.toDigitsCore 10 fuel n acc, isDigit c = true := by
  induction fuel generalizing n acc with
  | zero => simpa [Nat.toDigitsCore] using hacc
  | succ f ih =>
    simp only [Nat.toDigitsCore]
    have hd : isDigit (Nat.digitChar (n % 10)) = true := digitChar_isDigit _ (Nat.mod_lt _ (by decide))
    have hacc' : ∀ c ∈ Nat.digitChar (n % 10) :: acc, isDigit c = true := by
      intro c hc
      rcases List.mem_cons.1 hc with h | h
      · rw [h]; exact hd
      · exact hacc c h
    split
    · exact hacc'
    · exact ih _ _ hacc'

theorem toDigitsCore_ne_nil (fuel n : Nat) (acc : List Char) (h : acc ≠ [] ∨ 0 < fuel) :
    Nat.toDigitsCore 10 fuel n acc ≠ [] := by
  induction fuel generalizing n acc with
  | zero =>
    rcases h with h | h
    · simpa [Nat.toDigitsCore] using h
    · omega
  | succ f ih =>
    simp only [Nat.toDigitsCore]
    split
    · simp
    · exact ih _ _ (Or.inl (by simp))

theorem natToString_digits (n : Nat) : ∀ c ∈ natToString n, isDigit c = true := by
  have : natToString n = Nat.toDigitsCore 10 (n + 1) n [] := rfl
  rw [this]
  exact toDigitsCore_digits _ _ _ (by simp)

theorem natToString_ne_nil (n : Nat) : natToString n ≠ [] := by
  have : natToString n = Nat.toDigitsCore 10 (n + 1) n [] := rfl
  rw [this]
  exact toDigitsCore_ne_nil _ _ _ (Or.inr (by omega))

/-! ## Lemmas on the lines of the References block -/

theorem trim_marked_line (c0 : Char) (p t : Str) (hc0 : isSpace c0 = false)
    (hp : trimEnd (c0 :: p) = c0 :: p)
    (ht : ∀ c u, t = c :: u → isSpace c = false) :
    trim (c0 :: p ++ ' ' :: t) = c0 :: p ++ trimmedTail t := by
  show trim (c0 :: (p ++ ' ' :: t)) = _
  rw [trim_cons_nonspace _ _ hc0]
  cases t with
  | nil =>
    have : c0 :: (p ++ [' ']) = (c0 :: p) ++ [' '] := rfl
    rw [this, trimEnd_append_spaces _ _ (by decide), hp]
    simp [trimmedTail]
  | cons c u =>
    have hc := ht c u rfl
    have h1 : trimEnd (' ' :: c :: u) = ' ' :: c :: trimEnd u := by
      have h2 := trimEnd_cons_nonspace c u hc
      simp only [trimEnd] at h2 ⊢
      rw [h2]; simp
    have : c0 :: (p ++ ' ' :: c :: u) = (c0 :: p) ++ (' ' :: c :: u) := rfl
    rw [this, trimEnd_append _ _ (by rw [h1]; simp), h1]
    simp [trimmedTail, trimEnd_cons_nonspace c u hc]

theorem dropWhile_trimmedTail (t : Str) (ht : ∀ c u, t = c :: u → isSpace c = false) :
    (trimmedTail t).dropWhile isSpace = trimEnd t := by
  cases t with
  | nil => simp [trimmedTail, trimEnd]
  | cons c u =>
    have hc := ht c u rfl
    have : isSpace ' ' = true := by decide
    simp [trimmedTail, List.dropWhile, this, trimEnd_cons_nonspace c u hc, hc]

theorem trim_eq_trimEnd (t : Str) (ht : ∀ c u, t = c :: u → isSpace c = false) :
    trim t = trimEnd t := by
  cases t with
  | nil => rfl
  | cons c u => exact trim_cons_nonspace c u (ht c u rfl)

theorem trimEnd_snoc_nonspace (p : Str) (c : Char) (hc : isSpace c = false) :
    trimEnd (p ++ [c]) = p ++ [c] := by
  have h : trimEnd [c] = [c] := by simp [trimEnd, hc]
  rw [trimEnd_append p [c] (by rw [h]; simp), h]

theorem bulletPattern_none (s : Str) (hs : ∀ c u, s = c :: u → c ≠ '-') :
    bulletPattern s = none := by
  cases s with
  | nil => rfl
  | cons c u =>
    have := hs c u rfl
    simp [bulletPattern, chr, this]

theorem trimEnd_head (t : Str) (hsp : ∀ c u, t = c :: u → isSpace c = false)
    (P : Char → Prop) (ht : ∀ c u, t = c :: u → P c) :
    ∀ c u, trimEnd t = c :: u → P c := by
  intro c u h
  cases t with
  | nil => simp [trimEnd] at h
  | cons d v =>
    rw [trimEnd_cons_nonspace d v (hsp d v rfl)] at h
    simp at h
    rw [← h.1]; exact ht d v rfl

theorem refNumberPattern_bracket (ds t : Str) (hne : ds ≠ [])
    (hds : ∀ c ∈ ds, isDigit c = true) (ht : ∀ c u, t = c :: u → isSpace c = false) :
    refNumberPattern ('[' :: ds ++ ']' :: trimmedTail t) = some (trimEnd t) := by
  have hk : opt (fun c => c == ']') (many isSpace done) (']' :: trimmedTail t)
      = some (trimEnd t) := by
    rw [opt_cons_pos _ _ _ _ (by decide), many_done, dropWhile_trimmedTail t ht]
    rfl
  have hrun := rep_run isDigit (opt (fun c => c == ']') (many isSpace done)) ds
    (']' :: trimmedTail t) (trimEnd t) 1 hds
    (by intro c u h; simp at h; rw [← h.1]; decide)
    (by cases ds with
        | nil => exact absurd rfl hne
        | cons _ _ => simp) hk
  show opt (fun c => c == '[') (many1 isDigit (opt (fun c => c == ']') (many isSpace done)))
    ('[' :: (ds ++ ']' :: trimmedTail t)) = _
  rw [opt_cons_pos _ _ _ _ (by decide)]
  unfold many1
  rw [hrun]; rfl

theorem collectReferences_bracket (ds t : Str) (rest refs : List Str) (hne : ds ≠ [])
    (hds : ∀ c ∈ ds, isDigit c = true)
    (ht : ∀ c u, t = c :: u → isSpace c = false ∧ c ≠ '-') :
    collectReferences (('[' :: ds ++ ']' :: ' ' :: t) :: rest) refs =
      collectReferences rest (refs ++ [trim t]) := by
  have hsp : ∀ c u, t = c :: u → isSpace c = false := fun c u h => (ht c u h).1
  have htrim : trim ('[' :: ds ++ ']' :: ' ' :: t) = '[' :: ds ++ ']' :: trimmedTail t := by
    have := trim_marked_line '[' (ds ++ [']']) t (by decide)
      (by have := trimEnd_snoc_nonspace ('[' :: ds) ']' (by decide)
          simpa using this) hsp
    simpa using this
  have hpat := refNumberPattern_bracket ds t hne hds hsp
  have hb : bulletPattern (trimEnd t) = none :=
    bulletPattern_none _ (trimEnd_head t hsp (fun c => c ≠ '-') (fun c u h => (ht c u h).2))
  rw [collectReferences]
  simp only [htrim, test, hpat, remove, hb, Option.isSome_some, Bool.true_or, if_true]
  rw [trim_eq_trimEnd t hsp]

theorem collectReferences_bullet (t : Str) (rest refs : List Str)
    (ht : ∀ c u, t = c :: u → isSpace c = false) :
    collectReferences (('-' :: ' ' :: t) :: rest) refs =
      collectReferences rest (refs ++ [trim t]) := by
  have htrim : trim ('-' :: ' ' :: t) = '-' :: trimmedTail t := by
    have := trim_marked_line '-' [] t (by decide) (by decide) ht
    simpa using this
  have hnum : refNumberPattern ('-' :: trimmedTail t) = none := by
    show opt (fun c => c == '[') (many1 isDigit (opt (fun c => c == ']') (many isSpace done)))
      ('-' :: trimmedTail t) = none
    rw [opt_cons_neg _ _ _ _ (by decide), many1_cons_neg _ _ _ _ (by decide)]
  have hb : bulletPattern ('-' :: trimmedTail t) = some (trimEnd t) := by
    show chr (fun c => c == '-') (many isSpace done) ('-' :: trimmedTail t) = _
    simp only [chr]
    rw [if_pos (by decide), many_done, dropWhile_trimmedTail t ht]
  rw [collectReferences]
  simp only [htrim, test, hnum, remove, hb, Option.isSome_some, Option.isSome_none,
    Bool.or_true, if_true]
  rw [trim_eq_trimEnd t ht]

/-! ## Lemmas on the marker patterns -/

theorem word_cons_some (a : Char) (w : Str) (k : Cont) (s r : Str)
    (h : word (a :: w) k s = some r) : ∃ c u, s = c :: u ∧ ci a c = true := by
  cases s with
  | nil => simp [word, chr] at h
  | cons c u =>
    refine ⟨c, u, rfl, ?_⟩
    by_cases hc : ci a c = true
    · exact hc
    · simp [word, chr, hc] at h

theorem word_cons_none (a : Char) (w : Str) (k : Cont) (c : Char) (u : Str)
    (h : ci a c = false) : word (a :: w) k (c :: u) = none := by
  simp [word, chr, h]

theorem word_nil_none (a : Char) (w : Str) (k : Cont) : word (a :: w) k [] = none := by
  simp [word, chr]

/-- A line matched by a marker pattern holds, after its leading stars, a character
that is the first letter of the marker word in one of its two cases. -/
theorem marker_head (a : Char) (w : Str) (k : Cont) (ha : ci a '*' = false) (s r : Str)
    (h : opt isStar (opt isStar (word (a :: w) k)) s = some r) :
    ∃ c u, s.dropWhile isStar = c :: u ∧ ci a c = true := by
  have hstar : ∀ c, isStar c = true → c = '*' := by
    intro c hc; simpa [isStar] using hc
  have hX : ∀ c u, isStar c = true → word (a :: w) k (c :: u) = none := by
    intro c u hc
    rw [hstar c hc]; exact word_cons_none a w k _ u ha
  have hnot : ∀ c, ci a c = true → isStar c = false := by
    intro c hc
    by_contra hs
    simp only [Bool.not_eq_false] at hs
    rw [hstar c hs, ha] at hc
    exact absurd hc (by decide)
  have base : ∀ t r, word (a :: w) k t = some r →
      ∃ c u, t.dropWhile isStar = c :: u ∧ ci a c = true := by
    intro t r ht
    obtain ⟨c, u, rfl, hc⟩ := word_cons_some a w k t r ht
    exact ⟨c, u, by simp [List.dropWhile, hnot c hc], hc⟩
  have one : ∀ t r, opt isStar (word (a :: w) k) t = some r →
      ∃ c u, t.dropWhile isStar = c :: u ∧ ci a c = true := by
    intro t r ht
    cases t with
    | nil => rw [opt_nil, word_nil_none] at ht; exact absurd ht (by simp)
    | cons c1 t1 =>
      by_cases h1 : isStar c1 = true
      · rw [opt_cons_pos _ _ _ _ h1, hX c1 t1 h1] at ht
        cases hw : word (a :: w) k t1 with
        | none => rw [hw] at ht; simp at ht
        | some r' =>
          obtain ⟨c, u, hd, hc⟩ := base t1 r' hw
          exact ⟨c, u, by simp [List.dropWhile, h1, hd], hc⟩
      · simp only [Bool.not_eq_true] at h1
        rw [opt_cons_neg _ _ _ _ h1] at ht
        exact base _ r ht
  cases s with
  | nil => rw [opt_nil, opt_nil, word_nil_none] at h; exact absurd h (by simp)
  | cons c1 s1 =>
    by_cases h1 : isStar c1 = true
    · rw [opt_cons_pos _ _ _ _ h1] at h
      cases h2 : opt isStar (word (a :: w) k) s1 with
      | some r' =>
        obtain ⟨c, u, hd, hc⟩ := one s1 r' h2
        exact ⟨c, u, by simp [List.dropWhile, h1, hd], hc⟩
      | none =>
        rw [h2] at h
        simp only [orTry_none] at h
        obtain ⟨c, u, hd, hc⟩ := one _ r h
        exact ⟨c, u, hd, hc⟩
    · simp only [Bool.not_eq_true] at h1
      rw [opt_cons_neg _ _ _ _ h1] at h
      exact one _ r h

theorem abstract_of_keywords (s : Str) (h : test keywordsPattern s = true) :
    test abstractPattern s = false := by
  cases hk : keywordsPattern s with
  | none => simp [test, hk] at h
  | some r =>
    cases ha : abstractPattern s with
    | none => simp [test, ha]
    | some r' =>
      exfalso
      obtain ⟨c, u, hd, hc⟩ := marker_head 'K' "eywords".toList _ (by decide) s r hk
      obtain ⟨c', u', hd', hc'⟩ := marker_head 'A' "bstract".toList _ (by decide) s r' ha
      rw [hd] at hd'
      simp at hd'
      rw [← hd'.1] at hc'
      simp only [ci, beq_iff_eq] at hc hc'
      rw [hc] at hc'
      exact absurd hc' (by decide)

theorem pattern_nil : abstractPattern [] = none ∧ keywordsPattern [] = none ∧
    referencesPattern [] = none := by decide

theorem keywords_step (fuel : Nat) (raw : Str) (rest : List Str) (st : LoopState)
    (hk : test keywordsPattern (trim raw) = true) :
    parseLoop (fuel + 1) (raw :: rest) st =
      parseLoop fuel rest
        { st with result := { st.result with keywords := keywordsOf (trim raw) } } := by
  have hne : (trim raw).isEmpty = false := by
    cases h : trim raw with
    | nil => rw [h] at hk; simp [test, pattern_nil.2.1] at hk
    | cons _ _ => rfl
  rw [parseLoop]
  simp only [hne, abstract_of_keywords _ hk, hk, if_true, Bool.false_eq_true, if_false]

/-! ## Lemmas on the keyword list -/

theorem splitOnChar_no_sep (p : Char → Bool) (s : Str) :
    ∀ piece ∈ splitOnChar p s, ∀ c ∈ piece, p c = false := by
  induction s with
  | nil => simp [splitOnChar]
  | cons c cs ih =>
    simp only [splitOnChar]
    by_cases hc : p c = true
    · simp only [hc, if_true]
      intro piece hp
      rcases List.mem_cons.1 hp with h | h
      · simp [h]
      · exact ih piece h
    · simp only [hc, Bool.false_eq_true, if_false]
      cases hs : splitOnChar p cs with
      | nil => 
        simp only
        intro piece hp d hd
        simp at hp; subst hp; simp at hd; subst hd; simpa using hc
      | cons piece more =>
        simp only
        rw [hs] at ih
        intro q hq d hd
        rcases List.mem_cons.1 hq with h | h
        · subst h
          rcases List.mem_cons.1 hd with h' | h'
          · subst h'; simpa using hc
          · exact ih piece (by simp) d h'
        · exact ih q (by simp [h]) d hd

theorem trim_getLast_not_space (s : Str) (c : Char) (h : (trim s).getLast? = some c) :
    isSpace c = false :=
  trimEnd_getLast_not_space _ c h

/-- Every keyword of a Keywords marker line is non-empty, starts and ends with a
character that is not white space, and holds no comma and no semicolon. -/
theorem keywordsOf_good (line : Str) (k : Str) (hk : k ∈ keywordsOf line) :
    k ≠ [] ∧ (∀ c, k.head? = some c → isSpace c = false) ∧
      (∀ c, k.getLast? = some c → isSpace c = false) ∧ ∀ c ∈ k, c ≠ ',' ∧ c ≠ ';' := by
  unfold keywordsOf at hk
  rw [List.mem_filter, List.mem_map] at hk
  obtain ⟨⟨piece, hpiece, rfl⟩, hne⟩ := hk
  refine ⟨?_, ?_, ?_, ?_⟩
  · intro h; rw [h] at hne; simp at hne
  · intro c hc
    cases ht : trim piece with
    | nil => rw [ht] at hc; simp at hc
    | cons d u =>
      rw [ht] at hc; simp at hc; subst hc
      exact trim_head_not_space piece d u ht
  · intro c hc
    exact trim_getLast_not_space piece c hc
  · intro c hc
    have := splitOnChar_no_sep _ _ piece hpiece c (mem_trim hc)
    simp at this
    exact this

theorem saveSection_keywords (st : LoopState) : (saveSection st).keywords = st.result.keywords := by
  unfold saveSection
  split <;> rfl

/-- Every keyword stored by the loop comes from a Keywords marker line. -/
theorem parseLoop_keywords (G : Str → Prop) (hG : ∀ line k, k ∈ keywordsOf line → G k) :
    ∀ (fuel : Nat) (lines : List Str) (st st' : LoopState),
      (∀ k ∈ st.result.keywords, G k) → parseLoop fuel lines st = some st' →
      ∀ k ∈ st'.result.keywords, G k := by
  intro fuel
  induction fuel with
  | zero =>
    intro lines st st' hst h
    cases lines with
    | nil => simp [parseLoop] at h; subst h; exact hst
    | cons _ _ => simp [parseLoop] at h
  | succ f ih =>
    intro lines st st' hst h
    cases lines with
    | nil => simp [parseLoop] at h; subst h; exact hst
    | cons raw rest =>
      rw [parseLoop] at h
      simp only at h
      split at h
      · split at h
        · exact ih _ _ _ (by simpa using hst) h
        · exact ih _ _ _ hst h
      · split at h
        · exact ih _ _ _ (by simpa using hst) h
        · split at h
          · exact ih _ _ _ (by intro k hk; exact hG _ k hk) h
          · split at h
            · simp at h; subst h
              simpa [saveSection_keywords] using hst
            · split at h
              · split at h
                · exact ih _ _ _ (by simpa [saveSection_keywords] using hst) h
                · exact ih _ _ _ (by simpa [saveSection_keywords] using hst) h
              · split at h
                · exact ih _ _ _ (by simpa using hst) h
                · split at h
                  · split at h
                    · exact ih _ _ _ (by simpa using hst) h
                    · exact ih _ _ _ hst h
                  · exact ih _ _ _ hst h

/-! ## Lemmas on the Abstract branch and on the fuel of the loop -/

theorem collectAbstract_eq (rest acc : List Str) :
    collectAbstract rest acc =
      (acc ++ ((rest.takeWhile continuesAbstract).map trim).filter (fun l => !l.isEmpty),
       rest.dropWhile continuesAbstract) := by
  induction rest generalizing acc with
  | nil => simp [collectAbstract]
  | cons raw rest ih =>
    simp only [collectAbstract]
    by_cases hs : isAbstractStop (trim raw) = true
    · simp [hs, continuesAbstract, List.takeWhile, List.dropWhile]
    · simp only [Bool.not_eq_true] at hs
      simp only [hs, Bool.false_eq_true, if_false, ih]
      by_cases he : (trim raw).isEmpty = true
      · simp [he, continuesAbstract, hs, List.takeWhile, List.dropWhile, List.filter]
      · simp [he, continuesAbstract, hs, List.takeWhile, List.dropWhile, List.filter]

theorem trim_join_remainder (remainder : Str) (more : List Str) :
    trim (join " ".toList ((if remainder.isEmpty then [] else [remainder]) ++ more)) =
      trim (join " ".toList (remainder :: more)) := by
  cases remainder with
  | cons c u => rfl
  | nil =>
    cases more with
    | nil => rfl
    | cons y ys =>
      show trim (join " ".toList (y :: ys)) = trim (' ' :: join " ".toList (y :: ys))
      rw [trim_cons_space _ _ (by decide)]

theorem abstract_step (fuel : Nat) (raw : Str) (rest : List Str) (st : LoopState)
    (ha : test abstractPattern (trim raw) = true) :
    parseLoop (fuel + 1) (raw :: rest) st =
      parseLoop fuel (rest.dropWhile continuesAbstract)
        { st with result := { st.result with
            abstract := specAbstract (remove abstractPattern (trim raw)) rest } } := by
  have hne : (trim raw).isEmpty = false := by
    cases h : trim raw with
    | nil => rw [h] at ha; simp [test, pattern_nil.1] at ha
    | cons _ _ => rfl
  rw [parseLoop]
  simp only [hne, ha, if_true, Bool.false_eq_true, if_false, collectAbstract_eq,
    trim_join_remainder, specAbstract]

theorem collectAbstract_length (rest acc : List Str) :
    (collectAbstract rest acc).2.length ≤ rest.length := by
  rw [collectAbstract_eq]
  exact (List.dropWhile_suffix _).length_le

/-- The loop is left before the fuel runs out when there is one unit of fuel per line. -/
theorem parseLoop_total : ∀ (fuel : Nat) (lines : List Str) (st : LoopState),
    lines.length ≤ fuel → ∃ st', parseLoop fuel lines st = some st' := by
  intro fuel
  induction fuel with
  | zero =>
    intro lines st h
    cases lines with
    | nil => exact ⟨st, by simp [parseLoop]⟩
    | cons _ _ => simp at h
  | succ f ih =>
    intro lines st h
    cases lines with
    | nil => exact ⟨st, by simp [parseLoop]⟩
    | cons raw rest =>
      have hr : rest.length ≤ f := by simpa using h
      rw [parseLoop]
      simp only
      split
      · split
        · exact ih _ _ hr
        · exact ih _ _ hr
      · split
        · exact ih _ _ (le_trans (collectAbstract_length _ _) hr)
        · split
          · exact ih _ _ hr
          · split
            · exact ⟨_, rfl⟩
            · split
              · split
                · exact ih _ _ hr
                · exact ih _ _ hr
              · split
                · exact ih _ _ hr
                · split
                  · split
                    · exact ih _ _ hr
                    · exact ih _ _ hr
                  · exact ih _ _ hr

theorem parseText_total (text : Str) (title : Option Str) :
    ∃ r, parseText text title = some r := by
  unfold parseText
  obtain ⟨st', h⟩ := parseLoop_total _ (splitOnChar (fun c => c == '\n') text)
    { result := initialResult title, currentSection := none, currentContent := [] } le_rfl
  exact ⟨saveSection st', by simp [h]⟩

theorem parseContent_total (content : Content) (title : Option Str) :
    ∃ r, parseContent content title = some r := by
  cases content with
  | absent => exact ⟨_, rfl⟩
  | str s =>
    show ∃ r, (if s.isEmpty then some (initialResult title) else parseText s title) = some r
    by_cases h : s.isEmpty = true
    · exact ⟨_, by rw [if_pos h]⟩
    · rw [if_neg h]; exact parseText_total s title
  | tree n => exact parseText_total _ title

/-! ## The parser: claims on the title, the abstract and the keywords -/

/-- C3 (the code at the failing input): for the content `# My Title`, blank line,
`Body text` and the fallback title `fallback`, `parseContent` keeps the title `fallback`
and opens a section `My Title` with the content `Body text`; the heading is not taken
as the title. -/
theorem title_heading_not_captured :
    parseContent (Content.str titleExample) (some "fallback".toList) =
      some ⟨"fallback".toList, [], [], [⟨"My Title".toList, "Body text".toList⟩], []⟩ := by
  decide

/-- C4: on an Abstract marker line the loop sets `abstract` to the remainder of the
line followed by every later non-blank line (trimmed) before the first line that
starts with `#`, matches the Keywords marker or contains one of the 13 known section
names in lower case, joined by single blanks and trimmed, and goes on at that line;
for the example of the specification the abstract is `This paper studies X.`. -/
theorem abstract_marker_collects (fuel : Nat) (raw : Str) (rest : List Str) (st : LoopState)
    (ha : test abstractPattern (trim raw) = true) :
    parseLoop (fuel + 1) (raw :: rest) st =
      parseLoop fuel (rest.dropWhile fun l => !isAbstractStop (trim l))
        (setAbstract st
          (trim (join " ".toList (remove abstractPattern (trim raw) ::
            ((rest.takeWhile fun l => !isAbstractStop (trim l)).map trim).filter
              fun l => !l.isEmpty))))
    ∧ (∀ line, isAbstractStop line =
        (startsWith line "#".toList || test keywordsPattern line ||
          knownSections.any fun s => includes (toLowerCase line) s))
    ∧ knownSections.length = 13
    ∧ (parseContent (Content.str abstractExample) none).map ParsedPaper.abstract =
        some "This paper studies X.".toList := by
  refine ⟨abstract_step fuel raw rest st ha, fun _ => rfl, rfl, by decide⟩

/-- Witness of C4: the marker line of the abstract example, followed by the three other
lines of the example. -/
theorem abstract_marker_collects_witness :
    test abstractPattern (trim "Abstract— This paper studies X.".toList) = true ∧
    parseLoop 4 ["Abstract— This paper studies X.".toList, [], "Introduction".toList,
        "Some intro text.".toList] startState =
      parseLoop 3 ["Introduction".toList, "Some intro text.".toList]
        (setAbstract startState "This paper studies X.".toList) :=
  ⟨by decide,
   (abstract_marker_collects 3 "Abstract— This paper studies X.".toList
      [[], "Introduction".toList, "Some intro text.".toList] startState (by decide)).1.trans
      (by decide)⟩

/-- C5 (counterexample): for the abstract example of the specification the bare line
`Introduction` opens no section: `sections` is empty, not the one section
`Introduction` with the content `Some intro text.`. -/
theorem bare_section_name_opens_nothing :
    (parseContent (Content.str abstractExample) none).map ParsedPaper.sections = some []
    ∧ (parseContent (Content.str abstractExample) none).map ParsedPaper.sections ≠
        some [⟨"Introduction".toList, "Some intro text.".toList⟩] := by
  decide

/-- C5 (amended): a bare line naming a known section ends the collection of the
abstract but is not a section header, a header being a line that starts with `#` or
with a Roman numeral, a dot and white space; with the name written as the header
`## Introduction` or `I. Introduction` after the abstract of the example, `sections`
is exactly the one section `Introduction` with the content `Some intro text.`. -/
theorem section_needs_header_line :
    (knownSections.all fun s => isAbstractStop s && !isHeader s) = true
    ∧ isAbstractStop "Introduction".toList = true
    ∧ isHeader "Introduction".toList = false
    ∧ isHeader "## Introduction".toList = true
    ∧ isHeader "I. Introduction".toList = true
    ∧ parseContent (Content.str abstractHeadingExample) none =
        some ⟨"Untitled Paper".toList, "This paper studies X.".toList, [],
          [⟨"Introduction".toList, "Some intro text.".toList⟩], []⟩
    ∧ parseContent (Content.str abstractNumeralExample) none =
        some ⟨"Untitled Paper".toList, "This paper studies X.".toList, [],
          [⟨"Introduction".toList, "Some intro text.".toList⟩], []⟩ := by
  decide

/-- C6: on a Keywords marker line the loop sets `keywords` to the remainder of the line
split on `,` and `;`, each piece trimmed and the empty ones dropped, in order, and goes
on with the next line; every keyword of such a line, and so every keyword of every
result of `parseContent`, is non-empty, has no white space at either end and holds no
comma and no semicolon; the line of the specification gives `deep learning`, `CNN`,
`healthcare`. -/
theorem keywords_marker_sets (fuel : Nat) (raw : Str) (rest : List Str) (st : LoopState)
    (hk : test keywordsPattern (trim raw) = true) :
    parseLoop (fuel + 1) (raw :: rest) st =
      parseLoop fuel rest
        (setKeywords st
          (((splitOnChar (fun c => c == ',' || c == ';')
            (remove keywordsPattern (trim raw))).map trim).filter fun k => !k.isEmpty))
    ∧ (∀ k ∈ ((splitOnChar (fun c => c == ',' || c == ';')
          (remove keywordsPattern (trim raw))).map trim).filter fun k => !k.isEmpty,
        GoodKeyword k)
    ∧ (∀ content title, ∃ r, parseContent content title = some r ∧
        ∀ k ∈ r.keywords, GoodKeyword k)
    ∧ (parseContent (Content.str keywordsExample) none).map ParsedPaper.keywords =
        some ["deep learning".toList, "CNN".toList, "healthcare".toList] := by
  refine ⟨keywords_step fuel raw rest st hk, fun k hk' => keywordsOf_good (trim raw) k hk',
    ?_, by decide⟩
  intro content title
  obtain ⟨r, hr⟩ := parseContent_total content title
  refine ⟨r, hr, ?_⟩
  have htext : ∀ text r, parseText text title = some r → ∀ k ∈ r.keywords, GoodKeyword k := by
    intro text r h
    unfold parseText at h
    simp only [Option.map_eq_some'] at h
    obtain ⟨st', hst', rfl⟩ := h
    rw [saveSection_keywords]
    exact parseLoop_keywords GoodKeyword (fun line k hk' => keywordsOf_good line k hk') _ _ _ _
      (by simp [initialResult]) hst'
  cases content with
  | absent =>
    have : r = initialResult title := by
      have h : some (initialResult title) = some r := hr
      exact (Option.some.inj h).symm
    subst this; simp [initialResult]
  | str s =>
    have h : (if s.isEmpty then some (initialResult title) else parseText s title) = some r := hr
    by_cases he : s.isEmpty = true
    · rw [if_pos he] at h
      have : r = initialResult title := (Option.some.inj h).symm
      subst this; simp [initialResult]
    · rw [if_neg he] at h
      exact htext s r h
  | tree n => exact htext _ r hr

/-- Witness of C6: the Keywords line of the specification as the only line. -/
theorem keywords_marker_sets_witness :
    test keywordsPattern (trim keywordsExample) = true ∧
    parseLoop 1 [keywordsExample] startState =
      some (setKeywords startState
        ["deep learning".toList, "CNN".toList, "healthcare".toList]) :=
  ⟨by decide, (keywords_marker_sets 0 keywordsExample [] startState (by decide)).1.trans
    (by decide)⟩

/-! ## The parser: claims on the References block -/

/-- C8 (the code at the failing input): for `## **References**` followed by `[1] A` the
heading is not taken as the References marker: a section `**References**` with the
content `[1] A` is opened and `references` stays empty. -/
theorem bold_references_heading_opens_section :
    parseContent (Content.str boldReferencesExample) none =
      some ⟨"Untitled Paper".toList, [], [],
        [⟨"**References**".toList, "[1] A".toList⟩], []⟩ := by
  decide

/-- C9 (counterexample): the line `[1] a ` of a References block, whose text `a ` does
not start with white space or `-`, is stored as `a`, not as `a `. -/
theorem reference_entry_loses_trailing_blank :
    startsPlain "a ".toList = true
    ∧ collectReferences ["[1] a ".toList] [] = ["a".toList]
    ∧ (parseContent (Content.str trailingBlankExample) none).map ParsedPaper.references =
        some ["a".toList]
    ∧ "a".toList ≠ "a ".toList := by
  decide

theorem startsPlain_cons (t : Str) (h : startsPlain t = true) :
    ∀ c u, t = c :: u → isSpace c = false ∧ c ≠ '-' := by
  intro c u ht
  subst ht
  simpa [startsPlain] using h

/-- C9 (amended): in the References block, for every number `n` and every text `t` that
does not start with white space or `-`, the line `[n] t` and the line `- t` are stored
as `t` without its trailing white space (the line is trimmed before the marker is
stripped), hence as `t` itself when `t` does not end with white space. -/
theorem reference_marker_stripped (n : Nat) (t : Str) (rest refs : List Str)
    (ht : startsPlain t = true) :
    collectReferences (("[".toList ++ natToString n ++ "] ".toList ++ t) :: rest) refs =
      collectReferences rest (refs ++ [trim t])
    ∧ collectReferences (("- ".toList ++ t) :: rest) refs =
      collectReferences rest (refs ++ [trim t])
    ∧ collectReferences ["[".toList ++ natToString n ++ "] ".toList ++ t] refs =
      refs ++ [trim t]
    ∧ collectReferences ["- ".toList ++ t] refs = refs ++ [trim t]
    ∧ (trimEnd t = t → trim t = t) := by
  have h := startsPlain_cons t ht
  have hsp : ∀ c u, t = c :: u → isSpace c = false := fun c u e => (h c u e).1
  have e1 : ∀ rest, collectReferences (("[".toList ++ natToString n ++ "] ".toList ++ t) :: rest)
      refs = collectReferences rest (refs ++ [trim t]) := by
    intro rest
    have := collectReferences_bracket (natToString n) t rest refs (natToString_ne_nil n)
      (natToString_digits n) h
    simpa using this
  have e2 : ∀ rest, collectReferences (("- ".toList ++ t) :: rest) refs =
      collectReferences rest (refs ++ [trim t]) := by
    intro rest
    exact collectReferences_bullet t rest refs hsp
  refine ⟨e1 rest, e2 rest, ?_, ?_, ?_⟩
  · rw [e1 []]; rfl
  · rw [e2 []]; rfl
  · intro he; rw [trim_eq_trimEnd t hsp, he]

/-- Witness of C9: the lines `[1] A` and `- A`. -/
theorem reference_marker_stripped_witness :
    startsPlain "A".toList = true ∧
    collectReferences ["[1] A".toList] [] = ["A".toList] ∧
    collectReferences ["- A".toList] [] = ["A".toList] :=
  ⟨by decide,
   (reference_marker_stripped 1 "A".toList [] [] (by decide)).2.2.1,
   (reference_marker_stripped 1 "A".toList [] [] (by decide)).2.2.2.1⟩

/-- C10 (the code at the failing input): in the References block the line
`1. J. Doe, Title` is stored as `. J. Doe, Title`: the digits are stripped, the dot
stays. -/
theorem dotted_number_keeps_dot :
    (parseContent (Content.str dottedReferenceExample) none).map ParsedPaper.references =
      some [". J. Doe, Title".toList] := by
  decide

/-! ## Lemmas on section header lines -/

theorem roman_cases (c : Char) (h : isRoman c = true) :
    c ∈ ['I', 'V', 'X', 'L', 'C', 'i', 'v', 'x', 'l', 'c'] := by
  unfold isRoman foldCase at h
  by_cases hr : 97 ≤ c.toNat ∧ c.toNat ≤ 122
  · have hc : c = Char.ofNat c.toNat := (Char.ofNat_toNat c).symm
    simp only [hr, and_self, if_true] at h
    obtain ⟨h1, h2⟩ := hr
    generalize c.toNat = n at hc h h1 h2
    subst hc
    interval_cases n <;> first
      | (exfalso; revert h; decide)
      | decide
  · simp only [hr, if_false] at h
    simp only [Bool.or_eq_true, beq_iff_eq] at h
    rcases h with (((h | h) | h) | h) | h <;> simp [h]

theorem roman_facts (c : Char) (h : isRoman c = true) :
    isSpace c = false ∧ isHash c = false ∧ isStar c = false ∧ ci 'A' c = false ∧
      ci 'K' c = false ∧ ci 'R' c = false ∧ (c == '.') = false ∧ (c == '#') = false := by
  have := roman_cases c h
  simp only [List.mem_cons, List.mem_singleton, List.not_mem_nil, or_false] at this
  rcases this with h | h | h | h | h | h | h | h | h | h <;> subst h <;> decide

theorem abstractPattern_head_none (c : Char) (u : Str) (hs : isStar c = false)
    (ha : ci 'A' c = false) : abstractPattern (c :: u) = none := by
  show opt isStar (opt isStar (word ('A' :: "bstract".toList) _)) (c :: u) = none
  rw [opt_cons_neg _ _ _ _ hs, opt_cons_neg _ _ _ _ hs, word_cons_none _ _ _ _ _ ha]

theorem keywordsPattern_head_none (c : Char) (u : Str) (hs : isStar c = false)
    (ha : ci 'K' c = false) : keywordsPattern (c :: u) = none := by
  show opt isStar (opt isStar (word ('K' :: "eywords".toList) _)) (c :: u) = none
  rw [opt_cons_neg _ _ _ _ hs, opt_cons_neg _ _ _ _ hs, word_cons_none _ _ _ _ _ ha]

theorem afterMarkup_eq (s : Str) :
    afterMarkup s =
      orTry (many1 isRoman (chr (fun c => c == '.') (many isSpace referencesWord)) s)
        (referencesWord s) := rfl

theorem referencesWord_head_none (c : Char) (u : Str) (h : ci 'R' c = false) :
    referencesWord (c :: u) = none := by
  show word ('R' :: "eferences".toList) _ (c :: u) = none
  exact word_cons_none _ _ _ _ _ h

theorem afterMarkup_head_none (c : Char) (u : Str) (hr : isRoman c = false)
    (h : ci 'R' c = false) : afterMarkup (c :: u) = none := by
  rw [afterMarkup_eq, many1_cons_neg _ _ _ _ hr, referencesWord_head_none c u h]; rfl

theorem chr_none_imp (p : Char → Bool) (k : Cont) (t : Str)
    (h : chr p (many isSpace done) t = none) : chr p k t = none := by
  cases t with
  | nil => rfl
  | cons c u =>
    by_cases hc : p c = true
    · simp [chr, hc, many_done] at h
    · simp [chr, hc]

theorem afterMarkup_title_none (t : Str) (hr : romanPattern t = none)
    (hw : referencesWord t = none) : afterMarkup t = none := by
  have : many1 isRoman (chr (fun c => c == '.') (many isSpace referencesWord)) t = none :=
    rep_none_imp isRoman _ _ t 1 none (fun u hu => chr_none_imp _ _ u hu) hr
  rw [afterMarkup_eq, this, hw]; rfl

/-- The rest of a numbered header line after its numeral: a dot, a blank, the title. -/
theorem afterMarkup_numeral_none (r t : Str) (c0 : Char) (t' : Str) (ht : t = c0 :: t')
    (hc0 : isSpace c0 = false) (hr : ∀ c ∈ r, isRoman c = true) (hne : r ≠ [])
    (hw : referencesWord t = none) :
    afterMarkup (r ++ '.' :: ' ' :: t) = none := by
  have hk : chr (fun c => c == '.') (many isSpace referencesWord) ('.' :: ' ' :: t) = none := by
    simp only [chr]
    rw [if_pos (by decide)]
    show rep isSpace referencesWord 0 none (' ' :: t) = none
    have h1 : rep isSpace referencesWord 0 none t = none := by
      subst ht
      have := many_cons_neg isSpace referencesWord c0 t' hc0
      unfold many at this
      rw [this, hw]
    have h2 : referencesWord (' ' :: t) = none := referencesWord_head_none _ _ (by decide)
    simp [rep, h1, h2]
  have h1 : many1 isRoman (chr (fun c => c == '.') (many isSpace referencesWord))
      (r ++ '.' :: ' ' :: t) = none := by
    unfold many1
    apply rep_run_none isRoman _ r _ 1 none hr
    · intro c u h; simp at h; rw [← h.1]; decide
    · intro c u hc
      simp [chr, (roman_facts c hc).2.2.2.2.2.2.1]
    · exact hk
  have h2 : referencesWord (r ++ '.' :: ' ' :: t) = none := by
    cases r with
    | nil => exact absurd rfl hne
    | cons a r' =>
      exact referencesWord_head_none _ _ (roman_facts a (hr a (by simp))).2.2.2.2.2.1
  rw [afterMarkup_eq, h1, h2]; rfl

theorem rep_cons_neg (p : Char → Bool) (k : Cont) (lo : Nat) (hi : Option Nat) (c : Char)
    (cs : Str) (h : p c = false) :
    rep p k lo hi (c :: cs) = if lo = 0 then k (c :: cs) else none := by
  simp [rep, h]

/-- One to three `#` on a line that starts with exactly two of them and a blank. -/
theorem rep_hash_two (k : Cont) (l : Str) :
    rep isHash k 1 (some 3) ('#' :: '#' :: ' ' :: l) =
      orTry (orTry (k (' ' :: l)) (k ('#' :: ' ' :: l))) none := by
  have h1 : isHash '#' = true := by decide
  have h2 : isHash ' ' = false := by decide
  simp [rep, h1, h2]

theorem referencesPattern_eq (s : Str) :
    referencesPattern s =
      opt isStar (opt isStar
        (optGroup (fun k => rep isHash (many isSpace k) 1 (some 3)) afterMarkup)) s := rfl

theorem optGroup_eq (g : Cont → Cont) (k : Cont) (s : Str) :
    optGroup g k s = orTry (g k s) (k s) := rfl

theorem referencesPattern_hash (l : Str) (l0 : Char) (l' : Str) (hl : l = l0 :: l')
    (hsp : isSpace l0 = false) (hk : afterMarkup l = none) :
    referencesPattern ('#' :: '#' :: ' ' :: l) = none := by
  have hs : isStar '#' = false := by decide
  have k1 : many isSpace afterMarkup (' ' :: l) = none := by
    have a1 : rep isSpace afterMarkup 0 none l = none := by
      subst hl
      have := many_cons_neg isSpace afterMarkup l0 l' hsp
      unfold many at this
      rw [this, hk]
    have a2 : afterMarkup (' ' :: l) = none :=
      afterMarkup_head_none _ _ (by decide) (by decide)
    have a3 : isSpace ' ' = true := by decide
    simp [many, rep, a1, a2, a3]
  have k2 : many isSpace afterMarkup ('#' :: ' ' :: l) = none := by
    rw [many_cons_neg _ _ _ _ (by decide)]
    exact afterMarkup_head_none _ _ (by decide) (by decide)
  have k3 : afterMarkup ('#' :: '#' :: ' ' :: l) = none :=
    afterMarkup_head_none _ _ (by decide) (by decide)
  rw [referencesPattern_eq, opt_cons_neg _ _ _ _ hs, opt_cons_neg _ _ _ _ hs, optGroup_eq,
    rep_hash_two, k1, k2, k3]
  rfl

theorem referencesPattern_numeral (r t : Str) (c0 : Char) (t' : Str) (ht : t = c0 :: t')
    (hc0 : isSpace c0 = false) (hr : ∀ c ∈ r, isRoman c = true) (hne : r ≠ [])
    (hw : referencesWord t = none) :
    referencesPattern (r ++ '.' :: ' ' :: t) = none := by
  have hk := afterMarkup_numeral_none r t c0 t' ht hc0 hr hne hw
  cases r with
  | nil => exact absurd rfl hne
  | cons a r' =>
    have ha := roman_facts a (hr a (by simp))
    rw [referencesPattern_eq]
    show opt isStar _ (a :: (r' ++ '.' :: ' ' :: t)) = none
    rw [opt_cons_neg _ _ _ _ ha.2.2.1, opt_cons_neg _ _ _ _ ha.2.2.1, optGroup_eq,
      rep_cons_neg _ _ _ _ _ _ ha.2.1]
    have : afterMarkup (a :: (r' ++ '.' :: ' ' :: t)) = none := hk
    rw [this]; rfl

theorem hashPattern_hash (l : Str) (l0 : Char) (l' : Str) (hl : l = l0 :: l')
    (hsp : isSpace l0 = false) : hashPattern ('#' :: '#' :: ' ' :: l) = some l := by
  show rep isHash (many isSpace done) 1 (some 3) _ = _
  rw [rep_hash_two, many_done]
  subst hl
  have a3 : isSpace ' ' = true := by decide
  simp [List.dropWhile, a3, hsp]

theorem romanPattern_numeral (r t : Str) (c0 : Char) (t' : Str) (ht : t = c0 :: t')
    (hc0 : isSpace c0 = false) (hr : ∀ c ∈ r, isRoman c = true) (hne : r ≠ []) :
    romanPattern (r ++ '.' :: ' ' :: t) = some t := by
  show rep isRoman (chr (fun c => c == '.') (many isSpace done)) 1 none _ = _
  apply rep_run isRoman _ r _ t 1 hr
  · intro c u h; simp at h; rw [← h.1]; decide
  · cases r with
    | nil => exact absurd rfl hne
    | cons _ _ => simp
  · simp only [chr]
    rw [if_pos (by decide), many_done]
    subst ht
    have a3 : isSpace ' ' = true := by decide
    simp [List.dropWhile, a3, hc0]

theorem romanHeaderPattern_numeral (r t : Str) (c0 : Char) (t' : Str) (ht : t = c0 :: t')
    (hc0 : isSpace c0 = false) (hr : ∀ c ∈ r, isRoman c = true) (hne : r ≠ []) :
    romanHeaderPattern (r ++ '.' :: ' ' :: t) = some t := by
  show rep isRoman (chr (fun c => c == '.') (many1 isSpace done)) 1 none _ = _
  apply rep_run isRoman _ r _ t 1 hr
  · intro c u h; simp at h; rw [← h.1]; decide
  · cases r with
    | nil => exact absurd rfl hne
    | cons _ _ => simp
  · simp only [chr]
    rw [if_pos (by decide)]
    have hm := many_done isSpace t
    unfold many at hm
    have a3 : isSpace ' ' = true := by decide
    subst ht
    simp [many1, rep, a3, hm, List.dropWhile, hc0, done]

theorem trim_of_trimEnd (c0 : Char) (p t : Str) (hc0 : isSpace c0 = false)
    (ht : trimEnd t = t) (hne : t ≠ []) : trim (c0 :: p ++ t) = c0 :: p ++ t := by
  show trim (c0 :: (p ++ t)) = _
  rw [trim_cons_nonspace _ _ hc0]
  have := trimEnd_append (c0 :: p) t (by rw [ht]; exact hne)
  rw [ht] at this
  exact this

theorem isSome_false {α : Type} (o : Option α) (h : o.isSome = false) : o = none := by
  cases o with
  | none => rfl
  | some _ => simp at h

theorem titleOk_unpack (t : Str) (h : titleOk t = true) :
    ∃ c0 t', t = c0 :: t' ∧ isSpace c0 = false ∧ trimEnd t = t ∧ romanPattern t = none ∧
      referencesWord t = none ∧ ∀ c ∈ t, (c == '\n') = false := by
  unfold titleOk at h
  simp only [Bool.and_eq_true, Bool.not_eq_true', beq_iff_eq, test] at h
  obtain ⟨⟨⟨⟨h1, h2⟩, h3⟩, h4⟩, h5⟩ := h
  cases t with
  | nil => simp at h1
  | cons c0 t' =>
    obtain ⟨hc0, he⟩ := trimmed_cons h2
    refine ⟨c0, t', rfl, hc0, he, isSome_false _ h4, isSome_false _ h5, ?_⟩
    intro c hc
    by_contra hcn
    simp only [Bool.not_eq_false, beq_iff_eq] at hcn
    subst hcn
    have : (c0 :: t').contains '\n' = true := by
      simpa using hc
    rw [this] at h3
    exact absurd h3 (by decide)

theorem isNumeral_unpack (r : Str) (h : isNumeral r = true) :
    ∃ a r', r = a :: r' ∧ ∀ c ∈ r, isRoman c = true := by
  unfold isNumeral at h
  simp only [Bool.and_eq_true, Bool.not_eq_true', List.all_eq_true] at h
  cases r with
  | nil => simp at h
  | cons a r' => exact ⟨a, r', rfl, h.2⟩

theorem header_facts_hash (l t : Str) (l0 : Char) (l' : Str) (hl : l = l0 :: l')
    (hsp : isSpace l0 = false) (hend : trimEnd l = l) (hk : afterMarkup l = none)
    (hrest : trim (remove romanPattern l) = t) :
    HeaderFacts ('#' :: '#' :: ' ' :: l) t := by
  have hne : l ≠ [] := by rw [hl]; simp
  refine ⟨?_, rfl, ?_, ?_, ?_, ?_, ?_, ?_⟩
  · exact trim_of_trimEnd '#' ['#', ' '] l (by decide) hend hne
  · exact abstractPattern_head_none _ _ (by decide) (by decide)
  · exact keywordsPattern_head_none _ _ (by decide) (by decide)
  · exact referencesPattern_hash l l0 l' hl hsp hk
  · simp [isHeader, startsWith]
  · unfold sectionTitleOf
    have : remove hashPattern ('#' :: '#' :: ' ' :: l) = l := by
      unfold remove; rw [hashPattern_hash l l0 l' hl hsp]
    rw [this, hrest]
  · have : (' ' == '#') = false := by decide
    simp [startsWith, List.isPrefixOf, this]

theorem header_facts (f : HeaderForm) (t : Str) (hf : formOk f = true)
    (ht : titleOk t = true) : HeaderFacts (headerLine f t) t := by
  obtain ⟨c0, t', hte, hc0, hend, hroman, hword, _⟩ := titleOk_unpack t ht
  have htrim : trim t = t := by rw [hte, trim_cons_nonspace _ _ hc0, ← hte, hend]
  have hrem : trim (remove romanPattern t) = t := by
    unfold remove; rw [hroman]; exact htrim
  have hne : t ≠ [] := by rw [hte]; simp
  cases f with
  | hash =>
    exact header_facts_hash t t c0 t' hte hc0 hend (afterMarkup_title_none t hroman hword) hrem
  | numeral r =>
    obtain ⟨a, r', hr, hall⟩ := isNumeral_unpack r hf
    have hrne : r ≠ [] := by rw [hr]; simp
    have ha := roman_facts a (hall a (by rw [hr]; simp))
    have e : headerLine (HeaderForm.numeral r) t = a :: (r' ++ '.' :: ' ' :: t) := by
      simp [headerLine, hr]
    have e' : r ++ '.' :: ' ' :: t = a :: (r' ++ '.' :: ' ' :: t) := by rw [hr]; rfl
    have hhash : hashPattern (a :: (r' ++ '.' :: ' ' :: t)) = none := by
      show rep isHash _ 1 (some 3) _ = none
      rw [rep_cons_neg _ _ _ _ _ _ ha.2.1]; rfl
    rw [e]
    refine ⟨?_, rfl, ?_, ?_, ?_, ?_, ?_, ?_⟩
    · have := trim_of_trimEnd a (r' ++ ['.', ' ']) t ha.1 hend hne
      simpa using this
    · exact abstractPattern_head_none _ _ ha.2.2.1 ha.2.2.2.1
    · exact keywordsPattern_head_none _ _ ha.2.2.1 ha.2.2.2.2.1
    · rw [← e']; exact referencesPattern_numeral r t c0 t' hte hc0 hall hrne hword
    · unfold isHeader test
      rw [← e', romanHeaderPattern_numeral r t c0 t' hte hc0 hall hrne]
      simp
    · unfold sectionTitleOf
      have h1 : remove hashPattern (a :: (r' ++ '.' :: ' ' :: t)) =
          a :: (r' ++ '.' :: ' ' :: t) := by
        unfold remove; rw [hhash]
      have h2 : remove romanPattern (a :: (r' ++ '.' :: ' ' :: t)) = t := by
        unfold remove; rw [← e', romanPattern_numeral r t c0 t' hte hc0 hall hrne]
      rw [h1, h2, htrim]
    · have := ha.2.2.2.2.2.2.2
      simp only [beq_eq_false_iff_ne, ne_eq] at this
      simp [startsWith, List.isPrefixOf]
      intro h; exact absurd h.symm this
  | both r =>
    obtain ⟨a, r', hr, hall⟩ := isNumeral_unpack r hf
    have hrne : r ≠ [] := by rw [hr]; simp
    have ha := roman_facts a (hall a (by rw [hr]; simp))
    have e : headerLine (HeaderForm.both r) t = '#' :: '#' :: ' ' :: (r ++ '.' :: ' ' :: t) := by
      simp [headerLine]
    have e' : r ++ '.' :: ' ' :: t = a :: (r' ++ '.' :: ' ' :: t) := by rw [hr]; rfl
    rw [e]
    apply header_facts_hash (r ++ '.' :: ' ' :: t) t a (r' ++ '.' :: ' ' :: t) e' ha.1
    · have h1 : trimEnd (a :: (r' ++ ['.', ' ']) ++ t) = a :: (r' ++ ['.', ' ']) ++ t := by
        have := trimEnd_append (a :: (r' ++ ['.', ' '])) t (by rw [hend]; exact hne)
        rw [hend] at this; exact this
      rw [e']; simpa using h1
    · exact afterMarkup_numeral_none r t c0 t' hte hc0 hall hrne hword
    · unfold remove
      rw [romanPattern_numeral r t c0 t' hte hc0 hall hrne]
      exact htrim

theorem header_step (line t : Str) (h : HeaderFacts line t) (fuel : Nat) (rest : List Str)
    (st : LoopState) :
    parseLoop (fuel + 1) (line :: rest) st =
      parseLoop fuel rest (openSection st t) := by
  obtain ⟨h1, h2, h3, h4, h5, h6, h7, h8⟩ := h
  rw [parseLoop]
  simp only [h1, h2, test, h3, h4, h5, h6, h7, h8, Option.isSome_none, Bool.false_eq_true,
    if_false, if_true, Bool.and_false, openSection]

/-! ## Lemmas on documents made of headed blocks -/

theorem body_step (raw t : Str) (hb : bodyLineOk raw = true) (fuel : Nat) (rest : List Str)
    (st : LoopState) (hcur : st.currentSection = some t) (hne : t ≠ []) :
    parseLoop (fuel + 1) (raw :: rest) st = parseLoop fuel rest (pushContent st [trim raw]) := by
  have htr : truthyStr st.currentSection = true := by
    rw [hcur]; cases t with
    | nil => exact absurd rfl hne
    | cons _ _ => rfl
  unfold bodyLineOk at hb
  simp only [Bool.and_eq_true, Bool.or_eq_true, Bool.not_eq_true'] at hb
  obtain ⟨_, hb⟩ := hb
  rw [parseLoop]
  rcases hb with hb | ⟨⟨⟨h1, h2⟩, h3⟩, h4⟩
  · have : trim raw = [] := by simpa using hb
    simp only [this, List.isEmpty_nil, htr, if_true, pushContent]
  · by_cases he : (trim raw).isEmpty = true
    · have : trim raw = [] := by simpa using he
      simp only [this, List.isEmpty_nil, htr, if_true, pushContent]
    · simp only [he, h1, h2, h3, h4, htr, Bool.false_eq_true, if_false, if_true, pushContent]

theorem body_steps (body : List Str) (t : Str) (hne : t ≠ [])
    (hall : ∀ l ∈ body, bodyLineOk l = true) (rest : List Str) :
    ∀ (st : LoopState) (fuel : Nat), st.currentSection = some t →
      body.length + rest.length ≤ fuel →
      ∃ fuel', rest.length ≤ fuel' ∧
        parseLoop fuel (body ++ rest) st = parseLoop fuel' rest (pushContent st (body.map trim)) := by
  induction body with
  | nil =>
    intro st fuel _ hf
    refine ⟨fuel, by simpa using hf, ?_⟩
    simp [pushContent]
  | cons raw body ih =>
    intro st fuel hcur hf
    obtain ⟨f, rfl⟩ : ∃ f, fuel = f + 1 := ⟨fuel - 1, by simp at hf; omega⟩
    have h1 := body_step raw t (hall raw (by simp)) f (body ++ rest) st hcur hne
    obtain ⟨fuel', hf', h2⟩ := ih (fun l hl => hall l (by simp [hl]))
      (pushContent st [trim raw]) f (by simpa [pushContent] using hcur)
      (by simp at hf; omega)
    refine ⟨fuel', hf', ?_⟩
    show parseLoop (f + 1) (raw :: (body ++ rest)) st = _
    rw [h1, h2]
    simp [pushContent]

theorem saveSection_open (st : LoopState) (t : Str) (ls : List Str) (hne : t ≠ []) :
    (saveSection (pushContent (openSection st t) ls)).sections =
      (saveSection st).sections ++ [⟨t, trim (join "\n".toList ls)⟩] := by
  cases t with
  | nil => exact absurd rfl hne
  | cons c u => simp [saveSection, pushContent, openSection, truthyStr, strVal]

theorem blockOk_unpack (b : Block) (h : blockOk b = true) :
    formOk b.form = true ∧ titleOk b.title = true ∧ ∀ l ∈ b.body, bodyLineOk l = true := by
  unfold blockOk at h
  simp only [Bool.and_eq_true, List.all_eq_true] at h
  exact ⟨h.1.1, h.1.2, h.2⟩

/-- The loop on a document made of well-formed blocks: it is left with one more section
per block, titled as the headers say, in their order. -/
theorem blocks_loop (bs : List Block) (hok : ∀ b ∈ bs, blockOk b = true) :
    ∀ (st : LoopState) (fuel : Nat), (docLines bs).length ≤ fuel →
      ∃ st', parseLoop fuel (docLines bs) st = some st' ∧
        (saveSection st').sections.map Section.title =
          (saveSection st).sections.map Section.title ++ bs.map Block.title := by
  induction bs with
  | nil =>
    intro st fuel _
    refine ⟨st, ?_, by simp⟩
    cases fuel <;> simp [docLines, parseLoop]
  | cons b bs ih =>
    intro st fuel hf
    obtain ⟨hform, htitle, hbody⟩ := blockOk_unpack b (hok b (by simp))
    have hne : b.title ≠ [] := by
      obtain ⟨c0, t', e, _⟩ := titleOk_unpack b.title htitle
      rw [e]; simp
    have hlines : docLines (b :: bs) = headerLine b.form b.title :: (b.body ++ docLines bs) := by
      simp [docLines, blockLines]
    rw [hlines] at hf ⊢
    obtain ⟨f, rfl⟩ : ∃ f, fuel = f + 1 := ⟨fuel - 1, by simp at hf; omega⟩
    rw [header_step _ _ (header_facts b.form b.title hform htitle) f _ st]
    obtain ⟨fuel', hf', h2⟩ := body_steps b.body b.title hne hbody (docLines bs)
      (openSection st b.title) f rfl (by simp at hf; omega)
    rw [h2]
    obtain ⟨st', h3, h4⟩ := ih (fun c hc => hok c (by simp [hc]))
      (pushContent (openSection st b.title) (b.body.map trim)) fuel' hf'
    refine ⟨st', h3, ?_⟩
    rw [h4, saveSection_open st b.title _ hne]
    simp

theorem splitOnChar_no_sep_eq (p : Char → Bool) (x : Str) (hx : ∀ c ∈ x, p c = false) :
    splitOnChar p x = [x] := by
  induction x with
  | nil => rfl
  | cons c cs ih =>
    have hc : p c = false := hx c (by simp)
    simp [splitOnChar, hc, ih (fun d hd => hx d (by simp [hd]))]

theorem splitOnChar_append (p : Char → Bool) (x s : Str) (sep : Char)
    (hx : ∀ c ∈ x, p c = false) (hsep : p sep = true) :
    splitOnChar p (x ++ sep :: s) = x :: splitOnChar p s := by
  induction x with
  | nil => simp [splitOnChar, hsep]
  | cons c cs ih =>
    have hc : p c = false := hx c (by simp)
    simp [splitOnChar, hc, ih (fun d hd => hx d (by simp [hd]))]

/-- Splitting the lines joined by newlines gives the lines back. -/
theorem split_join (lines : List Str) (hne : lines ≠ [])
    (hno : ∀ l ∈ lines, ∀ c ∈ l, (c == '\n') = false) :
    splitOnChar (fun c => c == '\n') (join "\n".toList lines) = lines := by
  induction lines with
  | nil => exact absurd rfl hne
  | cons x rest ih =>
    cases rest with
    | nil => exact splitOnChar_no_sep_eq _ x (hno x (by simp))
    | cons y ys =>
      have e : join "\n".toList (x :: y :: ys) = x ++ '\n' :: join "\n".toList (y :: ys) := by
        simp [join]
      rw [e, splitOnChar_append _ x _ '\n' (hno x (by simp)) (by decide),
        ih (by simp) (fun l hl => hno l (by simp [hl]))]

theorem join_cons_ne_nil (sep x : Str) (rest : List Str) (hx : x ≠ []) :
    join sep (x :: rest) ≠ [] := by
  cases rest with
  | nil => exact hx
  | cons y ys =>
    show x ++ sep ++ join sep (y :: ys) ≠ []
    simp [hx]

/-! ## The parser: claims on the sections -/

theorem headerLine_no_newline (f : HeaderForm) (t : Str) (hf : formOk f = true)
    (ht : titleOk t = true) : ∀ c ∈ headerLine f t, (c == '\n') = false := by
  obtain ⟨_, _, _, _, _, _, _, hno⟩ := titleOk_unpack t ht
  have hroman : ∀ r, isNumeral r = true → ∀ c ∈ r, (c == '\n') = false := by
    intro r hr c hc
    obtain ⟨_, _, _, hall⟩ := isNumeral_unpack r hr
    have := (roman_facts c (hall c hc)).1
    by_contra hcn
    simp only [Bool.not_eq_false, beq_iff_eq] at hcn
    subst hcn
    exact absurd this (by decide)
  intro c hc
  cases f with
  | hash =>
    simp only [headerLine, List.mem_append] at hc
    rcases hc with hc | hc
    · revert c; decide
    · exact hno c hc
  | numeral r =>
    simp only [headerLine, List.mem_append] at hc
    rcases hc with (hc | hc) | hc
    · exact hroman r hf c hc
    · revert c; decide
    · exact hno c hc
  | both r =>
    simp only [headerLine, List.mem_append] at hc
    rcases hc with ((hc | hc) | hc) | hc
    · revert c; decide
    · exact hroman r hf c hc
    · revert c; decide
    · exact hno c hc

theorem docLines_no_newline (bs : List Block) (hok : ∀ b ∈ bs, blockOk b = true) :
    ∀ l ∈ docLines bs, ∀ c ∈ l, (c == '\n') = false := by
  intro l hl
  simp only [docLines, List.mem_flatMap, blockLines, List.mem_cons] at hl
  obtain ⟨b, hb, hl⟩ := hl
  obtain ⟨hform, htitle, hbody⟩ := blockOk_unpack b (hok b hb)
  rcases hl with hl | hl
  · rw [hl]; exact headerLine_no_newline b.form b.title hform htitle
  · have := hbody l hl
    unfold bodyLineOk at this
    simp only [Bool.and_eq_true, Bool.not_eq_true'] at this
    intro c hc
    by_contra hcn
    simp only [Bool.not_eq_false, beq_iff_eq] at hcn
    subst hcn
    have h2 : l.contains '\n' = true := by simpa using hc
    rw [h2] at this
    exact absurd this.1 (by decide)

theorem sections_of_blocks (bs : List Block) (title : Option Str) (hne : bs ≠ [])
    (hok : ∀ b ∈ bs, blockOk b = true) :
    ∃ r, parseContent (Content.str (join "\n".toList (docLines bs))) title = some r ∧
      r.sections.map Section.title = bs.map Block.title := by
  cases bs with
  | nil => exact absurd rfl hne
  | cons b bs' =>
    obtain ⟨hform, htitle, _⟩ := blockOk_unpack b (hok b (by simp))
    have hfacts := header_facts b.form b.title hform htitle
    have hlines : docLines (b :: bs') =
        headerLine b.form b.title :: (b.body ++ docLines bs') := by
      simp [docLines, blockLines]
    have hhead : headerLine b.form b.title ≠ [] := by
      intro h; have := hfacts.2.1; rw [h] at this; simp at this
    have hnonempty : (join "\n".toList (docLines (b :: bs'))).isEmpty = false := by
      rw [hlines]
      have := join_cons_ne_nil "\n".toList _ (b.body ++ docLines bs') hhead
      cases hj : join "\n".toList (headerLine b.form b.title :: (b.body ++ docLines bs')) with
      | nil => exact absurd hj this
      | cons _ _ => rfl
    have hsplit := split_join (docLines (b :: bs')) (by rw [hlines]; simp)
      (docLines_no_newline _ hok)
    obtain ⟨st', h1, h2⟩ := blocks_loop (b :: bs') hok
      { result := initialResult title, currentSection := none, currentContent := [] }
      (docLines (b :: bs')).length le_rfl
    refine ⟨saveSection st', ?_, ?_⟩
    · show (if (join "\n".toList (docLines (b :: bs'))).isEmpty then some (initialResult title)
        else parseText (join "\n".toList (docLines (b :: bs'))) title) = _
      rw [hnonempty]
      simp only [Bool.false_eq_true, if_false, parseText]
      rw [hsplit, h1]; rfl
    · rw [h2]
      simp [saveSection, truthyStr, initialResult]

/-- C7 (counterexample): the header `## REFERENCES`, whose title is non-empty, is not
`References` and starts with no Roman numeral and dot, opens no section; neither does
`## References**`; and `## Scope ` opens the section `Scope`, not `Scope `. -/
theorem header_title_not_always_kept :
    "REFERENCES".toList ≠ "References".toList
    ∧ test romanPattern "REFERENCES".toList = false
    ∧ (parseContent (Content.str "## REFERENCES".toList) none).map ParsedPaper.sections =
        some []
    ∧ test romanPattern "References**".toList = false
    ∧ (parseContent (Content.str "## References**".toList) none).map ParsedPaper.sections =
        some []
    ∧ test romanPattern "Scope ".toList = false
    ∧ (parseContent (Content.str "## Scope ".toList) none).map
        (fun r => r.sections.map Section.title) = some ["Scope".toList]
    ∧ "Scope".toList ≠ "Scope ".toList := by
  decide

/-- C7 (amended): for a content made of one or more blocks, each a header line `## T`,
`R. T` or `## R. T` (`R` a non-empty string of the letters I, V, X, L, C in either case;
`T` non-empty, on one line, without white space at either end, not starting with a
Roman numeral and a dot, and not the word `References` in any letter case with up to
two trailing stars) followed by body lines that are blank or match no marker and no
header pattern, `sections` has one entry per block and their titles are those of the
headers, in order; the three forms of `INTRODUCTION` give the title `INTRODUCTION`. -/
theorem sections_follow_headers (bs : List Block) (title : Option Str) (hne : bs ≠ [])
    (hok : bs.all blockOk = true) :
    (∃ r, parseContent (Content.str (join "\n".toList (docLines bs))) title = some r ∧
      r.sections.map Section.title = bs.map Block.title ∧
      r.sections.length = bs.length)
    ∧ sectionTitleOf "## I. INTRODUCTION".toList = "INTRODUCTION".toList
    ∧ sectionTitleOf "I. INTRODUCTION".toList = "INTRODUCTION".toList
    ∧ sectionTitleOf "## INTRODUCTION".toList = "INTRODUCTION".toList
    ∧ (parseContent (Content.str
        "## I. INTRODUCTION\nI. INTRODUCTION\n## INTRODUCTION".toList) none).map
        (fun r => r.sections.map Section.title) =
        some ["INTRODUCTION".toList, "INTRODUCTION".toList, "INTRODUCTION".toList] := by
  refine ⟨?_, by decide, by decide, by decide, by decide⟩
  obtain ⟨r, h1, h2⟩ := sections_of_blocks bs title hne
    (fun b hb => (List.all_eq_true.1 hok) b hb)
  refine ⟨r, h1, h2, ?_⟩
  have := congrArg List.length h2
  simpa using this

/-- Witness of C7: a document of three blocks, one per header form. -/
theorem sections_follow_headers_witness :
    exampleBlocks.all blockOk = true ∧
    ∃ r, parseContent (Content.str (join "\n".toList (docLines exampleBlocks))) none = some r ∧
      r.sections.map Section.title =
        ["INTRODUCTION".toList, "METHODS".toList, "RESULTS".toList] ∧
      r.sections.length = 3 :=
  ⟨by decide, (sections_follow_headers exampleBlocks none (by simp [exampleBlocks])
    (by decide)).1⟩

/-! ## Lemmas on one iteration of the loop -/

/-- A line matched by a pattern that allows up to two leading stars holds, after its
leading stars, a character accepted by what follows the stars. -/
theorem stars_head (x : Cont) (good : Char → Prop)
    (hx : ∀ t r, x t = some r → ∃ c u, t = c :: u ∧ good c)
    (hgood : ∀ c, good c → isStar c = false) (s r : Str)
    (h : opt isStar (opt isStar x) s = some r) :
    ∃ c u, s.dropWhile isStar = c :: u ∧ good c := by
  have hxs : ∀ c u, isStar c = true → x (c :: u) = none := by
    intro c u hc
    cases hv : x (c :: u) with
    | none => rfl
    | some r' =>
      obtain ⟨c', u', e, hg⟩ := hx _ _ hv
      simp at e
      rw [← e.1] at hg
      rw [hgood c hg] at hc
      exact absurd hc (by decide)
  have base : ∀ t r, x t = some r → ∃ c u, t.dropWhile isStar = c :: u ∧ good c := by
    intro t r ht
    obtain ⟨c, u, rfl, hc⟩ := hx t r ht
    exact ⟨c, u, by simp [List.dropWhile, hgood c hc], hc⟩
  have one : ∀ t r, opt isStar x t = some r →
      ∃ c u, t.dropWhile isStar = c :: u ∧ good c := by
    intro t r ht
    cases t with
    | nil =>
      rw [opt_nil] at ht
      exact base [] r ht
    | cons c1 t1 =>
      by_cases h1 : isStar c1 = true
      · rw [opt_cons_pos _ _ _ _ h1, hxs c1 t1 h1] at ht
        cases hw : x t1 with
        | none => rw [hw] at ht; simp at ht
        | some r' =>
          obtain ⟨c, u, hd, hc⟩ := base t1 r' hw
          exact ⟨c, u, by simp [List.dropWhile, h1, hd], hc⟩
      · simp only [Bool.not_eq_true] at h1
        rw [opt_cons_neg _ _ _ _ h1] at ht
        exact base _ r ht
  cases s with
  | nil =>
    rw [opt_nil] at h
    exact one [] r h
  | cons c1 s1 =>
    by_cases h1 : isStar c1 = true
    · rw [opt_cons_pos _ _ _ _ h1] at h
      cases h2 : opt isStar x s1 with
      | some r' =>
        obtain ⟨c, u, hd, hc⟩ := one s1 r' h2
        exact ⟨c, u, by simp [List.dropWhile, h1, hd], hc⟩
      | none =>
        rw [h2] at h
        simp only [orTry_none] at h
        exact one _ r h
    · simp only [Bool.not_eq_true] at h1
      rw [opt_cons_neg _ _ _ _ h1] at h
      exact one _ r h

theorem rep_one_head (p : Char → Bool) (k : Cont) (hi : Option Nat) (t r : Str)
    (h : rep p k 1 hi t = some r) : ∃ c u, t = c :: u ∧ p c = true := by
  cases t with
  | nil => simp [rep] at h
  | cons c u =>
    refine ⟨c, u, rfl, ?_⟩
    by_cases hc : p c = true
    · exact hc
    · simp [rep, hc] at h

theorem referencesPattern_head (s r : Str) (h : referencesPattern s = some r) :
    ∃ c u, s.dropWhile isStar = c :: u ∧ refLead c := by
  rw [referencesPattern_eq] at h
  refine stars_head _ refLead ?_ ?_ s r h
  · intro t r ht
    rw [optGroup_eq] at ht
    cases h1 : rep isHash (many isSpace afterMarkup) 1 (some 3) t with
    | some r1 =>
      obtain ⟨c, u, e, hc⟩ := rep_one_head _ _ _ _ _ h1
      exact ⟨c, u, e, Or.inl hc⟩
    | none =>
      rw [h1] at ht
      simp only [orTry_none] at ht
      rw [afterMarkup_eq] at ht
      cases h2 : many1 isRoman (chr (fun c => c == '.') (many isSpace referencesWord)) t with
      | some r2 =>
        obtain ⟨c, u, e, hc⟩ := rep_one_head _ _ _ _ _ h2
        exact ⟨c, u, e, Or.inr (Or.inl hc)⟩
      | none =>
        rw [h2] at ht
        simp only [orTry_none] at ht
        obtain ⟨c, u, e, hc⟩ := word_cons_some 'R' "eferences".toList _ t r ht
        exact ⟨c, u, e, Or.inr (Or.inr hc)⟩
  · intro c hc
    rcases hc with hc | hc | hc
    · have : c = '#' := by simpa [isHash] using hc
      subst this; decide
    · exact (roman_facts c hc).2.2.1
    · by_contra hs
      simp only [Bool.not_eq_false] at hs
      have : c = '*' := by simpa [isStar] using hs
      subst this
      exact absurd hc (by decide)

theorem refLead_not (a : Char) (ha : ci a '#' = false) (hr : foldCase a ≠ foldCase 'R')
    (hroman : ∀ c, isRoman c = true → ci a c = false) (c : Char) (h : refLead c)
    (hc : ci a c = true) : False := by
  rcases h with h | h | h
  · have : c = '#' := by simpa [isHash] using h
    subst this
    rw [ha] at hc; exact absurd hc (by decide)
  · rw [hroman c h] at hc; exact absurd hc (by decide)
  · simp only [ci, beq_iff_eq] at h hc
    exact hr (hc.symm.trans h)

/-- A References marker line is neither an Abstract nor a Keywords marker line. -/
theorem markers_of_references (s : Str) (h : test referencesPattern s = true) :
    test abstractPattern s = false ∧ test keywordsPattern s = false := by
  cases hr : referencesPattern s with
  | none => simp [test, hr] at h
  | some r =>
    obtain ⟨c, u, hd, hc⟩ := referencesPattern_head s r hr
    constructor
    · cases ha : abstractPattern s with
      | none => simp [test, ha]
      | some r' =>
        exfalso
        obtain ⟨c', u', hd', hc'⟩ := marker_head 'A' "bstract".toList _ (by decide) s r' ha
        rw [hd] at hd'
        simp at hd'
        rw [← hd'.1] at hc'
        exact refLead_not 'A' (by decide) (by decide)
          (fun d hd => (roman_facts d hd).2.2.2.1) c hc hc'
    · cases ha : keywordsPattern s with
      | none => simp [test, ha]
      | some r' =>
        exfalso
        obtain ⟨c', u', hd', hc'⟩ := marker_head 'K' "eywords".toList _ (by decide) s r' ha
        rw [hd] at hd'
        simp at hd'
        rw [← hd'.1] at hc'
        exact refLead_not 'K' (by decide) (by decide)
          (fun d hd => (roman_facts d hd).2.2.2.2.1) c hc hc'

/-- One iteration of the loop, by the kind of its line. -/
theorem parseLoop_cons (fuel : Nat) (raw : Str) (rest : List Str) (st : LoopState) :
    parseLoop (fuel + 1) (raw :: rest) st =
      if test abstractPattern (trim raw) then
        parseLoop fuel (rest.dropWhile continuesAbstract)
          (setAbstract st (specAbstract (remove abstractPattern (trim raw)) rest))
      else if test referencesPattern (trim raw) then some (closeReferences st rest)
      else parseLoop fuel rest (stepLine raw st) := by
  by_cases ha : test abstractPattern (trim raw) = true
  · rw [if_pos ha]; exact abstract_step fuel raw rest st ha
  · rw [if_neg ha]
    simp only [Bool.not_eq_true] at ha
    by_cases hr : test referencesPattern (trim raw) = true
    · rw [if_pos hr]
      have hk := (markers_of_references _ hr).2
      have hne : (trim raw).isEmpty = false := by
        cases h : trim raw with
        | nil => rw [h] at hr; simp [test, pattern_nil.2.2] at hr
        | cons _ _ => rfl
      rw [parseLoop]
      simp only [hne, ha, hk, hr, Bool.false_eq_true, if_false, if_true, closeReferences]
    · rw [if_neg hr]
      simp only [Bool.not_eq_true] at hr
      rw [parseLoop]
      unfold stepLine
      simp only [ha, hr, Bool.false_eq_true, if_false, pushContent, setKeywords, openSection,
        setAbstract]
      split
      · split <;> rfl
      · split
        · rfl
        · split
          · split <;> rfl
          · split
            · rfl
            · split
              · split <;> rfl
              · rfl

/-! ## Lemmas on the References block and on what precedes it -/

theorem collectReferences_eq (rest refs : List Str) :
    collectReferences rest refs = refs ++ referenceEntries rest := by
  induction rest generalizing refs with
  | nil => simp [collectReferences, referenceEntries]
  | cons raw rest ih =>
    have hcons : referenceEntries (raw :: rest) =
        (if (trim raw).isEmpty then [] else [refEntryOf (trim raw)]) ++ referenceEntries rest := by
      unfold referenceEntries
      by_cases he : (trim raw).isEmpty = true
      · simp [List.filter, he]
      · simp [List.filter, he]
    rw [collectReferences, hcons]
    by_cases hm : (test refNumberPattern (trim raw) || test bulletPattern (trim raw)) = true
    · have hne : (trim raw).isEmpty = false := by
        cases h : trim raw with
        | nil => rw [h] at hm; exact absurd hm (by decide)
        | cons _ _ => rfl
      simp only [hm, if_true, ih, hne, Bool.false_eq_true, if_false, refEntryOf]
      simp
    · by_cases he : (trim raw).isEmpty = true
      · simp only [hm, he, Bool.false_eq_true, if_false, if_true, ih, Bool.not_true]
        simp
      · simp only [hm, he, Bool.false_eq_true, if_false, if_true, ih, Bool.not_false, refEntryOf]
        simp

theorem referenceEntries_length (rest : List Str) :
    (referenceEntries rest).length = (rest.filter fun l => !(trim l).isEmpty).length := by
  unfold referenceEntries
  rw [List.length_map, List.filter_map, List.length_map]
  rfl

theorem saveSection_references (st : LoopState) :
    (saveSection st).references = st.result.references := by
  unfold saveSection
  split <;> rfl

theorem saveSection_title (st : LoopState) : (saveSection st).title = st.result.title := by
  unfold saveSection
  split <;> rfl

theorem saveSection_abstract (st : LoopState) :
    (saveSection st).abstract = st.result.abstract := by
  unfold saveSection
  split <;> rfl

theorem stepLine_references (raw : Str) (st : LoopState) :
    (stepLine raw st).result.references = st.result.references := by
  unfold stepLine
  split
  · split <;> rfl
  · split
    · rfl
    · split
      · split
        · exact saveSection_references st
        · exact saveSection_references st
      · split
        · rfl
        · split
          · split <;> rfl
          · rfl

theorem closeReferences_references (st : LoopState) (rest : List Str) :
    (closeReferences st rest).result.references =
      st.result.references ++ referenceEntries rest := by
  simp [closeReferences, collectReferences_eq, saveSection_references]

theorem saveSection_closeReferences (st : LoopState) (rest : List Str) :
    SameButReferences (saveSection (closeReferences st rest)) (saveSection st) := by
  simp [saveSection, closeReferences, truthyStr, SameButReferences]

/-- Every reference of the state in which the loop is left was read after a References
marker line: the references are those of the lines after it, one per non-blank line. -/
theorem references_origin : ∀ (fuel : Nat) (lines : List Str) (st st' : LoopState),
    st.result.references = [] → parseLoop fuel lines st = some st' →
    st'.result.references = [] ∨
      ∃ pre m rest, lines = pre ++ m :: rest ∧ test referencesPattern (trim m) = true ∧
        st'.result.references = referenceEntries rest := by
  intro fuel
  induction fuel with
  | zero =>
    intro lines st st' hst h
    cases lines with
    | nil => simp [parseLoop] at h; subst h; exact Or.inl hst
    | cons _ _ => simp [parseLoop] at h
  | succ f ih =>
    intro lines st st' hst h
    cases lines with
    | nil => simp [parseLoop] at h; subst h; exact Or.inl hst
    | cons raw rest =>
      rw [parseLoop_cons] at h
      by_cases ha : test abstractPattern (trim raw) = true
      · rw [if_pos ha] at h
        rcases ih _ _ _ (by simpa [setAbstract] using hst) h with h1 | ⟨pre, m, rest', e, hm, hr⟩
        · exact Or.inl h1
        · refine Or.inr ⟨raw :: (rest.takeWhile continuesAbstract ++ pre), m, rest', ?_, hm, hr⟩
          rw [List.cons_append, List.append_assoc, ← e, List.takeWhile_append_dropWhile]
      · rw [if_neg ha] at h
        by_cases hr : test referencesPattern (trim raw) = true
        · rw [if_pos hr] at h
          simp only [Option.some.injEq] at h
          subst h
          refine Or.inr ⟨[], raw, rest, rfl, hr, ?_⟩
          rw [closeReferences_references, hst]; rfl
        · rw [if_neg hr] at h
          rcases ih _ _ _ (by rw [stepLine_references]; exact hst) h with
            h1 | ⟨pre, m, rest', e, hm, hr'⟩
          · exact Or.inl h1
          · exact Or.inr ⟨raw :: pre, m, rest', by simp [e], hm, hr'⟩

/-- On lines without an Abstract marker, what follows a References marker changes
nothing of the result but its references. -/
theorem prefix_same (m : Str) (tail : List Str) (hm : test referencesPattern (trim m) = true) :
    ∀ (pre : List Str), (∀ l ∈ pre, test abstractPattern (trim l) = false) →
      ∀ (st : LoopState) (f1 f2 : Nat), (pre ++ m :: tail).length ≤ f1 → pre.length ≤ f2 →
      ∃ s1 s2, parseLoop f1 (pre ++ m :: tail) st = some s1 ∧ parseLoop f2 pre st = some s2 ∧
        SameButReferences (saveSection s1) (saveSection s2) := by
  have hma := (markers_of_references _ hm).1
  intro pre
  induction pre with
  | nil =>
    intro _ st f1 f2 h1 _
    obtain ⟨f, rfl⟩ : ∃ f, f1 = f + 1 := ⟨f1 - 1, by simp at h1; omega⟩
    refine ⟨closeReferences st tail, st, ?_, ?_, saveSection_closeReferences st tail⟩
    · show parseLoop (f + 1) (m :: tail) st = _
      rw [parseLoop_cons, hma, hm]; rfl
    · cases f2 <;> simp [parseLoop]
  | cons l pre ih =>
    intro hpre st f1 f2 h1 h2
    obtain ⟨f, rfl⟩ : ∃ f, f1 = f + 1 := ⟨f1 - 1, by simp at h1; omega⟩
    obtain ⟨g, rfl⟩ : ∃ g, f2 = g + 1 := ⟨f2 - 1, by simp at h2; omega⟩
    have hl : test abstractPattern (trim l) = false := hpre l (by simp)
    show ∃ s1 s2, parseLoop (f + 1) (l :: (pre ++ m :: tail)) st = some s1 ∧
      parseLoop (g + 1) (l :: pre) st = some s2 ∧ _
    rw [parseLoop_cons, parseLoop_cons, hl]
    simp only [Bool.false_eq_true, if_false]
    by_cases hr : test referencesPattern (trim l) = true
    · simp only [hr, if_true]
      refine ⟨_, _, rfl, rfl, ?_⟩
      have a := saveSection_closeReferences st (pre ++ m :: tail)
      have b := saveSection_closeReferences st pre
      exact ⟨a.1.trans b.1.symm, a.2.1.trans b.2.1.symm, a.2.2.1.trans b.2.2.1.symm,
        a.2.2.2.trans b.2.2.2.symm⟩
    · simp only [hr, Bool.false_eq_true, if_false]
      exact ih (fun l' hl' => hpre l' (by simp [hl'])) (stepLine l st) f g
        (by simp at h1 ⊢; omega) (by simp at h2; omega)

/-! ## Lemmas on the parser as a function of the lines -/

theorem parseText_eq (text : Str) (title : Option Str) :
    parseText text title = parseLines (splitOnChar (fun c => c == '\n') text) title := rfl

theorem parseLines_nil (title : Option Str) :
    parseLines [] title = some (initialResult title) := by
  simp [parseLines, parseLoop, saveSection, truthyStr]

theorem parseText_nil (title : Option Str) :
    parseText [] title = some (initialResult title) := by
  simp [parseText, splitOnChar, parseLoop, trim, trimEnd, saveSection, truthyStr]

theorem parseContent_str (s : Str) (title : Option Str) :
    parseContent (Content.str s) title = parseText s title := by
  cases s with
  | nil => rw [parseText_nil]; rfl
  | cons c u => rfl

/-- The parser on lines joined by newlines is the parser on the lines. -/
theorem parseContent_join (lines : List Str) (title : Option Str)
    (hno : ∀ l ∈ lines, ∀ c ∈ l, (c == '\n') = false) :
    parseContent (Content.str (join "\n".toList lines)) title = parseLines lines title := by
  rw [parseContent_str]
  cases lines with
  | nil => rw [parseLines_nil]; exact parseText_nil title
  | cons l ls => rw [parseText_eq, split_join (l :: ls) (by simp) hno]

theorem no_newline_of_all (lines : List Str)
    (h : (lines.all fun l => !l.contains '\n') = true) :
    ∀ l ∈ lines, ∀ c ∈ l, (c == '\n') = false := by
  intro l hl c hc
  have := List.all_eq_true.1 h l hl
  simp only [Bool.not_eq_true'] at this
  by_contra hcn
  simp only [Bool.not_eq_false, beq_iff_eq] at hcn
  subst hcn
  have h2 : l.contains '\n' = true := by simpa using hc
  rw [h2] at this
  exact absurd this (by decide)

theorem parseLines_prefix (pre : List Str) (m : Str) (tail : List Str) (title : Option Str)
    (hpre : ∀ l ∈ pre, test abstractPattern (trim l) = false)
    (hm : test referencesPattern (trim m) = true) :
    ∃ r r', parseLines (pre ++ m :: tail) title = some r ∧ parseLines pre title = some r' ∧
      SameButReferences r r' := by
  obtain ⟨s1, s2, h1, h2, h3⟩ := prefix_same m tail hm pre hpre
    { result := initialResult title, currentSection := none, currentContent := [] }
    (pre ++ m :: tail).length pre.length le_rfl le_rfl
  refine ⟨saveSection s1, saveSection s2, ?_, ?_, h3⟩
  · unfold parseLines; rw [h1]; rfl
  · unfold parseLines; rw [h2]; rfl

/-! ## Lemmas on the text of a tree -/

theorem join_append (sep : Str) (a b : List Str) (ha : a ≠ []) (hb : b ≠ []) :
    join sep (a ++ b) = join sep a ++ sep ++ join sep b := by
  induction a with
  | nil => exact absurd rfl ha
  | cons x t ih =>
    cases t with
    | nil =>
      cases b with
      | nil => exact absurd rfl hb
      | cons y ys => simp [join]
    | cons x' t' =>
      have := ih (by simp)
      show x ++ sep ++ join sep (x' :: t' ++ b) = x ++ sep ++ join sep (x' :: t') ++ sep ++ join sep b
      rw [this]; simp [List.append_assoc]

theorem extractText_text (text : Option Str) (content : Option (List Node))
    (ht : truthyStr text = true) :
    leafTexts (Node.node text content) ≠ [] ∧
      extractText (Node.node text content) =
        join "\n".toList (leafTexts (Node.node text content)) := by
  cases content <;> simp [leafTexts, extractText, ht, join]

theorem extractText_children (text : Option Str) (children : List Node)
    (h : fullNode (Node.node text (some children)) = true)
    (ih : fullNodes children = true → children ≠ [] →
      leafTextsAll children ≠ [] ∧
        join "\n".toList (extractChildren children) = join "\n".toList (leafTextsAll children)) :
    leafTexts (Node.node text (some children)) ≠ [] ∧
      extractText (Node.node text (some children)) =
        join "\n".toList (leafTexts (Node.node text (some children))) := by
  by_cases ht : truthyStr text = true
  · exact extractText_text text (some children) ht
  · simp only [fullNode, ht, Bool.false_or, Bool.and_eq_true, Bool.not_eq_true'] at h
    have hne : children ≠ [] := by
      intro e; rw [e] at h; simp at h
    have := ih h.2 hne
    simp only [leafTexts, extractText, ht, Bool.false_eq_true, if_false]
    exact this

theorem extractText_none (text : Option Str) (h : fullNode (Node.node text none) = true) :
    leafTexts (Node.node text none) ≠ [] ∧
      extractText (Node.node text none) = join "\n".toList (leafTexts (Node.node text none)) := by
  by_cases ht : truthyStr text = true
  · exact extractText_text text none ht
  · simp [fullNode, ht] at h

theorem extractChildren_cons (n : Node) (ns : List Node)
    (h1 : leafTexts n ≠ []) (h2 : extractText n = join "\n".toList (leafTexts n))
    (ih : ns ≠ [] → leafTextsAll ns ≠ [] ∧
      join "\n".toList (extractChildren ns) = join "\n".toList (leafTextsAll ns)) :
    leafTextsAll (n :: ns) ≠ [] ∧
      join "\n".toList (extractChildren (n :: ns)) =
        join "\n".toList (leafTextsAll (n :: ns)) := by
  cases ns with
  | nil =>
    simp only [leafTextsAll, extractChildren, List.append_nil, join]
    exact ⟨h1, h2⟩
  | cons m ms =>
    obtain ⟨h3, h4⟩ := ih (by simp)
    refine ⟨by simp [leafTextsAll, h1], ?_⟩
    show extractText n ++ "\n".toList ++ join "\n".toList (extractChildren (m :: ms)) = _
    have : leafTextsAll (n :: m :: ms) = leafTexts n ++ leafTextsAll (m :: ms) := by
      simp [leafTextsAll]
    rw [this, join_append _ _ _ h1 h3, h2, h4]

theorem fullNodes_cons (n : Node) (ns : List Node) (h : fullNodes (n :: ns) = true) :
    fullNode n = true ∧ fullNodes ns = true := by
  simpa [fullNodes] using h

theorem fullNode_absent (h : fullNode Node.absent = true) : False := by
  simp [fullNode] at h

mutual
theorem extractText_leaves : ∀ (n : Node), fullNode n = true →
    leafTexts n ≠ [] ∧ extractText n = join "\n".toList (leafTexts n)
  | Node.absent, h => (fullNode_absent h).elim
  | Node.node text none, h => extractText_none text h
  | Node.node text (some children), h =>
    extractText_children text children h (fun hf hne => extractChildren_leaves children hf hne)
theorem extractChildren_leaves : ∀ (ns : List Node), fullNodes ns = true → ns ≠ [] →
    leafTextsAll ns ≠ [] ∧
      join "\n".toList (extractChildren ns) = join "\n".toList (leafTextsAll ns)
  | [], _, hne => absurd rfl hne
  | n :: ns, h, _ =>
    extractChildren_cons n ns (extractText_leaves n (fullNodes_cons n ns h).1).1
      (extractText_leaves n (fullNodes_cons n ns h).1).2
      (fun hne => extractChildren_leaves ns (fullNodes_cons n ns h).2 hne)
end

/-! ## The parser: claims on the References block, the markers and the text of a tree -/

/-- C11: on a References marker line the loop is left with the open section saved and
with one reference entry more for each non-blank line after the marker, in order, blank
lines giving none; a line without numbering and without bullet is stored as it is,
trimmed; and every reference of every result of `parseText` was read that way, after a
References marker line. -/
theorem references_block_entries (fuel : Nat) (raw : Str) (rest : List Str) (st : LoopState)
    (hm : test referencesPattern (trim raw) = true) :
    parseLoop (fuel + 1) (raw :: rest) st = some (closeReferences st rest)
    ∧ (closeReferences st rest).result.references =
        st.result.references ++
          ((rest.map trim).filter fun l => !l.isEmpty).map refEntryOf
    ∧ (((rest.map trim).filter fun l => !l.isEmpty).map refEntryOf).length =
        (rest.filter fun l => !(trim l).isEmpty).length
    ∧ (∀ line, (test refNumberPattern line || test bulletPattern line) = false →
        refEntryOf line = line)
    ∧ (∀ text title r, parseText text title = some r →
        r.references = [] ∨
          ∃ pre m tail, splitOnChar (fun c => c == '\n') text = pre ++ m :: tail ∧
            test referencesPattern (trim m) = true ∧
            r.references = ((tail.map trim).filter fun l => !l.isEmpty).map refEntryOf) := by
  refine ⟨?_, closeReferences_references st rest, referenceEntries_length rest, ?_, ?_⟩
  · rw [parseLoop_cons, (markers_of_references _ hm).1, hm]; rfl
  · intro line h
    simp [refEntryOf, h]
  · intro text title r h
    unfold parseText at h
    simp only [Option.map_eq_some'] at h
    obtain ⟨st', hst', rfl⟩ := h
    rw [saveSection_references]
    exact references_origin _ _ _ st' (by simp [initialResult]) hst'

/-- Witness of C11: the marker line `References` followed by a numbered line, a blank
line and a plain line. -/
theorem references_block_entries_witness :
    test referencesPattern (trim "References".toList) = true ∧
    parseLoop 1 ["References".toList, "[1] A".toList, [], " plain ".toList] startState =
      some (closeReferences startState ["[1] A".toList, [], " plain ".toList]) ∧
    (closeReferences startState ["[1] A".toList, [], " plain ".toList]).result.references =
      ["A".toList, "plain".toList] :=
  ⟨by decide,
   (references_block_entries 0 "References".toList ["[1] A".toList, [], " plain ".toList]
      startState (by decide)).1,
   by decide⟩

/-- C12: for lines `pre` without an Abstract marker line, a References marker line `m`
and any lines `tail`, the result for `pre`, `m`, `tail` has the title, the abstract, the
keywords and the sections of the result for `pre` alone; after `## References` the line
`## Appendix` is a reference entry and opens no section. -/
theorem references_end_parsing (pre : List Str) (m : Str) (tail : List Str)
    (title : Option Str)
    (hpre : (pre.all fun l => !test abstractPattern (trim l)) = true)
    (hm : test referencesPattern (trim m) = true)
    (hnl : ((pre ++ m :: tail).all fun l => !l.contains '\n') = true) :
    (∃ r r', parseContent (Content.str (join "\n".toList (pre ++ m :: tail))) title = some r ∧
      parseContent (Content.str (join "\n".toList pre)) title = some r' ∧
      r.title = r'.title ∧ r.abstract = r'.abstract ∧ r.keywords = r'.keywords ∧
      r.sections = r'.sections)
    ∧ parseContent (Content.str appendixExample) none =
        some ⟨"Untitled Paper".toList, [], [], [], ["## Appendix".toList]⟩ := by
  refine ⟨?_, by decide⟩
  have hno := no_newline_of_all _ hnl
  have hpre' : ∀ l ∈ pre, test abstractPattern (trim l) = false := by
    intro l hl
    simpa using List.all_eq_true.1 hpre l hl
  obtain ⟨r, r', h1, h2, h3⟩ := parseLines_prefix pre m tail title hpre' hm
  refine ⟨r, r', ?_, ?_, h3⟩
  · rw [parseContent_join _ _ hno]; exact h1
  · rw [parseContent_join _ _ (fun l hl => hno l (by simp [hl]))]; exact h2

/-- Witness of C12: a section, then `## References`, then `## Appendix`. -/
theorem references_end_parsing_witness :
    ∃ r r', parseContent (Content.str (join "\n".toList
        (["## Intro".toList, "text".toList] ++ "## References".toList ::
          ["## Appendix".toList]))) none = some r ∧
      parseContent (Content.str (join "\n".toList ["## Intro".toList, "text".toList])) none =
        some r' ∧
      r.title = r'.title ∧ r.abstract = r'.abstract ∧ r.keywords = r'.keywords ∧
      r.sections = r'.sections :=
  (references_end_parsing ["## Intro".toList, "text".toList] "## References".toList
    ["## Appendix".toList] none (by decide) (by decide) (by decide)).1

/-- C13 (counterexample): for `Abstract— first`, `## Intro`, `Abstract— second` the
abstract is `second`, not `first`, and the section `Intro` has an empty content; for two
Keywords lines the keywords are those of the second one. -/
theorem later_marker_not_body_text :
    parseContent (Content.str twoAbstractsExample) none =
      some ⟨"Untitled Paper".toList, "second".toList, [], [⟨"Intro".toList, []⟩], []⟩
    ∧ parseContent (Content.str twoKeywordsExample) none =
      some ⟨"Untitled Paper".toList, [], ["b".toList], [⟨"Intro".toList, []⟩], []⟩
    ∧ "second".toList ≠ "first".toList := by
  decide

/-- C13 (amended): every Abstract marker line and every Keywords marker line that the
loop reaches is handled by its marker rule, whatever `abstract` and `keywords` hold
already: it replaces `abstract` (respectively `keywords`) and leaves the title, the
sections, the references, the open section and its content as they are. -/
theorem later_marker_replaces (fuel : Nat) (a k : Str) (rest : List Str) (st : LoopState)
    (ha : test abstractPattern (trim a) = true) (hk : test keywordsPattern (trim k) = true) :
    parseLoop (fuel + 1) (a :: rest) st =
      parseLoop fuel (rest.dropWhile continuesAbstract)
        (setAbstract st (specAbstract (remove abstractPattern (trim a)) rest))
    ∧ parseLoop (fuel + 1) (k :: rest) st =
      parseLoop fuel rest (setKeywords st (keywordsOf (trim k)))
    ∧ (∀ x, (setAbstract st x).currentContent = st.currentContent ∧
        (setAbstract st x).currentSection = st.currentSection ∧
        (setAbstract st x).result.abstract = x ∧
        (setAbstract st x).result.keywords = st.result.keywords ∧
        (setAbstract st x).result.sections = st.result.sections ∧
        (setAbstract st x).result.title = st.result.title ∧
        (setAbstract st x).result.references = st.result.references)
    ∧ (∀ ks, (setKeywords st ks).currentContent = st.currentContent ∧
        (setKeywords st ks).currentSection = st.currentSection ∧
        (setKeywords st ks).result.keywords = ks ∧
        (setKeywords st ks).result.abstract = st.result.abstract ∧
        (setKeywords st ks).result.sections = st.result.sections ∧
        (setKeywords st ks).result.title = st.result.title ∧
        (setKeywords st ks).result.references = st.result.references) :=
  ⟨abstract_step fuel a rest st ha, keywords_step fuel k rest st hk,
    fun _ => ⟨rfl, rfl, rfl, rfl, rfl, rfl, rfl⟩, fun _ => ⟨rfl, rfl, rfl, rfl, rfl, rfl, rfl⟩⟩

/-- Witness of C13: a second Abstract line and a second Keywords line met in the open
section `Intro`, with `abstract` and `keywords` already set. -/
theorem later_marker_replaces_witness :
    parseLoop 1 ["Abstract— second".toList]
        (setKeywords (setAbstract (openSection startState "Intro".toList) "first".toList)
          ["a".toList]) =
      some (setKeywords (setAbstract (openSection startState "Intro".toList) "second".toList)
          ["a".toList])
    ∧ parseLoop 1 ["Keywords— b".toList]
        (setKeywords (setAbstract (openSection startState "Intro".toList) "first".toList)
          ["a".toList]) =
      some (setKeywords (setAbstract (openSection startState "Intro".toList) "first".toList)
          ["b".toList]) :=
  ⟨(later_marker_replaces 0 "Abstract— second".toList "Keywords— b".toList []
      (setKeywords (setAbstract (openSection startState "Intro".toList) "first".toList)
        ["a".toList]) (by decide) (by decide)).1.trans (by decide),
   (later_marker_replaces 0 "Abstract— second".toList "Keywords— b".toList []
      (setKeywords (setAbstract (openSection startState "Intro".toList) "first".toList)
        ["a".toList]) (by decide) (by decide)).2.1.trans (by decide)⟩

theorem extractChildren_map (ns : List Node) : extractChildren ns = ns.map extractText := by
  induction ns with
  | nil => rfl
  | cons n ns ih => simp [extractChildren, ih]

theorem suffix_collectAbstract (rest acc : List Str) : (collectAbstract rest acc).2 <:+ rest := by
  rw [collectAbstract_eq]
  exact List.dropWhile_suffix _

theorem abstract_free_doc (bs : List Block) (hok : ∀ b ∈ bs, blockOk b = true) :
    ∀ l ∈ docLines bs, test abstractPattern (trim l) = false := by
  intro l hl
  simp only [docLines, List.mem_flatMap, blockLines, List.mem_cons] at hl
  obtain ⟨b, hb, hl⟩ := hl
  obtain ⟨hform, htitle, hbody⟩ := blockOk_unpack b (hok b hb)
  rcases hl with hl | hl
  · obtain ⟨h1, _, h3, _⟩ := header_facts b.form b.title hform htitle
    rw [hl, h1]; simp [test, h3]
  · have := hbody l hl
    unfold bodyLineOk at this
    simp only [Bool.and_eq_true, Bool.or_eq_true, Bool.not_eq_true'] at this
    rcases this.2 with h | h
    · have e : trim l = [] := by simpa using h
      rw [e]; decide
    · exact h.1.1.1

/-- The loop on a document made of well-formed blocks: it is left with one more section
per block, holding the title of the header and the body lines of the block. -/
theorem blocks_sections (bs : List Block) (hok : ∀ b ∈ bs, blockOk b = true) :
    ∀ (st : LoopState) (fuel : Nat), (docLines bs).length ≤ fuel →
      ∃ st', parseLoop fuel (docLines bs) st = some st' ∧
        (saveSection st').sections = (saveSection st).sections ++ bs.map sectionOfBlock := by
  induction bs with
  | nil =>
    intro st fuel _
    refine ⟨st, ?_, by simp⟩
    cases fuel <;> simp [docLines, parseLoop]
  | cons b bs ih =>
    intro st fuel hf
    obtain ⟨hform, htitle, hbody⟩ := blockOk_unpack b (hok b (by simp))
    have hne : b.title ≠ [] := by
      obtain ⟨c0, t', e, _⟩ := titleOk_unpack b.title htitle
      rw [e]; simp
    have hlines : docLines (b :: bs) = headerLine b.form b.title :: (b.body ++ docLines bs) := by
      simp [docLines, blockLines]
    rw [hlines] at hf ⊢
    obtain ⟨f, rfl⟩ : ∃ f, fuel = f + 1 := ⟨fuel - 1, by simp at hf; omega⟩
    rw [header_step _ _ (header_facts b.form b.title hform htitle) f _ st]
    obtain ⟨fuel', hf', h2⟩ := body_steps b.body b.title hne hbody (docLines bs)
      (openSection st b.title) f rfl (by simp at hf; omega)
    rw [h2]
    obtain ⟨st', h3, h4⟩ := ih (fun c hc => hok c (by simp [hc]))
      (pushContent (openSection st b.title) (b.body.map trim)) fuel' hf'
    refine ⟨st', h3, ?_⟩
    rw [h4, saveSection_open st b.title _ hne]
    simp [sectionOfBlock]

theorem parseLines_blocks (bs : List Block) (title : Option Str)
    (hok : ∀ b ∈ bs, blockOk b = true) :
    ∃ r, parseLines (docLines bs) title = some r ∧ r.sections = bs.map sectionOfBlock := by
  obtain ⟨st', h1, h2⟩ := blocks_sections bs hok
    { result := initialResult title, currentSection := none, currentContent := [] }
    (docLines bs).length le_rfl
  refine ⟨saveSection st', ?_, ?_⟩
  · unfold parseLines; rw [h1]; rfl
  · rw [h2]; simp [saveSection, truthyStr, initialResult]

theorem blank_step (fuel : Nat) (raw : Str) (rest : List Str) (st : LoopState)
    (hblank : (trim raw).isEmpty = true) (hclosed : truthyStr st.currentSection = false) :
    parseLoop (fuel + 1) (raw :: rest) st = parseLoop fuel rest st := by
  rw [parseLoop]
  simp only [hblank, hclosed, if_true, Bool.false_eq_true, if_false]

/-! ## The parser: claims on the text of a tree, on empty content and on termination -/

/-- C17: `extractText` gives the empty string for an absent node, the text of a node
with a non-empty text, and otherwise the extractions of the children joined by newlines
(the empty string without children); so for a tree whose every node has a non-empty
text or a non-empty list of children it gives the leaf texts, in depth-first document
order, joined by newlines; the tree of the specification gives `A`, newline, `B`. -/
theorem extractText_leaf_texts (n : Node) (c : Char) (s : Str)
    (content : Option (List Node)) (children : List Node) (h : fullNode n = true) :
    extractText Node.absent = []
    ∧ extractText (Node.node (some (c :: s)) content) = c :: s
    ∧ extractText (Node.node none (some children)) =
        join "\n".toList (children.map extractText)
    ∧ extractText (Node.node (some []) (some children)) =
        join "\n".toList (children.map extractText)
    ∧ extractText (Node.node none none) = []
    ∧ extractText (Node.node (some []) none) = []
    ∧ extractText n = join "\n".toList (leafTexts n)
    ∧ leafTexts exampleTree = ["A".toList, "B".toList]
    ∧ extractText exampleTree = "A\nB".toList := by
  refine ⟨by simp [extractText], ?_, ?_, ?_, by simp [extractText, truthyStr],
    by simp [extractText, truthyStr], (extractText_leaves n h).2, by decide, by decide⟩
  · cases content <;> simp [extractText, truthyStr, strVal]
  · simp [extractText, truthyStr, extractChildren_map]
  · simp [extractText, truthyStr, extractChildren_map]

/-- Witness of C17: the tree of the specification. -/
theorem extractText_leaf_texts_witness :
    fullNode exampleTree = true ∧
    extractText exampleTree = join "\n".toList (leafTexts exampleTree) :=
  ⟨by decide, (extractText_leaf_texts exampleTree 'x' [] none [] (by decide)).2.2.2.2.2.2.1⟩

/-- C18: for a missing content, the empty string, or a tree node without text and
without children, `parseContent` returns the initial result: the title argument (or
`Untitled Paper` when it is missing or empty), an empty abstract and no keywords,
sections and references; for the empty string and the title `Untitled Research Paper`
the title of the result is `Untitled Research Paper`. -/
theorem empty_content_result (title : Option Str) (c : Char) (t : Str) :
    parseContent Content.absent title = some (initialResult title)
    ∧ parseContent (Content.str []) title = some (initialResult title)
    ∧ parseContent (Content.tree (Node.node none none)) title = some (initialResult title)
    ∧ parseContent (Content.tree (Node.node (some []) none)) title = some (initialResult title)
    ∧ parseContent (Content.tree (Node.node none (some []))) title = some (initialResult title)
    ∧ initialResult title =
        ⟨if truthyStr title then strVal title else "Untitled Paper".toList, [], [], [], []⟩
    ∧ (initialResult (some (c :: t))).title = c :: t
    ∧ (initialResult (some [])).title = "Untitled Paper".toList
    ∧ (initialResult none).title = "Untitled Paper".toList
    ∧ (parseContent (Content.str []) (some "Untitled Research Paper".toList)).map
        ParsedPaper.title = some "Untitled Research Paper".toList := by
  have e1 : extractText (Node.node none none) = [] := by simp [extractText, truthyStr]
  have e2 : extractText (Node.node (some []) none) = [] := by simp [extractText, truthyStr]
  have e3 : extractText (Node.node none (some [])) = [] := by
    simp [extractText, truthyStr, extractChildren, join]
  refine ⟨rfl, rfl, ?_, ?_, ?_, rfl, rfl, rfl, rfl, by decide⟩
  · show parseText (extractText (Node.node none none)) title = _
    rw [e1, parseText_nil]
  · show parseText (extractText (Node.node (some []) none)) title = _
    rw [e2, parseText_nil]
  · show parseText (extractText (Node.node none (some []))) title = _
    rw [e3, parseText_nil]

/-- C19: `parseContent` returns a result for every content and every title; from any
state the loop is left with one unit of fuel per line, each iteration going on with the
lines after the current one: with all of them, or after an Abstract marker with the
lines from the first stop line on (a suffix of the lines after the marker), while a
References marker leaves the loop at once. -/
theorem parseContent_terminates (content : Content) (title : Option Str) (lines : List Str)
    (extra fuel : Nat) (raw : Str) (rest acc : List Str) (st : LoopState) :
    (∃ r, parseContent content title = some r)
    ∧ (∃ st', parseLoop (lines.length + extra) lines st = some st')
    ∧ (collectAbstract rest acc).2 <:+ rest
    ∧ (collectAbstract rest acc).2.length ≤ rest.length
    ∧ parseLoop (fuel + 1) (raw :: rest) st =
        (if test abstractPattern (trim raw) then
          parseLoop fuel (rest.dropWhile continuesAbstract)
            (setAbstract st (specAbstract (remove abstractPattern (trim raw)) rest))
        else if test referencesPattern (trim raw) then some (closeReferences st rest)
        else parseLoop fuel rest (stepLine raw st))
    ∧ rest.dropWhile continuesAbstract = (collectAbstract rest acc).2 := by
  refine ⟨parseContent_total content title, parseLoop_total _ lines st (by omega),
    suffix_collectAbstract rest acc, collectAbstract_length rest acc,
    parseLoop_cons fuel raw rest st, ?_⟩
  rw [collectAbstract_eq]

/-! ## The parser: claims on the content of a section -/

/-- C20 (counterexample): in `## S`, `Keywords— x`, `a` the Keywords line lies between
the header and the end of the input but is no part of the content of the section `S`,
which is `a`. -/
theorem marker_line_not_in_content :
    parseContent (Content.str keywordsInSectionExample) none =
      some ⟨"Untitled Paper".toList, [], ["x".toList], [⟨"S".toList, "a".toList⟩], []⟩
    ∧ trim (join "\n".toList ["Keywords— x".toList, "a".toList]) ≠ "a".toList := by
  decide

/-- C20 (amended): the content of a section is the sequence of the trimmed lines between
its header and the next header, References marker or end of input, when these lines are
blank or plain body lines (an Abstract or Keywords marker line is handled by its own
rule and is no part of the content), every blank line kept as an empty line, joined by
newlines and trimmed as a whole; a blank line met while no section is open changes
nothing; `## S`, blank, `a`, blank, `b`, blank gives the section `S` with the content
`a`, two newlines, `b`. -/
theorem section_content_of_body (bs : List Block) (m : Str) (tail : List Str)
    (title : Option Str) (fuel : Nat) (raw : Str) (rest : List Str) (st : LoopState)
    (hok : bs.all blockOk = true) (hm : test referencesPattern (trim m) = true)
    (hnl : ((m :: tail).all fun l => !l.contains '\n') = true)
    (hblank : (trim raw).isEmpty = true) (hclosed : truthyStr st.currentSection = false) :
    (∃ r, parseContent (Content.str (join "\n".toList (docLines bs))) title = some r ∧
      r.sections = bs.map fun b => ⟨b.title, trim (join "\n".toList (b.body.map trim))⟩)
    ∧ (∃ r, parseContent (Content.str (join "\n".toList (docLines bs ++ m :: tail))) title =
        some r ∧
      r.sections = bs.map fun b => ⟨b.title, trim (join "\n".toList (b.body.map trim))⟩)
    ∧ parseLoop (fuel + 1) (raw :: rest) st = parseLoop fuel rest st
    ∧ parseContent (Content.str paragraphsExample) none =
        some ⟨"Untitled Paper".toList, [], [], [⟨"S".toList, "a\n\nb".toList⟩], []⟩ := by
  have hok' : ∀ b ∈ bs, blockOk b = true := fun b hb => List.all_eq_true.1 hok b hb
  have hdoc := docLines_no_newline bs hok'
  have htail := no_newline_of_all _ hnl
  obtain ⟨r0, h0, hs0⟩ := parseLines_blocks bs title hok'
  refine ⟨⟨r0, ?_, hs0⟩, ?_, blank_step fuel raw rest st hblank hclosed, by decide⟩
  · rw [parseContent_join _ _ hdoc]; exact h0
  · obtain ⟨r, r', h1, h2, h3⟩ := parseLines_prefix (docLines bs) m tail title
      (abstract_free_doc bs hok') hm
    refine ⟨r, ?_, ?_⟩
    · rw [parseContent_join _ _ ?_]
      · exact h1
      · intro l hl
        rcases List.mem_append.1 hl with hl | hl
        · exact hdoc l hl
        · exact htail l hl
    · rw [h0] at h2
      have : r0 = r' := Option.some.inj h2
      rw [h3.2.2.2, ← this]; exact hs0

/-- Witness of C20: the document of three blocks, then `References` and one reference,
and a blank line met before any section. -/
theorem section_content_of_body_witness :
    (∃ r, parseContent (Content.str (join "\n".toList (docLines exampleBlocks))) none = some r ∧
      r.sections = [⟨"INTRODUCTION".toList, "Some text.".toList⟩,
        ⟨"METHODS".toList, "More text.".toList⟩, ⟨"RESULTS".toList, []⟩])
    ∧ parseLoop 1 ["  ".toList] startState = parseLoop 0 [] startState :=
  ⟨(section_content_of_body exampleBlocks "References".toList ["[1] A".toList] none 0
      "  ".toList [] startState (by decide) (by decide) (by decide) (by decide)
      (by decide)).1,
   (section_content_of_body exampleBlocks "References".toList ["[1] A".toList] none 0
      "  ".toList [] startState (by decide) (by decide) (by decide) (by decide)
      (by decide)).2.2.1⟩

/-! ## Lemmas on the reference controller -/

theorem renumber_id (d k : Nat) (r : StoredReference) : (renumber d k r).id = r.id := by
  unfold renumber; split <;> rfl

theorem renumber_document (d k : Nat) (r : StoredReference) :
    (renumber d k r).document = r.document := by
  unfold renumber; split <;> rfl

theorem renumber_number (d k : Nat) (r : StoredReference) (h : r.document = d) :
    (renumber d k r).fields.citationNumber = shiftNumber k r.fields.citationNumber := by
  unfold renumber shiftNumber
  by_cases hk : r.fields.citationNumber > k
  · simp [h, hk]
  · simp [h, hk]

theorem renumber_target (r : StoredReference) :
    renumber r.document r.fields.citationNumber r = r := by
  simp [renumber]

theorem find_split (l : List StoredReference) (id : Nat) (a : StoredReference)
    (h : l.find? (fun r => r.id == id) = some a) :
    a.id = id ∧ ∃ l1 l2, l = l1 ++ a :: l2 ∧ ∀ x ∈ l1, (x.id == id) = false := by
  rw [List.find?_eq_some] at h
  obtain ⟨h1, l1, l2, e, h2⟩ := h
  refine ⟨by simpa using h1, l1, l2, e, ?_⟩
  intro x hx
  simpa using h2 x hx

/-- The references that `deleteReference` leaves: the found one is taken out and the
others are renumbered. -/
theorem deleteReference_references (db : Store) (id : Nat) (target : StoredReference)
    (h : db.references.find? (fun r => r.id == id) = some target) :
    (deleteReference db id).1 = 200 ∧
    (deleteReference db id).2.references =
      (db.references.eraseP fun r => r.id == id).map
        (renumber target.document target.fields.citationNumber) := by
  obtain ⟨hid, l1, l2, e, hl1⟩ := find_split _ id target h
  unfold deleteReference
  rw [h]
  refine ⟨rfl, ?_⟩
  simp only [hid]
  rw [List.eraseP_map]
  have hp : ((fun r : StoredReference => r.id == id) ∘
      renumber target.document target.fields.citationNumber) = fun r => r.id == id := by
    funext r
    simp [renumber_id]
  rw [hp]

theorem numbers_renumber (d k : Nat) (l : List StoredReference) :
    ((l.map (renumber d k)).filter fun r => r.document == d).map
        (fun r => r.fields.citationNumber) =
      ((l.filter fun r => r.document == d).map fun r => r.fields.citationNumber).map
        (shiftNumber k) := by
  induction l with
  | nil => rfl
  | cons x xs ih =>
    by_cases hx : x.document = d
    · simp only [List.map_cons, List.filter_cons, renumber_document, hx, beq_self_eq_true,
        if_true, renumber_number d k x hx]
      rw [ih]
    · have : (x.document == d) = false := by simpa using hx
      simp only [List.map_cons, List.filter_cons, renumber_document, this, Bool.false_eq_true,
        if_false]
      exact ih

/-- Taking the number `k` out of the numbers 1..N and shifting the greater ones down by
one gives the numbers 1..N-1. -/
theorem shift_perm (k N : Nat) (s : List Nat) (h : (k :: s).Perm (List.range' 1 N)) :
    (s.map (shiftNumber k)).Perm (List.range' 1 (N - 1)) := by
  have hnd : (k :: s).Nodup := (h.nodup_iff).2 (List.nodup_range' 1 N)
  have hmem : ∀ m, m ∈ k :: s ↔ 1 ≤ m ∧ m < 1 + N := fun m => by
    rw [h.mem_iff, List.mem_range'_1]
  have hk := (hmem k).1 (by simp)
  have hks : k ∉ s := (List.nodup_cons.1 hnd).1
  have hs : s.Nodup := (List.nodup_cons.1 hnd).2
  have hsm : ∀ m, m ∈ s ↔ (1 ≤ m ∧ m < 1 + N ∧ m ≠ k) := by
    intro m
    constructor
    · intro hm
      have := (hmem m).1 (by simp [hm])
      exact ⟨this.1, this.2, fun e => hks (e ▸ hm)⟩
    · intro ⟨h1, h2, h3⟩
      have := (hmem m).2 ⟨h1, h2⟩
      simp only [List.mem_cons] at this
      rcases this with e | e
      · exact absurd e h3
      · exact e
  rw [List.perm_ext_iff_of_nodup _ (List.nodup_range' 1 (N - 1))]
  · intro m
    rw [List.mem_range'_1, List.mem_map]
    constructor
    · rintro ⟨x, hx, rfl⟩
      have := (hsm x).1 hx
      unfold shiftNumber
      split <;> omega
    · intro hm
      by_cases hmk : m < k
      · exact ⟨m, (hsm m).2 ⟨by omega, by omega, by omega⟩, by unfold shiftNumber; split <;> omega⟩
      · exact ⟨m + 1, (hsm (m + 1)).2 ⟨by omega, by omega, by omega⟩,
          by unfold shiftNumber; split <;> omega⟩
  · apply List.Nodup.map_on _ hs
    intro x hx y hy hxy
    have := (hsm x).1 hx
    have := (hsm y).1 hy
    unfold shiftNumber at hxy
    split at hxy <;> split at hxy <;> omega

theorem numbersOf_delete (db : Store) (id : Nat) (target : StoredReference) (n : Nat)
    (h : db.references.find? (fun r => r.id == id) = some target)
    (hcont : (numbersOf db target.document).Perm (List.range' 1 n)) :
    (numbersOf (deleteReference db id).2 target.document).Perm (List.range' 1 (n - 1)) := by
  obtain ⟨hid, l1, l2, e, hl1⟩ := find_split _ id target h
  have herase : (db.references.eraseP fun r => r.id == id) = l1 ++ l2 := by
    rw [e, List.eraseP_append_right _ (by intro b hb; simp [hl1 b hb])]
    simp [List.eraseP, hid]
  unfold numbersOf at hcont ⊢
  rw [(deleteReference_references db id target h).2, numbers_renumber, herase]
  apply shift_perm target.fields.citationNumber n
  rw [e] at hcont
  simp only [List.filter_append, List.filter_cons, beq_self_eq_true, if_true, List.map_append,
    List.map_cons] at hcont ⊢
  exact (List.perm_middle.symm.trans hcont)

theorem addReference_ok (db : Store) (newId : Nat) (body : AddBody)
    (hdoc : (db.documents.find? fun d => d.id == body.documentId).isSome = true)
    (htitle : truthyStr body.title = true) :
    addReference db newId body =
      (201, ⟨db.documents.map (pushReferenceId body.documentId newId),
        db.references ++
          [⟨newId, body.documentId, newReference (countReferences db body.documentId + 1) body⟩]⟩) := by
  unfold addReference
  cases hf : db.documents.find? fun d => d.id == body.documentId with
  | none => rw [hf] at hdoc; simp at hdoc
  | some _ => simp [htitle]

theorem numbersOf_length (db : Store) (d : Nat) :
    (numbersOf db d).length = countReferences db d := by
  simp [numbersOf, countReferences]

theorem newReference_number (n : Nat) (body : AddBody) :
    (newReference n body).citationNumber = n := rfl

theorem numbersOf_add (db : Store) (newId : Nat) (body : AddBody) (n : Nat)
    (hdoc : (db.documents.find? fun d => d.id == body.documentId).isSome = true)
    (htitle : truthyStr body.title = true)
    (hcont : (numbersOf db body.documentId).Perm (List.range' 1 n)) :
    countReferences db body.documentId = n ∧
    (numbersOf (addReference db newId body).2 body.documentId).Perm (List.range' 1 (n + 1)) := by
  have hlen : countReferences db body.documentId = n := by
    rw [← numbersOf_length, hcont.length_eq]; simp
  refine ⟨hlen, ?_⟩
  rw [addReference_ok db newId body hdoc htitle, hlen]
  have : numbersOf ⟨db.documents.map (pushReferenceId body.documentId newId),
      db.references ++ [⟨newId, body.documentId, newReference (n + 1) body⟩]⟩
      body.documentId = numbersOf db body.documentId ++ [n + 1] := by
    simp [numbersOf, List.filter_append, newReference_number]
  rw [this, List.range'_concat]
  simpa [Nat.add_comm] using hcont.append_right [n + 1]

theorem assignField_number {α : Type} (given : Option α) (set : Reference → α → Reference)
    (r : Reference) (h : ∀ r v, (set r v).citationNumber = r.citationNumber) :
    (assignField given set r).citationNumber = r.citationNumber := by
  cases given with
  | none => rfl
  | some v => exact h r v

theorem applyUpdates_number (r : Reference) (body : UpdateBody) :
    (applyUpdates r body).citationNumber = r.citationNumber := by
  unfold applyUpdates
  dsimp only
  iterate 9 (rw [assignField_number] <;> try (intro _ _; rfl))

theorem regenerate_sync (r : Reference) :
    (regenerate r).formattedIEEE = some (toIEEEFormat (regenerate r)) := rfl

theorem saveReference_find (r : StoredReference) (l : List StoredReference)
    (found : StoredReference) (h : l.find? (fun x => x.id == r.id) = some found) :
    (saveReference r l).find? (fun x => x.id == r.id) = some r := by
  induction l with
  | nil => simp at h
  | cons x xs ih =>
    by_cases hx : (x.id == r.id) = true
    · simp [saveReference, hx, List.find?]
    · simp only [Bool.not_eq_true] at hx
      simp only [List.find?, hx] at h
      simp [saveReference, hx, List.find?, ih h]

theorem saveReference_numbers (r : StoredReference) (l : List StoredReference)
    (found : StoredReference) (h : l.find? (fun x => x.id == r.id) = some found)
    (hn : r.fields.citationNumber = found.fields.citationNumber)
    (hd : r.document = found.document) :
    (saveReference r l).map (fun x => (x.id, x.document, x.fields.citationNumber)) =
      l.map fun x => (x.id, x.document, x.fields.citationNumber) := by
  induction l with
  | nil => rfl
  | cons x xs ih =>
    by_cases hx : (x.id == r.id) = true
    · have e : x = found := by simpa [List.find?, hx] using h
      have hid : x.id = r.id := by simpa using hx
      simp [saveReference, hx, hn, hd, e, ← hid]
    · simp only [Bool.not_eq_true] at hx
      simp only [List.find?, hx] at h
      simp [saveReference, hx, ih h]

theorem updateReference_ok (db : Store) (id : Nat) (body : UpdateBody)
    (found : StoredReference)
    (h : db.references.find? (fun r => r.id == id) = some found)
    (hok : (updateReference db id body).1 = 200) :
    (updateReference db id body).2.references =
      saveReference { found with fields := regenerate (applyUpdates found.fields body) }
        db.references := by
  unfold updateReference at hok ⊢
  rw [h] at hok ⊢
  by_cases hr : titleRejected body = true
  · simp [hr] at hok
  · simp [hr]

theorem addReference_created (db : Store) (newId : Nat) (body : AddBody)
    (h : (addReference db newId body).1 = 201) :
    (db.documents.find? fun d => d.id == body.documentId).isSome = true ∧
      truthyStr body.title = true := by
  unfold addReference at h
  cases hf : db.documents.find? fun d => d.id == body.documentId with
  | none => rw [hf] at h; simp at h
  | some _ =>
    rw [hf] at h
    by_cases ht : truthyStr body.title = true
    · exact ⟨rfl, ht⟩
    · simp [ht] at h

/-! ## The reference controller: claims -/

/-- C14: when the citation numbers of the references of a document are exactly 1..n,
each once, `addReference` gives the new reference the number n+1 and the numbers are
exactly 1..n+1; `deleteReference` of a reference of the document, numbered k, takes it
out, leaves every other reference of the document with its number when it is below k
and with one less when it is above k, and the numbers are exactly 1..n-1; deleting
number 2 from `[1] A`, `[2] B`, `[3] C` leaves `[1] A`, `[2] C`. -/
theorem citation_numbers_contiguous (db : Store) (n newId id : Nat) (body : AddBody)
    (target : StoredReference)
    (hcont : (numbersOf db body.documentId).Perm (List.range' 1 n))
    (hdoc : (db.documents.find? fun d => d.id == body.documentId).isSome = true)
    (htitle : truthyStr body.title = true)
    (hfind : db.references.find? (fun r => r.id == id) = some target)
    (htarget : target.document = body.documentId) :
    (addReference db newId body).1 = 201
    ∧ (addReference db newId body).2.references =
        db.references ++ [⟨newId, body.documentId, newReference (n + 1) body⟩]
    ∧ (newReference (n + 1) body).citationNumber = n + 1
    ∧ (numbersOf (addReference db newId body).2 body.documentId).Perm (List.range' 1 (n + 1))
    ∧ (deleteReference db id).1 = 200
    ∧ (deleteReference db id).2.references =
        (db.references.eraseP fun r => r.id == id).map
          (renumber target.document target.fields.citationNumber)
    ∧ (∀ r, r.document = target.document →
        (renumber target.document target.fields.citationNumber r).fields.citationNumber =
          if r.fields.citationNumber > target.fields.citationNumber
          then r.fields.citationNumber - 1 else r.fields.citationNumber)
    ∧ (numbersOf (deleteReference db id).2 body.documentId).Perm (List.range' 1 (n - 1))
    ∧ ((deleteReference exampleStore 11).2.references.map fun r =>
        (r.fields.citationNumber, r.fields.title)) = [(1, "A".toList), (2, "C".toList)] := by
  obtain ⟨hcount, hadd⟩ := numbersOf_add db newId body n hdoc htitle hcont
  have hok := addReference_ok db newId body hdoc htitle
  obtain ⟨hstatus, hrefs⟩ := deleteReference_references db id target hfind
  refine ⟨by rw [hok], by rw [hok, hcount], rfl, hadd, hstatus, hrefs, ?_, ?_, by decide⟩
  · intro r hr
    exact renumber_number _ _ r hr
  · rw [← htarget]
    exact numbersOf_delete db id target n hfind (by rw [htarget]; exact hcont)

/-- Witness of C14: the store with `[1] A`, `[2] B`, `[3] C`; a fourth reference is
added; the reference numbered 2 is deleted. -/
theorem citation_numbers_contiguous_witness :
    (numbersOf exampleStore 1).Perm (List.range' 1 3)
    ∧ (numbersOf (addReference exampleStore 13 exampleBody).2 1).Perm (List.range' 1 4)
    ∧ (numbersOf (deleteReference exampleStore 11).2 1).Perm (List.range' 1 2) :=
  ⟨List.Perm.refl _,
   (citation_numbers_contiguous exampleStore 3 13 11 exampleBody
      (storedExample 11 2 "B".toList) (List.Perm.refl _) (by decide) (by decide) (by decide)
      (by decide)).2.2.2.1,
   (citation_numbers_contiguous exampleStore 3 13 11 exampleBody
      (storedExample 11 2 "B".toList) (List.Perm.refl _) (by decide) (by decide) (by decide)
      (by decide)).2.2.2.2.2.2.2.1⟩

/-- C15: `deleteReference` takes the found reference out and changes nothing of the
other references but the citation number of those it renumbers: the `_id`, the document,
the stored formatted string and every other field stay; so a reference renumbered from
m to m-1 whose formatted string was that of its fields still has a formatted string
that begins with `[m]`. -/
theorem delete_keeps_formatted_string (db : Store) (id : Nat) (target r : StoredReference)
    (hfind : db.references.find? (fun x => x.id == id) = some target)
    (hdoc : r.document = target.document)
    (hgt : target.fields.citationNumber < r.fields.citationNumber)
    (hsync : r.fields.formattedIEEE = some (toIEEEFormat r.fields)) :
    (deleteReference db id).2.references =
        (db.references.eraseP fun x => x.id == id).map
          (renumber target.document target.fields.citationNumber)
    ∧ (∀ x d k, (renumber d k x).id = x.id ∧ (renumber d k x).document = x.document ∧
        (renumber d k x).fields.formattedIEEE = x.fields.formattedIEEE ∧
        setNumber (renumber d k x).fields x.fields.citationNumber = x.fields)
    ∧ (renumber target.document target.fields.citationNumber r).fields.citationNumber =
        r.fields.citationNumber - 1
    ∧ (∃ s, (renumber target.document target.fields.citationNumber r).fields.formattedIEEE =
          some s ∧
        ("[".toList ++ natToString r.fields.citationNumber ++ "]".toList) <+: s)
    ∧ ((deleteReference exampleStore 11).2.references.map fun x =>
        (x.id, x.fields.citationNumber, x.fields.formattedIEEE)) =
        [(10, 1, some ("[1] Unknown Author, ".toList ++ [dquote, 'A', dquote, '.'])),
         (12, 2, some ("[3] Unknown Author, ".toList ++ [dquote, 'C', dquote, '.']))] := by
  have hframe : ∀ x d k, (renumber d k x).id = x.id ∧ (renumber d k x).document = x.document ∧
      (renumber d k x).fields.formattedIEEE = x.fields.formattedIEEE ∧
      setNumber (renumber d k x).fields x.fields.citationNumber = x.fields := by
    intro x d k
    unfold renumber
    split <;> exact ⟨rfl, rfl, rfl, rfl⟩
  refine ⟨(deleteReference_references db id target hfind).2, hframe, ?_, ?_, by decide⟩
  · rw [renumber_number _ _ r hdoc]
    simp [shiftNumber, hgt]
  · refine ⟨toIEEEFormat r.fields, ?_, ?_⟩
    · rw [(hframe r _ _).2.2.1, hsync]
    · rw [toIEEEFormat_spec]
      simp [List.append_assoc]

/-- Witness of C15: in the store with `[1] A`, `[2] B`, `[3] C`, the reference `C` when
the reference numbered 2 is deleted. -/
theorem delete_keeps_formatted_string_witness :
    (renumber 1 2 (storedExample 12 3 "C".toList)).fields.citationNumber = 2
    ∧ ∃ s, (renumber 1 2 (storedExample 12 3 "C".toList)).fields.formattedIEEE = some s ∧
        "[3]".toList <+: s :=
  ⟨(delete_keeps_formatted_string exampleStore 11 (storedExample 11 2 "B".toList)
      (storedExample 12 3 "C".toList) (by decide) (by decide) (by decide) (by decide)).2.2.1,
   (delete_keeps_formatted_string exampleStore 11 (storedExample 11 2 "B".toList)
      (storedExample 12 3 "C".toList) (by decide) (by decide) (by decide) (by decide)).2.2.2.1⟩

/-- C16: the record that `addReference` creates is stored with the formatted string of
its fields; after `updateReference` has assigned the fields that the body gives, the
reference found under the `_id` holds these fields with the formatted string of the
fields, and its citation number is the one it had; no reference changes its `_id`, its
document or its citation number. -/
theorem formatted_string_regenerated (db : Store) (newId id : Nat) (body : AddBody)
    (ubody : UpdateBody) (found : StoredReference)
    (hadd : (addReference db newId body).1 = 201)
    (hfind : db.references.find? (fun r => r.id == id) = some found)
    (hupd : (updateReference db id ubody).1 = 200) :
    (∃ r, (addReference db newId body).2.references = db.references ++ [r] ∧ r.id = newId ∧
      r.fields.formattedIEEE = some (toIEEEFormat r.fields))
    ∧ (∃ u, (updateReference db id ubody).2.references.find? (fun r => r.id == id) = some u ∧
        setFormatted u.fields none = setFormatted (applyUpdates found.fields ubody) none ∧
        u.fields.formattedIEEE = some (toIEEEFormat u.fields) ∧
        u.fields.citationNumber = found.fields.citationNumber)
    ∧ (updateReference db id ubody).2.references.map
          (fun r => (r.id, r.document, r.fields.citationNumber)) =
        (db.references.map fun r => (r.id, r.document, r.fields.citationNumber))
    ∧ (∀ r s, toIEEEFormat (setFormatted r s) = toIEEEFormat r)
    ∧ ((updateReference exampleStore 11 exampleUpdate).2.references.map fun x =>
        (x.id, x.fields.citationNumber, x.fields.formattedIEEE)) =
        [(10, 1, some ("[1] Unknown Author, ".toList ++ [dquote, 'A', dquote, '.'])),
         (11, 2, some ("[2] Unknown Author, ".toList ++ [dquote] ++ "B2".toList ++
            [dquote] ++ ", 2020.".toList)),
         (12, 3, some ("[3] Unknown Author, ".toList ++ [dquote, 'C', dquote, '.']))] := by
  obtain ⟨hdoc, htitle⟩ := addReference_created db newId body hadd
  have hok := addReference_ok db newId body hdoc htitle
  have hid : found.id = id := (find_split _ id found hfind).1
  have hrefs := updateReference_ok db id ubody found hfind hupd
  refine ⟨⟨_, by rw [hok], rfl, rfl⟩, ?_, ?_, fun _ _ => rfl, by decide⟩
  · refine ⟨{ found with fields := regenerate (applyUpdates found.fields ubody) }, ?_, rfl, rfl,
      applyUpdates_number found.fields ubody⟩
    rw [hrefs]
    have := saveReference_find { found with fields := regenerate (applyUpdates found.fields ubody) }
      db.references found (by simpa [hid] using hfind)
    simpa [hid] using this
  · rw [hrefs]
    exact saveReference_numbers _ db.references found (by simpa [hid] using hfind)
      (applyUpdates_number found.fields ubody) rfl

/-- Witness of C16: a fourth reference is added to the store with `[1] A`, `[2] B`,
`[3] C`, and the title and the year of the reference numbered 2 are changed. -/
theorem formatted_string_regenerated_witness :
    (∃ r, (addReference exampleStore 13 exampleBody).2.references =
        exampleStore.references ++ [r] ∧ r.id = 13 ∧
      r.fields.formattedIEEE = some (toIEEEFormat r.fields))
    ∧ (updateReference exampleStore 11 exampleUpdate).2.references.map
          (fun r => (r.id, r.document, r.fields.citationNumber)) =
        exampleStore.references.map fun r => (r.id, r.document, r.fields.citationNumber) :=
  ⟨(formatted_string_regenerated exampleStore 13 11 exampleBody exampleUpdate
      (storedExample 11 2 "B".toList) (by decide) (by decide) (by decide)).1,
   (formatted_string_regenerated exampleStore 13 11 exampleBody exampleUpdate
      (storedExample 11 2 "B".toList) (by decide) (by decide) (by decide)).2.2.1⟩


/-! ## The section numerals: claims -/

/-- C24: for every n from 1 to 20, `toRoman n` is the standard Roman numeral of n (I,
II, III, IV, ..., XIX, XX), so the section at array index n - 1 < 20 is numbered with
the Roman numeral of n. -/
theorem toRoman_standard (n : Nat) (h1 : 1 ≤ n) (h20 : n ≤ 20) :
    toRoman (n : Int) = specRoman n ∧ sectionNumeral (n - 1) = specRoman n := by
  interval_cases n <;> decide

theorem toRoman_standard_witness :
    toRoman ((14 : Nat) : Int) = specRoman 14 ∧ sectionNumeral (14 - 1) = specRoman 14 ∧
      specRoman 14 = "XIV".toList :=
  ⟨(toRoman_standard 14 (by decide) (by decide)).1,
   (toRoman_standard 14 (by decide) (by decide)).2, by decide⟩

/-- The numerals are not capped: `toRoman 21` is the decimal string 21, not XX. -/
theorem toRoman_not_capped :
    toRoman 21 = "21".toList ∧ toRoman 21 ≠ "XX".toList := by
  decide

/-- C25 (amended): for every n above 20, `toRoman n` is the decimal rendering of n; the
table of numerals ends at XX and nothing is capped. -/
theorem toRoman_beyond_table (n : Nat) (h : 20 < n) :
    toRoman (n : Int) = natToString n := by
  have h0 : (0 : Int) ≤ (n : Int) - 1 := by omega
  have hidx : ((n : Int) - 1).toNat = n - 1 := by omega
  have hlen : romanNumerals.length = 20 := by decide
  have hnone : romanNumerals[n - 1]? = none := by
    apply List.getElem?_eq_none
    rw [hlen]; omega
  simp only [toRoman, if_pos h0, hidx, hnone, truthyStr]
  simp [intToString]

theorem toRoman_beyond_table_witness :
    toRoman ((21 : Nat) : Int) = natToString 21 ∧ natToString 21 = "21".toList :=
  ⟨toRoman_beyond_table 21 (by decide), by decide⟩


/-! ## Lemmas on the title of the result -/

theorem saveSection_setTitle (st : LoopState) (t : Str) :
    saveSection (setTitle st t) = withTitle (saveSection st) t := by
  unfold saveSection setTitle withTitle
  dsimp only
  split <;> rfl

theorem setTitle_self (st : LoopState) : setTitle st st.result.title = st := rfl

/-- One iteration does not read the title of the result, as long as it is not empty. -/
theorem stepLine_setTitle (raw : Str) (st : LoopState) (t : Str)
    (hst : st.result.title ≠ []) (ht : t ≠ []) :
    stepLine raw (setTitle st t) = setTitle (stepLine raw st) t := by
  have h1 : (saveSection st).title.isEmpty = false := by
    rw [saveSection_title]; cases h : st.result.title with
    | nil => exact absurd h hst
    | cons _ _ => rfl
  have h2 : (saveSection (setTitle st t)).title.isEmpty = false := by
    rw [saveSection_title]
    cases t with
    | nil => exact absurd rfl ht
    | cons _ _ => rfl
  unfold stepLine
  rw [h1, h2]
  simp only [Bool.and_false, Bool.false_and, Bool.false_eq_true, if_false]
  split
  · show (if truthyStr st.currentSection = true then _ else _) = _
    split <;> rfl
  · split
    · rfl
    · split
      · simp only [openSection, saveSection_setTitle]; rfl
      · show (if truthyStr st.currentSection = true then _ else _) = _
        split
        · rfl
        · show (if (st.result.abstract.isEmpty && st.result.sections.length == 0) = true
            then _ else _) = _
          split
          · show (if st.result.abstract.isEmpty = true then _ else _) = _
            split
            · next he =>
              have he2 : (setTitle st t).result.abstract.isEmpty = true := he
              rw [if_pos he2]; rfl
            · rfl
          · rfl

theorem stepLine_title (raw : Str) (st : LoopState) (hst : st.result.title ≠ []) :
    (stepLine raw st).result.title = st.result.title := by
  have h := stepLine_setTitle raw st st.result.title hst hst
  rw [setTitle_self] at h
  rw [h]; rfl

theorem closeReferences_setTitle (st : LoopState) (rest : List Str) (t : Str) :
    closeReferences (setTitle st t) rest = setTitle (closeReferences st rest) t := by
  unfold closeReferences
  rw [saveSection_setTitle]
  rfl

/-- The loop does not read the title of the result, as long as it is not empty: the
loop from a state with another title gives the same state with that title. -/
theorem parseLoop_setTitle (t : Str) (ht : t ≠ []) :
    ∀ (fuel : Nat) (lines : List Str) (st : LoopState), st.result.title ≠ [] →
      parseLoop fuel lines (setTitle st t) =
        (parseLoop fuel lines st).map fun s => setTitle s t := by
  intro fuel
  induction fuel with
  | zero =>
    intro lines st _
    cases lines <;> simp [parseLoop]
  | succ f ih =>
    intro lines st hst
    cases lines with
    | nil => simp [parseLoop]
    | cons raw rest =>
      rw [parseLoop_cons, parseLoop_cons]
      by_cases ha : test abstractPattern (trim raw) = true
      · rw [if_pos ha, if_pos ha]
        exact ih _ (setAbstract st _) hst
      · rw [if_neg ha, if_neg ha]
        by_cases hr : test referencesPattern (trim raw) = true
        · rw [if_pos hr, if_pos hr, closeReferences_setTitle]; rfl
        · rw [if_neg hr, if_neg hr, stepLine_setTitle raw st t hst ht]
          exact ih _ _ (by rw [stepLine_title raw st hst]; exact hst)

theorem initialResult_title_ne (title : Option Str) : (initialResult title).title ≠ [] := by
  unfold initialResult
  dsimp only
  split
  · next h =>
    cases title with
    | none => simp [truthyStr] at h
    | some s =>
      cases s with
      | nil => simp [truthyStr] at h
      | cons c u => simp [strVal]
  · decide

/-- The title argument only sets the title of the result: the parser with a title
answers what it answers without one, with the title replaced. -/
theorem parseText_title (text : Str) (title : Option Str) :
    parseText text title =
      (parseText text none).map fun r => withTitle r (initialResult title).title := by
  unfold parseText
  have h := parseLoop_setTitle (initialResult title).title (initialResult_title_ne title)
    (splitOnChar (fun c => c == '\n') text).length (splitOnChar (fun c => c == '\n') text)
    { result := initialResult none, currentSection := none, currentContent := [] }
    (initialResult_title_ne none)
  have e : setTitle { result := initialResult none, currentSection := none, currentContent := [] }
      (initialResult title).title =
      { result := initialResult title, currentSection := none, currentContent := [] } := rfl
  rw [e] at h
  dsimp only
  rw [h, Option.map_map, Option.map_map]
  congr 1
  funext s
  exact saveSection_setTitle s _

theorem parseContent_title (content : Content) (title : Option Str) :
    parseContent content title =
      (parseContent content none).map fun r => withTitle r (initialResult title).title := by
  cases content with
  | absent => rfl
  | str s =>
    unfold parseContent
    dsimp only
    split
    · rfl
    · exact parseText_title s title
  | tree n => exact parseText_title _ title

/-! ## The parser: claims on the title, on plain lines and on the demo paper -/

/-- C26: for every content and every title argument, the parser answers a result whose
title is the argument when that is a non-empty string and Untitled Paper otherwise: the
title of the result is never empty at the start, and no line of the content changes
it. -/
theorem title_is_argument (content : Content) (title : Option Str) :
    (parseContent content title).map ParsedPaper.title =
      some (if truthyStr title then strVal title else "Untitled Paper".toList) ∧
    (initialResult title).title ≠ [] := by
  refine ⟨?_, initialResult_title_ne title⟩
  rw [parseContent_title]
  obtain ⟨r, hr⟩ := parseContent_total content none
  rw [hr]
  rfl

/-- C21: of two plain lines before any heading only the first one is kept: the content
of the lines foo and bar gives the abstract foo, not foo bar, and the second line is
in no section either. -/
theorem plain_lines_not_accumulated :
    parseContent (Content.str plainLinesExample) none =
      some ⟨"Untitled Paper".toList, "foo".toList, [], [], []⟩ := by
  decide

/-- C29: the line of heading markup and the word Abstract is no Abstract marker but a
section header with the title Abstract; for the demo paper of the generate page (topic
X, domain AI) and every title argument the parser answers an empty abstract, the seven
sections X, Abstract, INTRODUCTION, LITERATURE REVIEW, METHODOLOGY, RESULTS, CONCLUSION
in that order, and the two references. -/
theorem demo_paper_parsed (title : Option Str) :
    test abstractPattern "## Abstract".toList = false ∧
    isHeader "## Abstract".toList = true ∧
    sectionTitleOf "## Abstract".toList = "Abstract".toList ∧
    parseContent (Content.str (demoContent "X".toList "AI".toList)) title =
      some ⟨(initialResult title).title, [], [],
        [⟨"X".toList, []⟩,
         ⟨"Abstract".toList, "This research paper explores X in the context of AI...".toList⟩,
         ⟨"INTRODUCTION".toList, "The field of AI has seen significant advancements...".toList⟩,
         ⟨"LITERATURE REVIEW".toList, "Previous studies have shown [1][2]...".toList⟩,
         ⟨"METHODOLOGY".toList, "Our approach involves...".toList⟩,
         ⟨"RESULTS".toList, "Experiments demonstrate...".toList⟩,
         ⟨"CONCLUSION".toList, "In conclusion, this research contributes to AI by...".toList⟩],
        ["Author, ".toList ++ [dquote] ++ "Title,".toList ++ [dquote] ++ " Journal, 2024.".toList,
         "Author, ".toList ++ [dquote] ++ "Title,".toList ++ [dquote] ++
           " Conference, 2023.".toList]⟩ := by
  refine ⟨by decide, by decide, by decide, ?_⟩
  rw [parseContent_title]
  have h : parseContent (Content.str (demoContent "X".toList "AI".toList)) none =
      some ⟨"Untitled Paper".toList, [], [],
        [⟨"X".toList, []⟩,
         ⟨"Abstract".toList, "This research paper explores X in the context of AI...".toList⟩,
         ⟨"INTRODUCTION".toList, "The field of AI has seen significant advancements...".toList⟩,
         ⟨"LITERATURE REVIEW".toList, "Previous studies have shown [1][2]...".toList⟩,
         ⟨"METHODOLOGY".toList, "Our approach involves...".toList⟩,
         ⟨"RESULTS".toList, "Experiments demonstrate...".toList⟩,
         ⟨"CONCLUSION".toList, "In conclusion, this research contributes to AI by...".toList⟩],
        ["Author, ".toList ++ [dquote] ++ "Title,".toList ++ [dquote] ++ " Journal, 2024.".toList,
         "Author, ".toList ++ [dquote] ++ "Title,".toList ++ [dquote] ++
           " Conference, 2023.".toList]⟩ := by
    decide
  rw [h]
  rfl


/-! ## The document controller: claims -/

/-- A request of `updateDocument` by a user without edit access is answered 403 and
changes nothing. -/
theorem updateDocument_denied (db : List DocumentRecord) (user id : Nat)
    (body : UpdateDocumentBody) (document : DocumentRecord)
    (hf : (db.find? fun d => d.id == id) = some document)
    (hd : hasEditAccess document user = false) :
    updateDocument db user id body = (403, db) := by
  unfold updateDocument
  rw [hf]
  simp [hd]

/-- C30: of the three handlers only `updateDocument` looks at the requester.  On a
document of user 1 with user 2 as a collaborator of role viewer, `updateDocument`
answers a request of user 2 with 403 and changes nothing, but `saveVersion` answers it
with 200, adds a version and raises the version counter, and `restoreVersion` answers
it with 200 and replaces the content; the same holds for user 3, who is no
collaborator. -/
theorem version_handlers_unguarded :
    hasEditAccess exampleDocument 2 = false ∧ hasEditAccess exampleDocument 3 = false ∧
    updateDocument [exampleDocument] 2 10 exampleEdit = (403, [exampleDocument]) ∧
    (saveVersion [exampleDocument] 2 10 none).1 = 200 ∧
    ((saveVersion [exampleDocument] 2 10 none).2.map fun d =>
      (d.currentVersion, d.versions.length)) = [(3, 2)] ∧
    (restoreVersion [exampleDocument] 2 10 1).1 = 200 ∧
    ((restoreVersion [exampleDocument] 2 10 1).2.map fun d => d.content) = ["[1]".toList] ∧
    (saveVersion [exampleDocument] 3 10 none).1 = 200 ∧
    (saveVersion [exampleDocument] 3 10 none).2 ≠ [exampleDocument] ∧
    (restoreVersion [exampleDocument] 3 10 1).1 = 200 ∧
    (restoreVersion [exampleDocument] 3 10 1).2 ≠ [exampleDocument] ∧
    [exampleDocument].map (fun d => (d.currentVersion, d.versions.length, d.content)) =
      [(2, 1, "[2]".toList)] := by
  decide


/-! ## Lemmas on what the Abstract marker pattern accepts -/

/-- A quantifier that may match nothing succeeds when what follows always succeeds. -/
theorem rep_total (p : Char → Bool) (k : Cont) (hk : ∀ t, ∃ r, k t = some r) :
    ∀ (s : Str) (hi : Option Nat), ∃ r, rep p k 0 hi s = some r := by
  intro s
  induction s with
  | nil => intro hi; simpa [rep] using hk []
  | cons c cs ih =>
    intro hi
    obtain ⟨r, hr⟩ := hk (c :: cs)
    simp only [rep]
    by_cases hc : (p c && hi != some 0) = true
    · rw [if_pos hc]
      obtain ⟨r', hr'⟩ := ih (hi.map fun h => h - 1)
      simp only [Nat.zero_sub] at hr' ⊢
      rw [hr']; exact ⟨r', rfl⟩
    · rw [if_neg hc]; exact ⟨r, by simpa using hr⟩

/-- What follows the word in a marker pattern accepts every text: the stars, the
punctuation and the white space are all optional. -/
theorem marker_tail_total (t : Str) :
    ∃ r, (opt isStar <| opt isStar <| opt isMarkPunct <| many isSpace <| done) t = some r := by
  have h0 : ∀ t, ∃ r, done t = some r := fun t => ⟨t, rfl⟩
  have h1 : ∀ t, ∃ r, many isSpace done t = some r := fun t => rep_total _ _ h0 t none
  have h2 : ∀ t, ∃ r, opt isMarkPunct (many isSpace done) t = some r :=
    fun t => rep_total _ _ h1 t (some 1)
  have h3 : ∀ t, ∃ r, opt isStar (opt isMarkPunct (many isSpace done)) t = some r :=
    fun t => rep_total _ _ h2 t (some 1)
  exact rep_total _ _ h3 t (some 1)

/-- A literal word under the `i` flag matches exactly the texts that start with its
letters in any case. -/
theorem word_some_iff (w : Str) (k : Cont) (s r : Str) :
    word w k s = some r ↔
      ∃ u rest, s = u ++ rest ∧ u.map foldCase = w.map foldCase ∧ k rest = some r := by
  induction w generalizing s with
  | nil =>
    constructor
    · intro h; exact ⟨[], s, rfl, rfl, h⟩
    · rintro ⟨u, rest, rfl, hu, hk⟩
      simp at hu; subst hu; exact hk
  | cons a w ih =>
    constructor
    · intro h
      cases s with
      | nil => simp [word, chr] at h
      | cons c t =>
        by_cases hc : ci a c = true
        · have h' : word w k t = some r := by simpa [word, chr, hc] using h
          obtain ⟨u, rest, rfl, hu, hk⟩ := (ih t).1 h'
          refine ⟨c :: u, rest, rfl, ?_, hk⟩
          simp only [ci, beq_iff_eq] at hc
          simp [hc, hu]
        · simp [word, chr, hc] at h
    · rintro ⟨u, rest, rfl, hu, hk⟩
      cases u with
      | nil => simp at hu
      | cons c u =>
        simp only [List.map_cons, List.cons.injEq] at hu
        have hc : ci a c = true := by simp [ci, hu.1]
        have := (ih (u ++ rest)).2 ⟨u, rest, rfl, hu.2, hk⟩
        simpa [word, chr, hc] using this

theorem opt_some_cases (p : Char → Bool) (k : Cont) (s r : Str) (h : opt p k s = some r) :
    k s = some r ∨ ∃ c t, s = c :: t ∧ p c = true ∧ k t = some r := by
  cases s with
  | nil => rw [opt_nil] at h; exact Or.inl h
  | cons c t =>
    by_cases hc : p c = true
    · rw [opt_cons_pos _ _ _ _ hc] at h
      cases hk : k t with
      | some r' =>
        rw [hk] at h; simp only [orTry_some, Option.some.injEq] at h
        subst h
        exact Or.inr ⟨c, t, rfl, hc, hk⟩
      | none => rw [hk] at h; exact Or.inl h
    · simp only [Bool.not_eq_true] at hc
      rw [opt_cons_neg _ _ _ _ hc] at h; exact Or.inl h

theorem opt_pos_some (p : Char → Bool) (k : Cont) (c : Char) (t r : Str) (hc : p c = true)
    (h : k t = some r) : opt p k (c :: t) = some r := by
  rw [opt_cons_pos _ _ _ _ hc, h]; rfl

/-- An optional character before something that accepts every text is taken when it is
there. -/
theorem opt_total_eq (p : Char → Bool) (k : Cont) (hk : ∀ t, ∃ r, k t = some r) (s : Str) :
    opt p k s = k (dropOne p s) := by
  cases s with
  | nil => rw [opt_nil]; rfl
  | cons c t =>
    by_cases hc : p c = true
    · obtain ⟨r, hr⟩ := hk t
      rw [opt_cons_pos _ _ _ _ hc, hr]
      simp [dropOne, hc, hr]
    · simp only [Bool.not_eq_true] at hc
      rw [opt_cons_neg _ _ _ _ hc]
      simp [dropOne, hc]

/-- What the end of a marker pattern leaves of the text after the word. -/
theorem marker_tail_eq (t : Str) :
    (opt isStar <| opt isStar <| opt isMarkPunct <| many isSpace <| done) t =
      some (markerRest t) := by
  have h0 : ∀ t, ∃ r, done t = some r := fun t => ⟨t, rfl⟩
  have h1 : ∀ t, ∃ r, many isSpace done t = some r := fun t => rep_total _ _ h0 t none
  have h2 : ∀ t, ∃ r, opt isMarkPunct (many isSpace done) t = some r :=
    fun t => rep_total _ _ h1 t (some 1)
  have h3 : ∀ t, ∃ r, opt isStar (opt isMarkPunct (many isSpace done)) t = some r :=
    fun t => rep_total _ _ h2 t (some 1)
  rw [opt_total_eq _ _ h3, opt_total_eq _ _ h2, opt_total_eq _ _ h1, many_done]
  rfl

/-- A line matched by the Abstract marker pattern starts, after at most two stars, with
the letters of the word Abstract in any case. -/
theorem abstractPattern_starts (s : Str) (h : test abstractPattern s = true) :
    ∃ n u rest, n ≤ 2 ∧ u.map foldCase = "ABSTRACT".toList ∧
      s = List.replicate n '*' ++ u ++ rest := by
  have hstar : ∀ c, isStar c = true → c = '*' := by
    intro c hc; simpa [isStar] using hc
  have hW : "Abstract".toList.map foldCase = "ABSTRACT".toList := by decide
  cases ha : abstractPattern s with
  | none => simp [test, ha] at h
  | some r =>
    have base : ∀ t, word "Abstract".toList
        (opt isStar <| opt isStar <| opt isMarkPunct <| many isSpace <| done) t = some r →
        ∃ u rest, u.map foldCase = "ABSTRACT".toList ∧ t = u ++ rest := by
      intro t ht
      obtain ⟨u, rest, e, hu, _⟩ := (word_some_iff _ _ _ _).1 ht
      exact ⟨u, rest, hu.trans hW, e⟩
    rcases opt_some_cases _ _ _ _ ha with h1 | ⟨c, t, e, hc, h1⟩
    · rcases opt_some_cases _ _ _ _ h1 with h2 | ⟨c2, t2, e2, hc2, h2⟩
      · obtain ⟨u, rest, hu, e⟩ := base _ h2
        exact ⟨0, u, rest, by omega, hu, by simpa using e⟩
      · obtain ⟨u, rest, hu, e3⟩ := base _ h2
        refine ⟨1, u, rest, by omega, hu, ?_⟩
        rw [e2, e3, hstar c2 hc2]; rfl
    · rcases opt_some_cases _ _ _ _ h1 with h2 | ⟨c2, t2, e2, hc2, h2⟩
      · obtain ⟨u, rest, hu, e3⟩ := base _ h2
        refine ⟨1, u, rest, by omega, hu, ?_⟩
        rw [e, e3, hstar c hc]; rfl
      · obtain ⟨u, rest, hu, e3⟩ := base _ h2
        refine ⟨2, u, rest, by omega, hu, ?_⟩
        rw [e, e2, e3, hstar c hc, hstar c2 hc2]; rfl

/-- The match of the Abstract marker pattern on a line of at most two stars, the word
and a text: what is left is the text without the stars, the punctuation mark and the
white space at its start. -/
theorem abstractPattern_match (n : Nat) (u rest : Str) (hn : n ≤ 2)
    (hu : u.map foldCase = "ABSTRACT".toList) :
    abstractPattern (List.replicate n '*' ++ u ++ rest) = some (markerRest rest) := by
  have hstar : ∀ c, isStar c = true → c = '*' := by
    intro c hc; simpa [isStar] using hc
  have hW : "Abstract".toList.map foldCase = "ABSTRACT".toList := by decide
  have hw : word "Abstract".toList
      (opt isStar <| opt isStar <| opt isMarkPunct <| many isSpace <| done) (u ++ rest) =
      some (markerRest rest) :=
    (word_some_iff _ _ _ _).2 ⟨u, rest, rfl, hu.trans hW.symm, marker_tail_eq rest⟩
  have hhead : ∀ c t, u ++ rest = c :: t → isStar c = false := by
    intro c t e
    cases u with
    | nil => simp at hu
    | cons c' u' =>
      simp only [List.cons_append, List.cons.injEq] at e
      simp only [List.map_cons] at hu
      have h1 : foldCase c' = 'A' := by
        have := congrArg List.head? hu
        simpa using this
      rw [← e.1]
      by_contra hs
      simp only [Bool.not_eq_false] at hs
      rw [hstar c' hs] at h1
      exact absurd h1 (by decide)
  have h1 : opt isStar (word "Abstract".toList
      (opt isStar <| opt isStar <| opt isMarkPunct <| many isSpace <| done)) (u ++ rest) =
      some (markerRest rest) := by
    cases e : u ++ rest with
    | nil => rw [e] at hw; rw [opt_nil]; exact hw
    | cons c t => rw [opt_cons_neg _ _ _ _ (hhead c t e), ← e]; exact hw
  have h2 : abstractPattern (u ++ rest) = some (markerRest rest) := by
    show opt isStar (opt isStar _) (u ++ rest) = some (markerRest rest)
    cases e : u ++ rest with
    | nil => rw [e] at h1; rw [opt_nil]; exact h1
    | cons c t => rw [opt_cons_neg _ _ _ _ (hhead c t e), ← e]; exact h1
  have hn' : n = 0 ∨ n = 1 ∨ n = 2 := by omega
  rcases hn' with rfl | rfl | rfl
  · simpa using h2
  · have : abstractPattern ('*' :: (u ++ rest)) = some (markerRest rest) :=
      opt_pos_some _ _ _ _ _ (by decide) h1
    simpa [List.replicate] using this
  · have : abstractPattern ('*' :: '*' :: (u ++ rest)) = some (markerRest rest) :=
      opt_pos_some _ _ _ _ _ (by decide) (opt_pos_some _ _ _ _ _ (by decide) hw)
    simpa [List.replicate] using this

theorem dropOne_length_le (p : Char → Bool) (s : Str) : (dropOne p s).length ≤ s.length := by
  cases s with
  | nil => simp [dropOne]
  | cons c t =>
    simp only [dropOne]
    split <;> simp

theorem dropOne_cons_pos (p : Char → Bool) (c : Char) (t : Str) (h : p c = true) :
    dropOne p (c :: t) = t := by
  simp [dropOne, h]

theorem dropOne_cons_neg (p : Char → Bool) (c : Char) (t : Str) (h : ¬p c = true) :
    dropOne p (c :: t) = c :: t := by
  simp [dropOne, h]

/-- The star, punctuation mark or white space that ends the marker word is taken by the
marker: what is left is shorter than the text after the word. -/
theorem markerRest_shorter (rest : Str) (hd : delimited rest = true) :
    rest = [] ∨ (markerRest rest).length < rest.length := by
  cases rest with
  | nil => exact Or.inl rfl
  | cons c t =>
    refine Or.inr ?_
    have hw : ∀ x : Str, (x.dropWhile isSpace).length ≤ x.length :=
      dropWhile_length_le isSpace
    unfold markerRest
    by_cases hs : isStar c = true
    · have h1 := dropOne_length_le isStar t
      have h2 := dropOne_length_le isMarkPunct (dropOne isStar t)
      have := hw (dropOne isMarkPunct (dropOne isStar t))
      rw [dropOne_cons_pos _ _ _ hs, List.length_cons]
      omega
    · rw [dropOne_cons_neg _ _ _ hs, dropOne_cons_neg _ _ _ hs]
      by_cases hp : isMarkPunct c = true
      · have := hw t
        rw [dropOne_cons_pos _ _ _ hp, List.length_cons]
        omega
      · have hsp : isSpace c = true := by
          simp only [delimited, Bool.or_eq_true] at hd
          rcases hd with (hd | hd) | hd
          · exact absurd hd hs
          · exact absurd hd hp
          · exact hd
        have := hw t
        rw [dropOne_cons_neg _ _ _ hp, List.dropWhile_cons_of_pos hsp, List.length_cons]
        omega

/-! ## The parser: claims on the Abstract marker -/

/-- The punctuation after the word is optional: a line of the word Abstract, a blank
and a text, without an em dash, a colon or a hyphen, is an Abstract marker line and
sets the abstract to the text. -/
theorem marker_without_punctuation :
    test abstractPattern unpunctuatedExample = true ∧
    parseContent (Content.str unpunctuatedExample) none =
      some ⟨"Untitled Paper".toList, "This paper studies X.".toList, [], [], []⟩ := by
  decide

/-- C23 (amended): a line that starts, after at most two stars, with the word Abstract
in any case, the word ending where the text after it is empty or starts with a star,
with the em dash, the colon or the hyphen, or with white space, is an Abstract marker
line: the punctuation is optional, and the marker leaves the text after the word
without its leading stars (at most two), punctuation mark (at most one) and white
space, so without what ends the word.  A line that does not start, after at most two
stars, with the letters of the word is no Abstract marker line. -/
theorem abstract_marker_delimited (n : Nat) (u rest : Str) (hn : n ≤ 2)
    (hu : u.map foldCase = "ABSTRACT".toList) (hd : delimited rest = true) :
    test abstractPattern (List.replicate n '*' ++ u ++ rest) = true ∧
    remove abstractPattern (List.replicate n '*' ++ u ++ rest) = markerRest rest ∧
    (rest = [] ∨ (markerRest rest).length < rest.length) ∧
    (∀ s, test abstractPattern s = true →
      ∃ m w t, m ≤ 2 ∧ w.map foldCase = "ABSTRACT".toList ∧
        s = List.replicate m '*' ++ w ++ t) := by
  have hm := abstractPattern_match n u rest hn hu
  refine ⟨by unfold test; rw [hm]; rfl, by unfold remove; rw [hm],
    markerRest_shorter rest hd, abstractPattern_starts⟩

/-- Witness of C23: the word in capitals between stars, then an em dash, and the word
followed by a blank only. -/
theorem abstract_marker_delimited_witness :
    (test abstractPattern "**ABSTRACT**— This paper studies X.".toList = true ∧
      remove abstractPattern "**ABSTRACT**— This paper studies X.".toList =
        "This paper studies X.".toList) ∧
    (test abstractPattern unpunctuatedExample = true ∧
      remove abstractPattern unpunctuatedExample = "This paper studies X.".toList) :=
  ⟨⟨(abstract_marker_delimited 2 "ABSTRACT".toList "**— This paper studies X.".toList
      (by decide) (by decide) (by decide)).1,
    (abstract_marker_delimited 2 "ABSTRACT".toList "**— This paper studies X.".toList
      (by decide) (by decide) (by decide)).2.1⟩,
   ⟨(abstract_marker_delimited 0 "Abstract".toList " This paper studies X.".toList
      (by decide) (by decide) (by decide)).1,
    (abstract_marker_delimited 0 "Abstract".toList " This paper studies X.".toList
      (by decide) (by decide) (by decide)).2.1⟩⟩

/-! ## Lemmas on a numbered heading inside the abstract -/

/-- A line that starts with a Roman numeral, a dot and white space, and holds no known
section name, does not end the collection of the abstract. -/
theorem numbered_line_continues (h : Str) (hh : test romanHeaderPattern (trim h) = true)
    (hk : (knownSections.any fun s => includes (toLowerCase (trim h)) s) = false) :
    continuesAbstract h = true ∧ (trim h).isEmpty = false := by
  cases hp : romanHeaderPattern (trim h) with
  | none => simp [test, hp] at hh
  | some r =>
    obtain ⟨c, u, e, hc⟩ := rep_one_head _ _ _ _ _ hp
    have hf := roman_facts c hc
    have hkw : test keywordsPattern (c :: u) = false := by
      simp [test, keywordsPattern_head_none c u hf.2.2.1 hf.2.2.2.2.1]
    have hs : startsWith (c :: u) "#".toList = false := by
      have := hf.2.2.2.2.2.2.2
      simp only [beq_eq_false_iff_ne, ne_eq] at this
      simp [startsWith, List.isPrefixOf, Ne.symm this]
    rw [e] at hk
    refine ⟨?_, by rw [e]; rfl⟩
    simp only [continuesAbstract, isAbstractStop, e, hkw, hs, hk, Bool.or_false, Bool.not_false]

theorem takeWhile_all_append (p : Str → Bool) (pre : List Str) (h : Str) (post : List Str)
    (hpre : pre.all p = true) (hh : p h = true) :
    (pre ++ h :: post).takeWhile p = pre ++ h :: post.takeWhile p ∧
      (pre ++ h :: post).dropWhile p = post.dropWhile p := by
  induction pre with
  | nil => simp [List.takeWhile, List.dropWhile, hh]
  | cons a pre ih =>
    simp only [List.all_cons, Bool.and_eq_true] at hpre
    have := ih hpre.2
    simp [List.takeWhile, List.dropWhile, hpre.1, this.1, this.2]

/-! ## The parser: claims on a custom section inside the abstract -/

/-- C22: a numbered heading line without heading markup that names no known section
and follows an Abstract marker line before any line that ends the abstract is taken
into the abstract as ordinary text (outside the abstract the same line would be a
section header), the lines after it are collected as before, and the Abstract branch
opens no section: it leaves the open section and the sections as they are. -/
theorem custom_section_absorbed (fuel : Nat) (raw h : Str) (pre post : List Str)
    (st : LoopState) (hm : test abstractPattern (trim raw) = true)
    (hpre : pre.all continuesAbstract = true)
    (hh : test romanHeaderPattern (trim h) = true)
    (hk : (knownSections.any fun s => includes (toLowerCase (trim h)) s) = false) :
    isHeader (trim h) = true ∧ continuesAbstract h = true ∧
    parseLoop (fuel + 1) (raw :: (pre ++ h :: post)) st =
      parseLoop fuel (post.dropWhile continuesAbstract)
        (setAbstract st (trim (join " ".toList (remove abstractPattern (trim raw) ::
          (nonBlank pre ++ trim h :: nonBlank (post.takeWhile continuesAbstract)))))) ∧
    (∀ a, (setAbstract st a).currentSection = st.currentSection ∧
      (setAbstract st a).currentContent = st.currentContent ∧
      (setAbstract st a).result.sections = st.result.sections) := by
  obtain ⟨hc, hne⟩ := numbered_line_continues h hh hk
  obtain ⟨e1, e2⟩ := takeWhile_all_append continuesAbstract pre h post hpre hc
  refine ⟨by simp [isHeader, hh], hc, ?_, fun _ => ⟨rfl, rfl, rfl⟩⟩
  rw [parseLoop_cons, if_pos hm, e2]
  unfold specAbstract nonBlank
  rw [e1]
  simp [List.filter_cons, hne]

/-- Witness of C22: the heading of a section BACKGROUND after two lines of abstract;
the loop goes on at the next heading with the heading line inside the abstract. -/
theorem custom_section_absorbed_witness :
    parseLoop 6 customSectionExample startState =
      parseLoop 5 ["## I. INTRODUCTION".toList, "Intro.".toList]
        (setAbstract startState
          "We study X. continued. II. BACKGROUND Some background.".toList) ∧
    parseLines customSectionExample none =
      some ⟨"Untitled Paper".toList,
        "We study X. continued. II. BACKGROUND Some background.".toList, [],
        [⟨"INTRODUCTION".toList, "Intro.".toList⟩], []⟩ :=
  ⟨(custom_section_absorbed 5 "Abstract— We study X.".toList "II. BACKGROUND".toList
      ["continued.".toList]
      ["Some background.".toList, "## I. INTRODUCTION".toList, "Intro.".toList]
      startState (by decide) (by decide) (by decide) (by decide)).2.2.1.trans (by decide),
   by decide⟩


/-! ## Lemmas on header lines with the title References -/

theorem trimEnd_idem (s : Str) : trimEnd (trimEnd s) = trimEnd s := by
  induction s with
  | nil => rfl
  | cons c cs ih =>
    simp only [trimEnd]
    by_cases h : ((trimEnd cs).isEmpty && isSpace c) = true
    · rw [if_pos h]; rfl
    · rw [if_neg h]
      simp only [trimEnd, ih]
      rw [if_neg h]

/-- No suffix of a line without trailing white space has trailing white space. -/
theorem trimEnd_suffix (line t : Str) (hl : trimEnd line = line) (ht : t <:+ line) :
    trimEnd t = t := by
  obtain ⟨a, rfl⟩ := ht
  by_cases h : trimEnd t = []
  · have hsp := (trimEnd_eq_nil_iff t).1 h
    rw [trimEnd_append_spaces a t hsp] at hl
    have h1 := trimEnd_length_le a
    rw [hl] at h1
    simp only [List.length_append] at h1
    have : t = [] := List.eq_nil_of_length_eq_zero (by omega)
    subst this; rfl
  · rw [trimEnd_append a t h] at hl
    exact List.append_cancel_left hl

/-- A quantified class answers what its continuation answers at some suffix. -/
theorem rep_some_handover (p : Char → Bool) (k : Cont) (s : Str) (lo : Nat) (hi : Option Nat)
    (u : Str) (h : rep p k lo hi s = some u) : ∃ x, x <:+ s ∧ k x = some u := by
  induction s generalizing lo hi with
  | nil =>
    simp only [rep] at h
    split at h
    · exact ⟨[], List.suffix_refl _, h⟩
    · simp at h
  | cons c cs ih =>
    simp only [rep] at h
    have fallback : (if lo = 0 then k (c :: cs) else none) = some u →
        ∃ x, x <:+ c :: cs ∧ k x = some u := by
      intro hf
      split at hf
      · exact ⟨c :: cs, List.suffix_refl _, hf⟩
      · simp at hf
    by_cases hc : (p c && hi != some 0) = true
    · rw [if_pos hc] at h
      cases hr : rep p k (lo - 1) (hi.map fun h => h - 1) cs with
      | some r =>
        rw [hr] at h
        simp only [orTry_some, Option.some.injEq] at h
        subst h
        obtain ⟨x, hx, hk⟩ := ih _ _ hr
        exact ⟨x, hx.trans (List.suffix_cons c cs), hk⟩
      | none =>
        rw [hr] at h
        exact fallback h
    · rw [if_neg hc] at h
      exact fallback h

/-- A quantified class that matches with one continuation matches with every
continuation that accepts what the first one accepted with that answer. -/
theorem rep_some_imp (p : Char → Bool) (k k' : Cont) (s : Str) (lo : Nat) (hi : Option Nat)
    (u : Str) (himp : ∀ t, k t = some u → ∃ v, k' t = some v)
    (h : rep p k lo hi s = some u) : ∃ v, rep p k' lo hi s = some v := by
  induction s generalizing lo hi with
  | nil =>
    simp only [rep] at h ⊢
    split at h
    · next hl => rw [if_pos hl]; exact himp _ h
    · simp at h
  | cons c cs ih =>
    simp only [rep] at h ⊢
    have fallback : (if lo = 0 then k (c :: cs) else none) = some u →
        ∃ v, (if lo = 0 then k' (c :: cs) else none) = some v := by
      intro hf
      split at hf
      · next hl => rw [if_pos hl]; exact himp _ hf
      · simp at hf
    by_cases hc : (p c && hi != some 0) = true
    · rw [if_pos hc] at h ⊢
      cases hr : rep p k (lo - 1) (hi.map fun h => h - 1) cs with
      | some r =>
        rw [hr] at h
        simp only [orTry_some, Option.some.injEq] at h
        subst h
        obtain ⟨v, hv⟩ := ih _ _ hr
        rw [hv]; exact ⟨v, rfl⟩
      | none =>
        rw [hr] at h
        obtain ⟨v, hv⟩ := fallback h
        cases hr' : rep p k' (lo - 1) (hi.map fun h => h - 1) cs with
        | some r' => exact ⟨r', rfl⟩
        | none => exact ⟨v, hv⟩
    · rw [if_neg hc] at h ⊢
      exact fallback h

theorem orTry_right (a : Option Str) (v : Str) : ∃ w, orTry a (some v) = some w := by
  cases a with
  | some r => exact ⟨r, rfl⟩
  | none => exact ⟨v, rfl⟩

theorem orTry_left (b : Option Str) (a : Option Str) (h : ∃ v, a = some v) :
    ∃ w, orTry a b = some w := by
  obtain ⟨v, rfl⟩ := h
  exact ⟨v, rfl⟩

theorem dropWhile_suffix_of (p : Char → Bool) (s : Str) : s.dropWhile p <:+ s := by
  induction s with
  | nil => exact List.suffix_refl _
  | cons c cs ih =>
    simp only [List.dropWhile]
    split
    · exact ih.trans (List.suffix_cons c cs)
    · exact List.suffix_refl _

/-- What `remove` leaves of a line for the heading markup pattern: a suffix of the line
that starts with no white space when the line starts with none, and a marker pattern
matches the line when what follows the markup in it matches what is left. -/
theorem hashPattern_left (line : Str) (k : Cont)
    (hl : ∀ c u, line = c :: u → isSpace c = false) :
    remove hashPattern line <:+ line ∧
    (∀ c u, remove hashPattern line = c :: u → isSpace c = false) ∧
    ((∃ v, k (remove hashPattern line) = some v) →
      ∃ v, optGroup (fun k => rep isHash (many isSpace k) 1 (some 3)) k line = some v) := by
  unfold remove
  cases hp : hashPattern line with
  | none =>
    dsimp only
    refine ⟨List.suffix_refl _, hl, ?_⟩
    rintro ⟨v, hv⟩
    unfold optGroup
    rw [hv]
    exact orTry_right _ v
  | some h =>
    dsimp only
    obtain ⟨x, hx, hm⟩ := rep_some_handover _ _ _ _ _ _ hp
    rw [many_done] at hm
    simp only [Option.some.injEq] at hm
    refine ⟨?_, ?_, ?_⟩
    · rw [← hm]; exact (dropWhile_suffix_of _ _).trans hx
    · intro c u e
      rw [← hm] at e
      exact dropWhile_head_not isSpace x c u e
    · intro hk
      apply orTry_left
      apply rep_some_imp isHash (many isSpace done) (many isSpace k) line 1 (some 3) h _ hp
      intro t ht
      apply rep_some_imp isSpace done k t 0 none h _ ht
      intro t' ht'
      simp only [done, Option.some.injEq] at ht'
      subst ht'
      exact hk

/-- The same for the numbering pattern. -/
theorem romanPattern_left (h : Str) (k : Cont)
    (hl : ∀ c u, h = c :: u → isSpace c = false) :
    remove romanPattern h <:+ h ∧
    (∀ c u, remove romanPattern h = c :: u → isSpace c = false) ∧
    ((∃ v, k (remove romanPattern h) = some v) →
      ∃ v, optGroup (fun k => many1 isRoman (chr (fun c => c == '.') (many isSpace k))) k h =
        some v) := by
  unfold remove
  cases hp : romanPattern h with
  | none =>
    dsimp only
    refine ⟨List.suffix_refl _, hl, ?_⟩
    rintro ⟨v, hv⟩
    unfold optGroup
    rw [hv]
    exact orTry_right _ v
  | some r =>
    dsimp only
    obtain ⟨x, hx, hm⟩ := rep_some_handover _ _ _ _ _ _ hp
    cases x with
    | nil => simp [chr] at hm
    | cons d y =>
      have hd : (d == '.') = true := by
        by_contra hd
        simp [chr, hd] at hm
      have hm' : many isSpace done y = some r := by simpa [chr, hd] using hm
      have hm2 := hm'
      rw [many_done] at hm2
      simp only [Option.some.injEq] at hm2
      refine ⟨?_, ?_, ?_⟩
      · rw [← hm2]
        exact ((dropWhile_suffix_of _ _).trans (List.suffix_cons d y)).trans hx
      · intro c u e
        rw [← hm2] at e
        exact dropWhile_head_not isSpace y c u e
      · intro hk
        apply orTry_left
        apply rep_some_imp isRoman (chr (fun c => c == '.') (many isSpace done))
          (chr (fun c => c == '.') (many isSpace k)) h 1 none r _ hp
        intro t ht
        cases t with
        | nil => simp [chr] at ht
        | cons d' y' =>
          have hd' : (d' == '.') = true := by
            by_contra hd'
            simp [chr, hd'] at ht
          have ht' : many isSpace done y' = some r := by simpa [chr, hd'] using ht
          have : ∃ v, many isSpace k y' = some v := by
            apply rep_some_imp isSpace done k y' 0 none r _ ht'
            intro t' e
            simp only [done, Option.some.injEq] at e
            subst e
            exact hk
          simpa [chr, hd'] using this

/-- A header line whose title is the word References in any case is a References marker
line, so the marker rule, which is tried first, takes it. -/
theorem references_title_marker (raw : Str) (hh : isHeader (trim raw) = true)
    (ht : sameIgnoringCase (sectionTitleOf (trim raw)) "References".toList = true) :
    test referencesPattern (trim raw) = true := by
  have hl : ∀ c u, trim raw = c :: u → isSpace c = false := trim_head_not_space raw
  have hte : trimEnd (trim raw) = trim raw := trimEnd_idem _
  obtain ⟨s1, n1, m1⟩ := hashPattern_left (trim raw)
    (optGroup (fun k => many1 isRoman (chr (fun c => c == '.') (many isSpace k)))
      (word "References".toList <| opt isStar <| opt isStar <| eos)) hl
  obtain ⟨s2, n2, m2⟩ := romanPattern_left (remove hashPattern (trim raw))
    (word "References".toList <| opt isStar <| opt isStar <| eos) n1
  have e1 : trim (remove romanPattern (remove hashPattern (trim raw))) =
      remove romanPattern (remove hashPattern (trim raw)) := by
    rw [trim_eq_trimEnd _ n2]
    exact trimEnd_suffix _ _ hte (s2.trans s1)
  have hmap : (remove romanPattern (remove hashPattern (trim raw))).map foldCase =
      "References".toList.map foldCase := by
    unfold sameIgnoringCase sectionTitleOf at ht
    rw [e1] at ht
    exact eq_of_beq ht
  have hK2 : (word "References".toList <| opt isStar <| opt isStar <| eos)
      (remove romanPattern (remove hashPattern (trim raw))) = some [] :=
    (word_some_iff _ _ _ _).2 ⟨_, [], (List.append_nil _).symm, hmap, rfl⟩
  obtain ⟨v, hv⟩ := m1 (m2 ⟨[], hK2⟩)
  have hhead : ∃ c u, trim raw = c :: u ∧ isStar c = false := by
    unfold isHeader at hh
    simp only [Bool.or_eq_true] at hh
    rcases hh with hh | hh
    · cases e : trim raw with
      | nil => rw [e] at hh; simp [startsWith, List.isPrefixOf] at hh
      | cons c u =>
        rw [e] at hh
        have : c = '#' := by
          simp only [startsWith, List.isPrefixOf, String.toList, Bool.and_true,
            beq_iff_eq] at hh
          exact hh.symm
        exact ⟨c, u, rfl, by rw [this]; decide⟩
    · cases hp : romanHeaderPattern (trim raw) with
      | none => simp [test, hp] at hh
      | some r =>
        obtain ⟨c, u, e, hc⟩ := rep_one_head _ _ _ _ _ hp
        exact ⟨c, u, e, (roman_facts c hc).2.2.1⟩
  obtain ⟨c, u, e, hc⟩ := hhead
  have : referencesPattern (trim raw) = some v := by
    show opt isStar (opt isStar _) (trim raw) = some v
    rw [e, opt_cons_neg _ _ _ _ hc, opt_cons_neg _ _ _ _ hc, ← e]
    exact hv
  simp [test, this]


/-! ## Lemmas on the titles of the sections -/

/-- The titles of the sections after the open section is saved: those before, and the
title of the open section when it is not empty. -/
theorem saveSection_titles (P : Str → Prop) (st : LoopState)
    (h1 : ∀ s ∈ st.result.sections, P s.title)
    (h2 : ∀ t, st.currentSection = some t → t ≠ [] → P t) :
    ∀ s ∈ (saveSection st).sections, P s.title := by
  unfold saveSection
  split
  · next ht =>
    intro s hs
    simp only [List.mem_append, List.mem_singleton] at hs
    rcases hs with hs | hs
    · exact h1 s hs
    · subst hs
      cases hc : st.currentSection with
      | none => rw [hc] at ht; simp [truthyStr] at ht
      | some t =>
        rw [hc] at ht
        have hne : t ≠ [] := by
          intro e; subst e; simp [truthyStr] at ht
        simpa [strVal] using h2 t hc hne
  · exact h1

/-- One iteration keeps a property of the titles that holds for the non-empty title of
every header line that is no References marker. -/
theorem stepLine_titles (P : Str → Prop) (raw : Str) (st : LoopState)
    (hP : isHeader (trim raw) = true → sectionTitleOf (trim raw) ≠ [] →
      P (sectionTitleOf (trim raw)))
    (h1 : ∀ s ∈ st.result.sections, P s.title)
    (h2 : ∀ t, st.currentSection = some t → t ≠ [] → P t) :
    (∀ s ∈ (stepLine raw st).result.sections, P s.title) ∧
      (∀ t, (stepLine raw st).currentSection = some t → t ≠ [] → P t) := by
  have hs := saveSection_titles P st h1 h2
  unfold stepLine
  split
  · split
    · exact ⟨h1, h2⟩
    · exact ⟨h1, h2⟩
  · split
    · exact ⟨h1, h2⟩
    · split
      · next hh =>
        split
        · exact ⟨hs, fun t e => by simp at e⟩
        · refine ⟨hs, fun t e hne => ?_⟩
          simp only [openSection, Option.some.injEq] at e
          subst e
          exact hP hh hne
      · split
        · exact ⟨h1, h2⟩
        · split
          · split
            · exact ⟨h1, h2⟩
            · exact ⟨h1, h2⟩
          · exact ⟨h1, h2⟩

/-- The loop keeps such a property of the titles of the sections and of the open
section. -/
theorem parseLoop_titles (P : Str → Prop)
    (hP : ∀ raw, isHeader (trim raw) = true → test referencesPattern (trim raw) = false →
      sectionTitleOf (trim raw) ≠ [] → P (sectionTitleOf (trim raw))) :
    ∀ (fuel : Nat) (lines : List Str) (st st' : LoopState),
      parseLoop fuel lines st = some st' →
      (∀ s ∈ st.result.sections, P s.title) →
      (∀ t, st.currentSection = some t → t ≠ [] → P t) →
      (∀ s ∈ st'.result.sections, P s.title) ∧
        (∀ t, st'.currentSection = some t → t ≠ [] → P t) := by
  intro fuel
  induction fuel with
  | zero =>
    intro lines st st' h h1 h2
    cases lines with
    | nil => simp [parseLoop] at h; subst h; exact ⟨h1, h2⟩
    | cons _ _ => simp [parseLoop] at h
  | succ f ih =>
    intro lines st st' h h1 h2
    cases lines with
    | nil => simp [parseLoop] at h; subst h; exact ⟨h1, h2⟩
    | cons raw rest =>
      rw [parseLoop_cons] at h
      by_cases ha : test abstractPattern (trim raw) = true
      · rw [if_pos ha] at h
        exact ih _ _ _ h h1 h2
      · rw [if_neg ha] at h
        by_cases hr : test referencesPattern (trim raw) = true
        · rw [if_pos hr] at h
          simp only [Option.some.injEq] at h
          subst h
          exact ⟨saveSection_titles P st h1 h2, fun t e => by simp [closeReferences] at e⟩
        · rw [if_neg hr] at h
          simp only [Bool.not_eq_true] at hr
          obtain ⟨k1, k2⟩ := stepLine_titles P raw st (fun hh hne => hP raw hh hr hne) h1 h2
          exact ih _ _ _ h k1 k2

/-- Such a property holds for the title of every section of the result. -/
theorem parseContent_titles (P : Str → Prop)
    (hP : ∀ raw, isHeader (trim raw) = true → test referencesPattern (trim raw) = false →
      sectionTitleOf (trim raw) ≠ [] → P (sectionTitleOf (trim raw)))
    (content : Content) (title : Option Str) (r : ParsedPaper)
    (h : parseContent content title = some r) : ∀ s ∈ r.sections, P s.title := by
  have empty : ∀ s ∈ (initialResult title).sections, P s.title := by
    intro s hs; simp [initialResult] at hs
  have text : ∀ t, parseText t title = some r → ∀ s ∈ r.sections, P s.title := by
    intro t ht
    unfold parseText at ht
    dsimp only at ht
    cases hl : parseLoop (splitOnChar (fun c => c == '\n') t).length
        (splitOnChar (fun c => c == '\n') t)
        { result := initialResult title, currentSection := none, currentContent := [] } with
    | none => rw [hl] at ht; simp at ht
    | some st' =>
      rw [hl] at ht
      simp only [Option.map_some', Option.some.injEq] at ht
      subst ht
      obtain ⟨k1, k2⟩ := parseLoop_titles P hP _ _ _ _ hl empty (fun t e => by simp at e)
      exact saveSection_titles P st' k1 k2
  cases content with
  | absent =>
    simp only [parseContent, Option.some.injEq] at h
    subst h; exact empty
  | str s =>
    unfold parseContent at h
    dsimp only at h
    split at h
    · simp only [Option.some.injEq] at h
      subst h; exact empty
    · exact text s h
  | tree n => exact text _ h

/-! ## The parser: claims on the titles of the sections -/

/-- C27: every section of the result of the parser has a non-empty title.  A heading
line whose title is empty once the markup is stripped (the lines of one or two hash
signs, or of a hash sign and a numeral with its dot) closes the open section and opens
none, and the plain lines after it go into no section until the next heading, as in
the example: only the sections A and B are answered, with the lines x and z. -/
theorem section_titles_not_empty (content : Content) (title : Option Str) :
    (∃ r, parseContent content title = some r ∧ ∀ s ∈ r.sections, s.title ≠ []) ∧
    sectionTitleOf "#".toList = [] ∧ sectionTitleOf "##".toList = [] ∧
    sectionTitleOf "# I.".toList = [] ∧
    parseLoop 3 ["## A".toList, "x".toList, "#".toList] startState =
      some ⟨⟨"Untitled Paper".toList, [], [], [⟨"A".toList, "x".toList⟩], []⟩, some [], []⟩ ∧
    truthyStr (some []) = false ∧
    parseContent (Content.str emptyHeadingExample) none =
      some ⟨"Untitled Paper".toList, [], [],
        [⟨"A".toList, "x".toList⟩, ⟨"B".toList, "z".toList⟩], []⟩ := by
  refine ⟨?_, by decide, by decide, by decide, by decide, by decide, by decide⟩
  obtain ⟨r, hr⟩ := parseContent_total content title
  exact ⟨r, hr, parseContent_titles (fun t => t ≠ []) (fun _ _ _ hne => hne) content title r hr⟩

/-- C28: no section of the result of the parser has the title References in any case of
its letters: a header line with that title is a References marker line, and the marker
rule is tried before the header rule. -/
theorem no_section_titled_references (content : Content) (title : Option Str) :
    (∃ r, parseContent content title = some r ∧
      ∀ s ∈ r.sections, sameIgnoringCase s.title "References".toList = false) ∧
    (∀ raw, isHeader (trim raw) = true →
      sameIgnoringCase (sectionTitleOf (trim raw)) "References".toList = true →
      test referencesPattern (trim raw) = true) := by
  refine ⟨?_, references_title_marker⟩
  obtain ⟨r, hr⟩ := parseContent_total content title
  refine ⟨r, hr, parseContent_titles
    (fun t => sameIgnoringCase t "References".toList = false) ?_ content title r hr⟩
  intro raw hh hr' _
  by_contra hc
  simp only [Bool.not_eq_false] at hc
  rw [references_title_marker raw hh hc] at hr'
  exact absurd hr' (by decide)

end Paper
